import Mathlib

/-!
# ApexLegendsMaterial: the animation modifier and the editor widget

A shallow embedding of `UAAU_AnimModifier::ModifyAnimation` and
`UAAU_AnimModifier::ModifyAnimation_Internal` (`Private/AAU_AnimModifier.cpp`)
together with the Unreal Engine value types they compute with (`FVector`,
`FQuat`, `FRotator`, `FTransform`), and of the slot name functions of
`UEUW_EditorWidget` (`Private/EUW_EditorWidget.cpp`).

Numbers are read in exact arithmetic: `K` is a linearly ordered field and the
scalar math routines of the engine (`FMath::Sqrt`, `FMath::SinCos`,
`FMath::Atan2`, the constant `UE_PI`) are the fields of an `FMath K` record
that every definition takes as a parameter.  Theorems state the laws of those
routines they rely on as hypotheses; closed statements instantiate them with
the real functions.  Array accesses that the engine range-checks return
`none` when the index is out of range.

The zero-displacement guard of the scale step is about a division by zero and
about NaN, which exact arithmetic does not have; for it the scale step is
read a second time on `FloatValue K`, a finite number or an IEEE 754 infinity
or NaN, and the two readings are shown to agree on finite arguments.
-/

namespace ApexLegendsMaterial

/-! ## Value types -/

/-- Engine type `FVector`. -/
structure FVector (K : Type) where
  X : K
  Y : K
  Z : K
deriving DecidableEq, Repr

/-- Engine type `FQuat`. -/
structure FQuat (K : Type) where
  X : K
  Y : K
  Z : K
  W : K
deriving DecidableEq, Repr

/-- Engine type `FRotator`; the constructor takes pitch, yaw and roll in this
order, in degrees. -/
structure FRotator (K : Type) where
  Pitch : K
  Yaw : K
  Roll : K
deriving DecidableEq, Repr

/-- Engine type `FTransform`; the constructor takes rotation, translation and
scale in this order. -/
structure FTransform (K : Type) where
  Rotation : FQuat K
  Translation : FVector K
  Scale3D : FVector K
deriving DecidableEq, Repr

/-! ## Scalar math -/

/-- Routines of the engine math library that are taken as parameters: the
scalar functions, and the matrix path that `FTransform::Multiply` takes when
a scale component is negative. -/
structure FMath (K : Type) where
  Sqrt : K → K
  Sin : K → K
  Cos : K → K
  Atan2 : K → K → K
  PI : K
  MultiplyUsingMatrixWithScale : FTransform K → FTransform K → FTransform K

section Defs

variable {K : Type} [LinearOrderedField K] [FloorRing K]

/-- Engine constant `UE_SMALL_NUMBER` (1.e-8f). -/
def UE_SMALL_NUMBER : K := 1 / 100000000

/-- Engine constant `UE_KINDA_SMALL_NUMBER` (1.e-4f). -/
def UE_KINDA_SMALL_NUMBER : K := 1 / 10000

/-- Contract of `FMath::Sqrt` on non-negative arguments. -/
def FMath.SqrtLaw (M : FMath K) : Prop :=
  ∀ x : K, 0 ≤ x → 0 ≤ M.Sqrt x ∧ M.Sqrt x * M.Sqrt x = x

/-- The routine `FMath::InvSqrt`: one over the square root. -/
def FMath.InvSqrt (M : FMath K) (x : K) : K := 1 / M.Sqrt x

/-- Rounding toward zero, as the C library does inside `fmod`. -/
def truncToInt (q : K) : Int := if 0 ≤ q then Int.floor q else Int.ceil q

/-- The routine `FMath::Fmod`: zero for a divisor within `UE_SMALL_NUMBER` of
zero, the C remainder (sign of the dividend) otherwise. -/
def Fmod (x y : K) : K :=
  if |y| ≤ UE_SMALL_NUMBER then 0 else x - (truncToInt (x / y) : K) * y

/-! ## Vectors -/

namespace FVector

/-- The constant `FVector::ZeroVector`. -/
def ZeroVector : FVector K := ⟨0, 0, 0⟩

/-- The constant `FVector::OneVector`. -/
def OneVector : FVector K := ⟨1, 1, 1⟩

/-- Componentwise `operator+`. -/
def add (a b : FVector K) : FVector K := ⟨a.X + b.X, a.Y + b.Y, a.Z + b.Z⟩

/-- Componentwise `operator-`. -/
def sub (a b : FVector K) : FVector K := ⟨a.X - b.X, a.Y - b.Y, a.Z - b.Z⟩

/-- Multiplication by a scalar, `operator*(T)`. -/
def scale (a : FVector K) (s : K) : FVector K := ⟨a.X * s, a.Y * s, a.Z * s⟩

/-- Componentwise product, `operator*(const TVector&)`. -/
def mul (a b : FVector K) : FVector K := ⟨a.X * b.X, a.Y * b.Y, a.Z * b.Z⟩

/-- Cross product, `operator^`. -/
def cross (a b : FVector K) : FVector K :=
  ⟨a.Y * b.Z - a.Z * b.Y, a.Z * b.X - a.X * b.Z, a.X * b.Y - a.Y * b.X⟩

/-- The method `SizeSquared`. -/
def SizeSquared (a : FVector K) : K := a.X * a.X + a.Y * a.Y + a.Z * a.Z

/-- The method `Length`. -/
def Length (M : FMath K) (a : FVector K) : K := M.Sqrt (a.X * a.X + a.Y * a.Y + a.Z * a.Z)

/-- The method `GetSafeNormal` with its default arguments
(`Tolerance = UE_SMALL_NUMBER`, `ResultIfZero = ZeroVector`). -/
def GetSafeNormal (M : FMath K) (a : FVector K) : FVector K :=
  let SquareSum := a.X * a.X + a.Y * a.Y + a.Z * a.Z
  if SquareSum = 1 then a
  else if SquareSum < UE_SMALL_NUMBER then ZeroVector
  else
    let Scale := M.InvSqrt SquareSum
    ⟨a.X * Scale, a.Y * Scale, a.Z * Scale⟩

end FVector

/-! ## Quaternions, rotators, transforms -/

namespace FQuat

/-- The constant `FQuat::Identity`. -/
def Identity : FQuat K := ⟨0, 0, 0, 1⟩

/-- Quaternion product `operator*`: `mul A B` is first `B`, then `A`. -/
def mul (A B : FQuat K) : FQuat K :=
  ⟨A.W * B.X + A.X * B.W + A.Y * B.Z - A.Z * B.Y,
   A.W * B.Y - A.X * B.Z + A.Y * B.W + A.Z * B.X,
   A.W * B.Z + A.X * B.Y - A.Y * B.X + A.Z * B.W,
   A.W * B.W - A.X * B.X - A.Y * B.Y - A.Z * B.Z⟩

/-- The method `RotateVector`. -/
def RotateVector (q : FQuat K) (V : FVector K) : FVector K :=
  let Q : FVector K := ⟨q.X, q.Y, q.Z⟩
  let TT := (Q.cross V).scale 2
  (V.add (TT.scale q.W)).add (Q.cross TT)

/-- The method `GetAxisX`: the rotated forward axis. -/
def GetAxisX (q : FQuat K) : FVector K := q.RotateVector ⟨1, 0, 0⟩

/-- The method `Inverse` (the conjugate; the engine expects a unit
quaternion). -/
def Inverse (q : FQuat K) : FQuat K := ⟨-q.X, -q.Y, -q.Z, q.W⟩

end FQuat

/-- The method `FRotator::Quaternion`. -/
def FRotator.Quaternion (M : FMath K) (r : FRotator K) : FQuat K :=
  let DEG_TO_RAD := M.PI / 180
  let RADS_DIVIDED_BY_2 := DEG_TO_RAD / 2
  let PitchNoWinding := Fmod r.Pitch 360
  let YawNoWinding := Fmod r.Yaw 360
  let RollNoWinding := Fmod r.Roll 360
  let SP := M.Sin (PitchNoWinding * RADS_DIVIDED_BY_2)
  let CP := M.Cos (PitchNoWinding * RADS_DIVIDED_BY_2)
  let SY := M.Sin (YawNoWinding * RADS_DIVIDED_BY_2)
  let CY := M.Cos (YawNoWinding * RADS_DIVIDED_BY_2)
  let SR := M.Sin (RollNoWinding * RADS_DIVIDED_BY_2)
  let CR := M.Cos (RollNoWinding * RADS_DIVIDED_BY_2)
  ⟨CR * SP * SY - SR * CP * CY,
   -CR * SP * CY - SR * CP * SY,
   CR * CP * SY - SR * SP * CY,
   CR * CP * CY + SR * SP * SY⟩

/-- The method `FVector::ToOrientationQuat`: yaw and pitch of the direction,
no roll. -/
def FVector.ToOrientationQuat (M : FMath K) (a : FVector K) : FQuat K :=
  let YawRad := M.Atan2 a.Y a.X
  let PitchRad := M.Atan2 a.Z (M.Sqrt (a.X * a.X + a.Y * a.Y))
  let SP := M.Sin (PitchRad * (1 / 2))
  let CP := M.Cos (PitchRad * (1 / 2))
  let SY := M.Sin (YawRad * (1 / 2))
  let CY := M.Cos (YawRad * (1 / 2))
  ⟨SP * SY, -SP * CY, CP * SY, CP * CY⟩

namespace FTransform

/-- The constant `FTransform::Identity`. -/
def Identity : FTransform K := ⟨FQuat.Identity, FVector.ZeroVector, FVector.OneVector⟩

/-- The method `GetLocation`. -/
def GetLocation (t : FTransform K) : FVector K := t.Translation

/-- The method `GetRotation`. -/
def GetRotation (t : FTransform K) : FQuat K := t.Rotation

/-- The method `GetScale3D`. -/
def GetScale3D (t : FTransform K) : FVector K := t.Scale3D

/-- The test `AnyHasNegativeScale` of `FTransform::Multiply`. -/
def AnyHasNegativeScale (a b : FVector K) : Bool :=
  decide (a.X < 0) || decide (a.Y < 0) || decide (a.Z < 0) ||
  decide (b.X < 0) || decide (b.Y < 0) || decide (b.Z < 0)

/-- The product `A * B` of `FTransform::Multiply`: `A` first, then `B`. -/
def Multiply (M : FMath K) (A B : FTransform K) : FTransform K :=
  if AnyHasNegativeScale A.Scale3D B.Scale3D then
    M.MultiplyUsingMatrixWithScale A B
  else
    ⟨B.Rotation.mul A.Rotation,
     (B.Rotation.RotateVector (B.Scale3D.mul A.Translation)).add B.Translation,
     A.Scale3D.mul B.Scale3D⟩

end FTransform

/-- Library call `UKismetMathLibrary::ComposeTransforms(A, B)`, which is
`A * B`. -/
def ComposeTransforms (M : FMath K) (A B : FTransform K) : FTransform K :=
  FTransform.Multiply M A B

/-! ## The animation sequence -/

end Defs

/-- Engine type `FName`: names are compared by their index in the name
table. -/
structure FName where
  ComparisonIndex : Nat
deriving DecidableEq, Repr

/-- Engine type `FMeshBoneInfo`, one entry per bone of the reference
skeleton. -/
structure FMeshBoneInfo where
  Name : FName
  ParentIndex : Int
deriving DecidableEq, Repr

/-- One bone track of the data model: the bone name and one transform per
key. -/
structure FBoneAnimationTrack (K : Type) where
  Name : FName
  Keys : List (FTransform K)
deriving DecidableEq, Repr

/-- The arguments of one call of
`IAnimationDataController::SetBoneTrackKeys`. -/
structure FSetBoneTrackKeysCall (K : Type) where
  BoneName : FName
  PositionalKeys : List (FVector K)
  RotationalKeys : List (FQuat K)
  ScalingKeys : List (FVector K)
deriving DecidableEq, Repr

/-- What `ModifyAnimation_Internal` reads and writes of a `UAnimSequence`:
the raw reference pose and bone infos of its skeleton, and its data model
(number of keys and bone tracks).  The controller returned by
`GetController` edits the data model returned by `GetDataModel`: they belong
to the same sequence.  `ControllerCalls` records the `SetBoneTrackKeys`
calls in call order. -/
structure UAnimSequence (K : Type) where
  RefBonePose : List (FTransform K)
  RefBoneInfo : List FMeshBoneInfo
  NumberOfKeys : Nat
  BoneAnimationTracks : List (FBoneAnimationTrack K)
  ControllerCalls : List (FSetBoneTrackKeysCall K)
deriving DecidableEq, Repr

section Pipeline

variable {K : Type} [LinearOrderedField K] [FloorRing K]

/-- The keys of the first track of the list that carries the name; the empty
array when there is none. -/
def FindBoneTrackKeys (BoneName : FName) :
    List (FBoneAnimationTrack K) → List (FTransform K)
  | [] => []
  | t :: ts => if t.Name = BoneName then t.Keys else FindBoneTrackKeys BoneName ts

/-- Data model call `GetBoneTrackTransforms(BoneName, OutTransforms)`: the
out array, empty before the call, receives the keys of the named track. -/
def UAnimSequence.GetBoneTrackTransforms (AnimSeq : UAnimSequence K) (BoneName : FName) :
    List (FTransform K) :=
  FindBoneTrackKeys BoneName AnimSeq.BoneAnimationTracks

/-- The transforms stored for three parallel key arrays. -/
def MakeTransformKeys :
    List (FVector K) → List (FQuat K) → List (FVector K) → List (FTransform K)
  | p :: ps, r :: rs, s :: ss => ⟨r, p, s⟩ :: MakeTransformKeys ps rs ss
  | _, _, _ => []

/-- Controller call `SetBoneTrackKeys(BoneName, PositionalKeys,
RotationalKeys, ScalingKeys)`: the keys of the named track are replaced as a
whole; the call is recorded. -/
def UAnimSequence.SetBoneTrackKeys (AnimSeq : UAnimSequence K) (BoneName : FName)
    (PositionalKeys : List (FVector K)) (RotationalKeys : List (FQuat K))
    (ScalingKeys : List (FVector K)) : UAnimSequence K :=
  { AnimSeq with
    BoneAnimationTracks := AnimSeq.BoneAnimationTracks.map (fun t =>
      if t.Name = BoneName then
        { t with Keys := MakeTransformKeys PositionalKeys RotationalKeys ScalingKeys }
      else t)
    ControllerCalls := AnimSeq.ControllerCalls ++
      [⟨BoneName, PositionalKeys, RotationalKeys, ScalingKeys⟩] }

/-! ## The bone scale step -/

/-- Lines 116-123 of `ModifyAnimation_Internal`: the scaled bone location
computed from the reference location, the animated location and the scale. -/
def ScaledBoneLocation (M : FMath K) (RefBoneLocation AnimBoneLocation : FVector K)
    (Scale : K) : FVector K :=
  let DeltaLocation := AnimBoneLocation.sub RefBoneLocation
  let DeltaDirection := DeltaLocation.GetSafeNormal M
  let DeltaLength := DeltaLocation.Length M
  RefBoneLocation.add (DeltaDirection.scale (DeltaLength * Scale))

/-- Lines 125-130: the rotation key of a bone; the root (`BoneIdx == 0`) is
left-multiplied by `FRotator(0.f, 0.f, -90.f).Quaternion()` when
`bUnrotateRootBone` is set. -/
def BoneRotation (M : FMath K) (bUnrotateRootBone : Bool) (BoneIdx : Nat)
    (OriginalTransform : FTransform K) : FQuat K :=
  if bUnrotateRootBone && BoneIdx == 0 then
    let RotationQuat := (FRotator.mk (0 : K) 0 (-90)).Quaternion M
    RotationQuat.mul OriginalTransform.GetRotation
  else OriginalTransform.GetRotation

/-- The local arrays of the bone loop body together with the accumulator
`RootRelativeStart`. -/
structure FKeyLoopState (K : Type) where
  PositionalKeys : List (FVector K)
  RotationalKeys : List (FQuat K)
  ScalingKeys : List (FVector K)
  RootRelativeStart : List (FTransform K)
deriving DecidableEq, Repr

/-- Lines 112-148: the key loop of one bone, `Remaining` iterations from
`KeyIdx` on.  Reading `OriginalBoneTrack[KeyIdx]` or
`RootRelativeStart[KeyIdx]` out of range stops the run. -/
def ScaleKeyLoop (M : FMath K) (Scale : K) (bUnrotateRootBone bStart : Bool) (BoneIdx : Nat)
    (RefBoneTransform : FTransform K) (OriginalBoneTrack : List (FTransform K)) :
    (Remaining : Nat) → (KeyIdx : Nat) → FKeyLoopState K → Option (FKeyLoopState K)
  | 0, _, st => some st
  | Remaining + 1, KeyIdx, st =>
    match OriginalBoneTrack[KeyIdx]? with
    | none => none
    | some OriginalTransform =>
      let RefBoneLocation := RefBoneTransform.GetLocation
      let AnimBoneLocation := OriginalTransform.GetLocation
      let Scaled := ScaledBoneLocation M RefBoneLocation AnimBoneLocation Scale
      let Rot := BoneRotation M bUnrotateRootBone BoneIdx OriginalTransform
      let st1 : FKeyLoopState K :=
        { st with
          PositionalKeys := st.PositionalKeys ++ [Scaled]
          RotationalKeys := st.RotationalKeys ++ [Rot]
          ScalingKeys := st.ScalingKeys ++ [OriginalTransform.GetScale3D] }
      if bStart && decide (BoneIdx < 3) then
        match st.RootRelativeStart[KeyIdx]? with
        | none => none
        | some Acc =>
          ScaleKeyLoop M Scale bUnrotateRootBone bStart BoneIdx RefBoneTransform
            OriginalBoneTrack Remaining (KeyIdx + 1)
            { st1 with
              RootRelativeStart := st.RootRelativeStart.set KeyIdx
                (ComposeTransforms M ⟨Rot, Scaled, OriginalTransform.GetScale3D⟩ Acc) }
      else
        ScaleKeyLoop M Scale bUnrotateRootBone bStart BoneIdx RefBoneTransform
          OriginalBoneTrack Remaining (KeyIdx + 1) st1

/-- Lines 98-154: the bone loop, `Remaining` iterations from `BoneIdx` on,
on the sequence and the accumulator.  Each bone reads its name and reference
transform, reads its track from the data model, runs the key loop and writes
the three key arrays through the controller. -/
def BoneLoop (M : FMath K) (Scale : K) (bUnrotateRootBone bStart : Bool) (KeyNum : Nat) :
    (Remaining : Nat) → (BoneIdx : Nat) → UAnimSequence K → List (FTransform K) →
    Option (UAnimSequence K × List (FTransform K))
  | 0, _, AnimSeq, RootRelativeStart => some (AnimSeq, RootRelativeStart)
  | Remaining + 1, BoneIdx, AnimSeq, RootRelativeStart =>
    match AnimSeq.RefBoneInfo[BoneIdx]?, AnimSeq.RefBonePose[BoneIdx]? with
    | some Info, some RefBoneTransform =>
      let BoneName := Info.Name
      let OriginalBoneTrack := AnimSeq.GetBoneTrackTransforms BoneName
      match ScaleKeyLoop M Scale bUnrotateRootBone bStart BoneIdx RefBoneTransform
          OriginalBoneTrack KeyNum 0 ⟨[], [], [], RootRelativeStart⟩ with
      | none => none
      | some st =>
        BoneLoop M Scale bUnrotateRootBone bStart KeyNum Remaining (BoneIdx + 1)
          (AnimSeq.SetBoneTrackKeys BoneName st.PositionalKeys st.RotationalKeys
            st.ScalingKeys)
          st.RootRelativeStart
    | _, _ => none

/-- Lines 169-176: the root keys of the root-relative pass at one key. -/
def RootRelativeKey (M : FMath K) (RootKey Acc : FTransform K) :
    FVector K × FQuat K × FVector K :=
  let RootTranslation := RootKey.GetLocation.sub Acc.GetLocation
  let RotationQuat := (Acc.GetRotation.GetAxisX.ToOrientationQuat M).Inverse
  (RotationQuat.RotateVector RootTranslation,
   RotationQuat.mul RootKey.GetRotation,
   RootKey.GetScale3D)

/-- Lines 167-177: the key loop of the root-relative pass.  Reading
`RootTrack[KeyIdx]` or `RootRelativeStart[KeyIdx]` out of range stops the
run. -/
def RootKeyLoop (M : FMath K) (RootTrack RootRelativeStart : List (FTransform K)) :
    (Remaining : Nat) → (KeyIdx : Nat) →
    List (FVector K) × List (FQuat K) × List (FVector K) →
    Option (List (FVector K) × List (FQuat K) × List (FVector K))
  | 0, _, keys => some keys
  | Remaining + 1, KeyIdx, (PositionalKeys, RotationalKeys, ScalingKeys) =>
    match RootTrack[KeyIdx]?, RootRelativeStart[KeyIdx]? with
    | some RootKey, some Acc =>
      let k := RootRelativeKey M RootKey Acc
      RootKeyLoop M RootTrack RootRelativeStart Remaining (KeyIdx + 1)
        (PositionalKeys ++ [k.1], RotationalKeys ++ [k.2.1], ScalingKeys ++ [k.2.2])
    | _, _ => none

/-- Lines 156-180: the root-relative pass on the sequence left by the bone
loop. -/
def RootRelativePass (M : FMath K) (KeyNum : Nat) (AnimSeq : UAnimSequence K)
    (RootRelativeStart : List (FTransform K)) : Option (UAnimSequence K) :=
  match AnimSeq.RefBoneInfo[0]? with
  | none => none
  | some Info =>
    let RootBoneName := Info.Name
    let RootTrack := AnimSeq.GetBoneTrackTransforms RootBoneName
    match RootKeyLoop M RootTrack RootRelativeStart KeyNum 0 ([], [], []) with
    | none => none
    | some keys => some (AnimSeq.SetBoneTrackKeys RootBoneName keys.1 keys.2.1 keys.2.2)

/-- Lines 89-96: the accumulator before the bone loop. -/
def InitialRootRelativeStart (bStart : Bool) (KeyNum : Nat) : List (FTransform K) :=
  if bStart then List.replicate KeyNum FTransform.Identity else []

/-- Lines 98-154 from the first bone: the scale pass. -/
def ScalePass (M : FMath K) (AnimSeq : UAnimSequence K) (Scale : K)
    (bUnrotateRootBone bStart : Bool) : Option (UAnimSequence K × List (FTransform K)) :=
  BoneLoop M Scale bUnrotateRootBone bStart AnimSeq.NumberOfKeys AnimSeq.RefBonePose.length 0
    AnimSeq (InitialRootRelativeStart bStart AnimSeq.NumberOfKeys)

/-- The method `UAAU_AnimModifier::ModifyAnimation_Internal` on an animation
sequence: `none` when an array is read out of range, the edited sequence
otherwise. -/
def ModifyAnimation_Internal (M : FMath K) (AnimSeq : UAnimSequence K) (Scale : K)
    (bUnrotateRootBone bStart : Bool) : Option (UAnimSequence K) :=
  let BoneNum := AnimSeq.RefBonePose.length
  if BoneNum < 1 then some AnimSeq
  else
    match ScalePass M AnimSeq Scale bUnrotateRootBone bStart with
    | none => none
    | some (Scaled, RootRelativeStart) =>
      if bStart then RootRelativePass M AnimSeq.NumberOfKeys Scaled RootRelativeStart
      else some Scaled

/-! ## Notions used to state the properties -/

/-- The transform `FTransform(BoneRotation, ScaledBoneLocation,
OriginalTransform.GetScale3D())` that the key loop computes for one key of a
bone (line 144); its three parts are the keys added at lines 132-134. -/
def ScaledKey (M : FMath K) (Scale : K) (bUnrotateRootBone : Bool) (BoneIdx : Nat)
    (RefBoneTransform OriginalTransform : FTransform K) : FTransform K :=
  ⟨BoneRotation M bUnrotateRootBone BoneIdx OriginalTransform,
   ScaledBoneLocation M RefBoneTransform.GetLocation OriginalTransform.GetLocation Scale,
   OriginalTransform.GetScale3D⟩

/-- The transform that the root-relative pass stores for one key. -/
def RootRelativeTransform (M : FMath K) (RootKey Acc : FTransform K) : FTransform K :=
  ⟨(RootRelativeKey M RootKey Acc).2.1, (RootRelativeKey M RootKey Acc).1,
   (RootRelativeKey M RootKey Acc).2.2⟩

/-- The rotation by `Degrees` about the vertical Z axis as a quaternion, the
`Rz` of the specification. -/
def Rz (M : FMath K) (Degrees : K) : FQuat K :=
  ⟨0, 0, M.Sin (Degrees * (M.PI / 180) / 2), M.Cos (Degrees * (M.PI / 180) / 2)⟩

/-- The invariant of the data model that the modifier relies on: bone infos
and reference pose have the same length and the track of every bone of the
skeleton has exactly `NumberOfKeys` keys. -/
def UAnimSequence.WellFormed (AnimSeq : UAnimSequence K) : Prop :=
  AnimSeq.RefBoneInfo.length = AnimSeq.RefBonePose.length ∧
  ∀ Info ∈ AnimSeq.RefBoneInfo,
    (AnimSeq.GetBoneTrackTransforms Info.Name).length = AnimSeq.NumberOfKeys

/-! ## Example sequences -/

/-- A skeleton of one bone, the root, named 0, with the identity as reference
transform, `KeyNum` keys and the given root track. -/
def OneBoneSequence (KeyNum : Nat) (RootTrack : List (FTransform K)) : UAnimSequence K :=
  ⟨[FTransform.Identity], [⟨⟨0⟩, -1⟩], KeyNum, [⟨⟨0⟩, RootTrack⟩], []⟩

/-- A skeleton of two bones, the root named 0 and a child named 1, with the
identity as reference transforms, one key, and the given key for each
bone. -/
def TwoBoneSequence (RootKey ChildKey : FTransform K) : UAnimSequence K :=
  ⟨[FTransform.Identity, FTransform.Identity], [⟨⟨0⟩, -1⟩, ⟨⟨1⟩, 0⟩], 1,
    [⟨⟨0⟩, [RootKey]⟩, ⟨⟨1⟩, [ChildKey]⟩], []⟩

/-- The skeleton of the end-to-end scenario: four bones, root, delta, start
and child, named 0 to 3, all reference transforms the identity (reference
positions at the origin), two keys, and the same track for every bone. -/
def FourBoneSequence (Track : List (FTransform K)) : UAnimSequence K :=
  ⟨[FTransform.Identity, FTransform.Identity, FTransform.Identity, FTransform.Identity],
    [⟨⟨0⟩, -1⟩, ⟨⟨1⟩, 0⟩, ⟨⟨2⟩, 1⟩, ⟨⟨3⟩, 2⟩], 2,
    [⟨⟨0⟩, Track⟩, ⟨⟨1⟩, Track⟩, ⟨⟨2⟩, Track⟩, ⟨⟨3⟩, Track⟩], []⟩

/-! ## The entry point `ModifyAnimation` -/

/-- The default scale `0.0254f` of `ModifyAnimation`. -/
def DefaultScale : K := 254 / 10000

/-- What `ModifyAnimation` distinguishes in a loaded object: an animation
sequence or anything else. -/
inductive UObject (K : Type) where
  | AnimSequence (AnimSeq : UAnimSequence K)
  | Other
deriving DecidableEq, Repr

/-- One selected asset: the object that `GetAsset` returns, if any, and
whether `UEditorAssetLibrary::DuplicateLoadedAsset` returns a duplicate of
it. -/
structure FAssetData (K : Type) where
  Asset : Option (UObject K)
  bDuplicationSucceeds : Bool
deriving DecidableEq, Repr

/-- Lines 24-58 of `ModifyAnimation`: the loop over the selected assets with
the scale already fixed.  Objects that are no animation sequence are
skipped, a failed duplication is reported and skipped, and each duplicate is
modified and saved; the result lists the saved duplicates in order, and is
`none` when a run of `ModifyAnimation_Internal` stops. -/
def ModifySelectedAssets (M : FMath K) (Scale : K) (bUnrotateRootBone bStart : Bool) :
    List (FAssetData K) → Option (List (UAnimSequence K))
  | [] => some []
  | SelectedAssetData :: Rest =>
    match SelectedAssetData.Asset with
    | some (UObject.AnimSequence AnimSeq) =>
      if SelectedAssetData.bDuplicationSucceeds then
        match ModifyAnimation_Internal M AnimSeq Scale bUnrotateRootBone bStart with
        | none => none
        | some Saved =>
          match ModifySelectedAssets M Scale bUnrotateRootBone bStart Rest with
          | none => none
          | some SavedRest => some (Saved :: SavedRest)
      else ModifySelectedAssets M Scale bUnrotateRootBone bStart Rest
    | _ => ModifySelectedAssets M Scale bUnrotateRootBone bStart Rest

/-- The method `UAAU_AnimModifier::ModifyAnimation` on the selected assets: a
scale below `UE_KINDA_SMALL_NUMBER` is replaced by `0.0254f` (lines 19-22),
then every selected animation sequence is duplicated and modified. -/
def ModifyAnimation (M : FMath K) (SelectedAssetDatas : List (FAssetData K)) (Scale : K)
    (bUnrotateRootBone bStart : Bool) : Option (List (UAnimSequence K)) :=
  let Scale := if Scale < UE_KINDA_SMALL_NUMBER then DefaultScale else Scale
  ModifySelectedAssets M Scale bUnrotateRootBone bStart SelectedAssetDatas

/-! ## Side conditions of the composition laws -/

/-- The method `FQuat::SizeSquared`; it is one for a unit quaternion. -/
def FQuat.SizeSquared (q : FQuat K) : K := q.X * q.X + q.Y * q.Y + q.Z * q.Z + q.W * q.W

/-- No component of the vector is negative: a scale with which
`FTransform::Multiply` stays off its matrix path. -/
def FVector.IsNonNegative (a : FVector K) : Prop := 0 ≤ a.X ∧ 0 ≤ a.Y ∧ 0 ≤ a.Z

/-- The three components of the vector are equal: a uniform scale. -/
def FVector.IsUniform (a : FVector K) : Prop := a.X = a.Y ∧ a.Y = a.Z

/-! ## The accumulated chain, in the words of the specification -/

/-- The already-scaled transform `S i (k)` of bone `i` at key `k`: the scaled
key of the bone's original key (scaled position, rotation after the root
unrotation rule, original scale); `none` when the bone or the key does not
exist. -/
def BoneScaledKey (M : FMath K) (AnimSeq : UAnimSequence K) (Scale : K)
    (bUnrotateRootBone : Bool) (BoneIdx KeyIdx : Nat) : Option (FTransform K) :=
  match AnimSeq.RefBoneInfo[BoneIdx]?, AnimSeq.RefBonePose[BoneIdx]? with
  | some Info, some RefBoneTransform =>
    match (AnimSeq.GetBoneTrackTransforms Info.Name)[KeyIdx]? with
    | some OriginalTransform =>
      some (ScaledKey M Scale bUnrotateRootBone BoneIdx RefBoneTransform OriginalTransform)
    | none => none
  | _, _ => none

/-- The chain of the first `Count` bones folded in ascending order from the
identity: `ChainAccumulator 0 = Identity` and `ChainAccumulator (n + 1) =
S n * ChainAccumulator n`, with `A * B = ComposeTransforms(A, B)`; so for
three bones it is `S 2 * (S 1 * (S 0 * Identity))`. -/
def ChainAccumulator (M : FMath K) (AnimSeq : UAnimSequence K) (Scale : K)
    (bUnrotateRootBone : Bool) (KeyIdx : Nat) : (Count : Nat) → FTransform K
  | 0 => FTransform.Identity
  | Count + 1 =>
    match BoneScaledKey M AnimSeq Scale bUnrotateRootBone Count KeyIdx with
    | some S =>
      ComposeTransforms M S (ChainAccumulator M AnimSeq Scale bUnrotateRootBone KeyIdx Count)
    | none => ChainAccumulator M AnimSeq Scale bUnrotateRootBone KeyIdx Count

/-! ## The scale step on floating-point values

The scale check of `ModifyAnimation` and the scale step of
`ModifyAnimation_Internal` once more, on values that are a finite number or
one of the special values of IEEE 754 arithmetic.  Finite values are computed
exactly, without rounding and without overflow; zero carries no sign and
stands for `+0`; the infinities and NaN follow the rules of the standard.
This is the reading in which a division by zero and a NaN can be seen. -/

/-- A value of type `float` or `double`. -/
inductive FloatValue (K : Type) where
  | Finite (x : K)
  | PosInf
  | NegInf
  | NaN
deriving DecidableEq

namespace FloatValue

/-- Unary minus. -/
def neg : FloatValue K → FloatValue K
  | Finite a => Finite (-a)
  | PosInf => NegInf
  | NegInf => PosInf
  | NaN => NaN

/-- Addition; infinities of opposite sign add to NaN. -/
def add : FloatValue K → FloatValue K → FloatValue K
  | Finite a, Finite b => Finite (a + b)
  | Finite _, PosInf => PosInf
  | Finite _, NegInf => NegInf
  | PosInf, Finite _ => PosInf
  | PosInf, PosInf => PosInf
  | PosInf, NegInf => NaN
  | NegInf, Finite _ => NegInf
  | NegInf, PosInf => NaN
  | NegInf, NegInf => NegInf
  | Finite _, NaN => NaN
  | PosInf, NaN => NaN
  | NegInf, NaN => NaN
  | NaN, _ => NaN

/-- Subtraction. -/
def sub (a b : FloatValue K) : FloatValue K := a.add b.neg

/-- Multiplication; zero times an infinity is NaN. -/
def mul : FloatValue K → FloatValue K → FloatValue K
  | Finite a, Finite b => Finite (a * b)
  | Finite a, PosInf => if a = 0 then NaN else if 0 < a then PosInf else NegInf
  | Finite a, NegInf => if a = 0 then NaN else if 0 < a then NegInf else PosInf
  | PosInf, Finite b => if b = 0 then NaN else if 0 < b then PosInf else NegInf
  | NegInf, Finite b => if b = 0 then NaN else if 0 < b then NegInf else PosInf
  | PosInf, PosInf => PosInf
  | PosInf, NegInf => NegInf
  | NegInf, PosInf => NegInf
  | NegInf, NegInf => PosInf
  | Finite _, NaN => NaN
  | PosInf, NaN => NaN
  | NegInf, NaN => NaN
  | NaN, _ => NaN

/-- Division; zero over zero and infinity over infinity are NaN, and a
non-zero finite value over zero is the infinity of its sign. -/
def div : FloatValue K → FloatValue K → FloatValue K
  | Finite a, Finite b =>
    if b = 0 then (if a = 0 then NaN else if 0 < a then PosInf else NegInf)
    else Finite (a / b)
  | Finite _, PosInf => Finite 0
  | Finite _, NegInf => Finite 0
  | PosInf, Finite b => if 0 ≤ b then PosInf else NegInf
  | NegInf, Finite b => if 0 ≤ b then NegInf else PosInf
  | PosInf, PosInf => NaN
  | PosInf, NegInf => NaN
  | NegInf, PosInf => NaN
  | NegInf, NegInf => NaN
  | Finite _, NaN => NaN
  | PosInf, NaN => NaN
  | NegInf, NaN => NaN
  | NaN, _ => NaN

/-- Comparison `==`; false whenever an operand is NaN. -/
def eq : FloatValue K → FloatValue K → Bool
  | Finite a, Finite b => decide (a = b)
  | PosInf, PosInf => true
  | NegInf, NegInf => true
  | Finite _, PosInf => false
  | Finite _, NegInf => false
  | PosInf, Finite _ => false
  | PosInf, NegInf => false
  | NegInf, Finite _ => false
  | NegInf, PosInf => false
  | Finite _, NaN => false
  | PosInf, NaN => false
  | NegInf, NaN => false
  | NaN, _ => false

/-- Comparison `<`; false whenever an operand is NaN. -/
def lt : FloatValue K → FloatValue K → Bool
  | Finite a, Finite b => decide (a < b)
  | Finite _, PosInf => true
  | NegInf, Finite _ => true
  | NegInf, PosInf => true
  | Finite _, NegInf => false
  | PosInf, Finite _ => false
  | PosInf, PosInf => false
  | PosInf, NegInf => false
  | NegInf, NegInf => false
  | Finite _, NaN => false
  | PosInf, NaN => false
  | NegInf, NaN => false
  | NaN, _ => false

/-- The routine `FMath::Sqrt`; NaN on a negative argument. -/
def Sqrt (M : FMath K) : FloatValue K → FloatValue K
  | Finite a => if a < 0 then NaN else Finite (M.Sqrt a)
  | PosInf => PosInf
  | NegInf => NaN
  | NaN => NaN

/-- The routine `FMath::InvSqrt`: one over the square root. -/
def InvSqrt (M : FMath K) (x : FloatValue K) : FloatValue K := div (Finite 1) (Sqrt M x)

end FloatValue

namespace IEEE

/-- A vector of finite components. -/
def ofVector (a : FVector K) : FVector (FloatValue K) :=
  ⟨FloatValue.Finite a.X, FloatValue.Finite a.Y, FloatValue.Finite a.Z⟩

/-- The vector whose components are NaN. -/
def NaNVector : FVector (FloatValue K) := ⟨FloatValue.NaN, FloatValue.NaN, FloatValue.NaN⟩

/-- Componentwise `operator+`. -/
def add (a b : FVector (FloatValue K)) : FVector (FloatValue K) :=
  ⟨a.X.add b.X, a.Y.add b.Y, a.Z.add b.Z⟩

/-- Componentwise `operator-`. -/
def sub (a b : FVector (FloatValue K)) : FVector (FloatValue K) :=
  ⟨a.X.sub b.X, a.Y.sub b.Y, a.Z.sub b.Z⟩

/-- Multiplication by a scalar, `operator*(T)`. -/
def scale (a : FVector (FloatValue K)) (s : FloatValue K) : FVector (FloatValue K) :=
  ⟨a.X.mul s, a.Y.mul s, a.Z.mul s⟩

/-- The method `Length`. -/
def Length (M : FMath K) (a : FVector (FloatValue K)) : FloatValue K :=
  FloatValue.Sqrt M (((a.X.mul a.X).add (a.Y.mul a.Y)).add (a.Z.mul a.Z))

/-- The method `GetSafeNormal` with its default arguments
(`Tolerance = UE_SMALL_NUMBER`, `ResultIfZero = ZeroVector`). -/
def GetSafeNormal (M : FMath K) (a : FVector (FloatValue K)) : FVector (FloatValue K) :=
  let SquareSum := ((a.X.mul a.X).add (a.Y.mul a.Y)).add (a.Z.mul a.Z)
  if SquareSum.eq (FloatValue.Finite 1) then a
  else if SquareSum.lt (FloatValue.Finite UE_SMALL_NUMBER) then ofVector FVector.ZeroVector
  else
    let Scale := FloatValue.InvSqrt M SquareSum
    ⟨a.X.mul Scale, a.Y.mul Scale, a.Z.mul Scale⟩

/-- Lines 116-123 of `ModifyAnimation_Internal`. -/
def ScaledBoneLocation (M : FMath K) (RefBoneLocation AnimBoneLocation : FVector (FloatValue K))
    (Scale : FloatValue K) : FVector (FloatValue K) :=
  let DeltaLocation := sub AnimBoneLocation RefBoneLocation
  let DeltaDirection := GetSafeNormal M DeltaLocation
  let DeltaLength := Length M DeltaLocation
  add RefBoneLocation (scale DeltaDirection (DeltaLength.mul Scale))

/-- Lines 19-22 of `ModifyAnimation`: the scale that the run uses. -/
def CheckedScale (Scale : FloatValue K) : FloatValue K :=
  if Scale.lt (FloatValue.Finite UE_KINDA_SMALL_NUMBER) then FloatValue.Finite DefaultScale
  else Scale

end IEEE

end Pipeline

/-! ## The editor widget: material slot names

A material slot name, an `FName` in the source, is represented by the string
that `FName::ToString` returns, and `FName(FString)` by the string itself.
Comparisons of names (`FName::IsEqual`, the keys of a `TMap<FName, _>`) and
of strings used as map keys (`FString::operator==`, the keys of a
`TMap<FString, _>`) ignore the case of ASCII letters, as the engine does. -/

/-- Engine type `FString`: a sequence of characters. -/
abbrev FString := List Char

namespace FString

/-- The index of the first occurrence of a character, if any. -/
def FirstIndexOf (InChar : Char) : FString → Option Nat
  | [] => none
  | c :: cs => if c = InChar then some 0 else (FirstIndexOf InChar cs).map (fun i => i + 1)

/-- The index of the last occurrence of a character, if any. -/
def LastIndexOf (InChar : Char) : FString → Option Nat
  | [] => none
  | c :: cs =>
    match LastIndexOf InChar cs with
    | some i => some (i + 1)
    | none => if c = InChar then some 0 else none

/-- The method `FindChar(InChar, OutIndex)`: the value left in `OutIndex`,
the index of the first occurrence or `INDEX_NONE` (-1). -/
def FindChar (s : FString) (InChar : Char) : Int :=
  match FirstIndexOf InChar s with
  | some i => (i : Int)
  | none => -1

/-- The method `FindLastChar(InChar, OutIndex)`: the value left in
`OutIndex`, the index of the last occurrence or `INDEX_NONE` (-1). -/
def FindLastChar (s : FString) (InChar : Char) : Int :=
  match LastIndexOf InChar s with
  | some i => (i : Int)
  | none => -1

/-- The method `Left(Count)`: the leftmost `Count` characters, `Count` clamped
to the length of the string. -/
def Left (s : FString) (Count : Int) : FString := s.take Count.toNat

/-- The method `RightChop(Count)`: the string without its leftmost `Count`
characters, `Count` clamped to the length of the string. -/
def RightChop (s : FString) (Count : Int) : FString := s.drop Count.toNat

/-- The comparison `FString::operator==`, also `FName::IsEqual` on the strings
of two names: equality up to the case of ASCII letters. -/
def EqualsIgnoreCase (a b : FString) : Bool := decide (a.map Char.toLower = b.map Char.toLower)

end FString

/-- The string has the form model, underscore, skin, underscore, part, with
no underscore in the model nor in the part (the skin may have some). -/
def FString.HasSkinPart (s : FString) : Prop :=
  ∃ Model Skin Part : FString, s = Model ++ '_' :: (Skin ++ '_' :: Part) ∧
    '_' ∉ Model ∧ '_' ∉ Part

/-- The out parameter and return value of
`UEUW_EditorWidget::FindSkinNameFromMaterialSlotName`. -/
structure FFindSkinNameResult where
  bFound : Bool
  OutSkinName : FString
deriving DecidableEq, Repr

/-- The method `UEUW_EditorWidget::FindSkinNameFromMaterialSlotName`: the skin
name is what stands between the first underscore and the last underscore
after it. -/
def FindSkinNameFromMaterialSlotName (SlotName : FString) : FFindSkinNameResult :=
  let SlotNameStr := SlotName
  let LeftIdx := FString.FindChar SlotNameStr '_'
  if LeftIdx ≥ 0 then
    let SlotNameStr := FString.RightChop SlotNameStr (LeftIdx + 1)
    let RightIdx := FString.FindLastChar SlotNameStr '_'
    if RightIdx ≥ 0 then ⟨true, FString.Left SlotNameStr RightIdx⟩
    else ⟨false, []⟩
  else ⟨false, []⟩

/-- A `TMap<FName, FName>` as the list of its pairs. -/
abbrev FNameMap := List (FString × FString)

/-- The method `TMap::Add(Key, Value)`: the value of an equal key is replaced,
a new key is added. -/
def FNameMap.Add (Key Value : FString) : FNameMap → FNameMap
  | [] => [(Key, Value)]
  | p :: ps =>
    if FString.EqualsIgnoreCase p.1 Key then (Key, Value) :: ps
    else p :: FNameMap.Add Key Value ps

/-- The method `TMap::Find(Key)`. -/
def FNameMap.Find (Key : FString) : FNameMap → Option FString
  | [] => none
  | p :: ps => if FString.EqualsIgnoreCase p.1 Key then some p.2 else FNameMap.Find Key ps

/-- The in-out parameters of `UEUW_EditorWidget::ChangeSlotName_Internal`
after the call. -/
structure FChangeSlotNameResult where
  MatSlotName : FString
  SucceededMap : FNameMap
  FailedMap : FNameMap
deriving DecidableEq, Repr

/-- The method `UEUW_EditorWidget::ChangeSlotName_Internal`: with the first
underscore strictly before the last one, the text between them is replaced
by the new skin name and the pair of old and new name is added to
`SucceededMap`; otherwise the name is kept and added to `FailedMap`. -/
def ChangeSlotName_Internal (MatSlotName NewSkinName : FString)
    (SucceededMap FailedMap : FNameMap) : FChangeSlotNameResult :=
  let PrevName := MatSlotName
  let SlotNameStr := MatSlotName
  let LeftIdx := FString.FindChar SlotNameStr '_'
  let RightIdx := FString.FindLastChar SlotNameStr '_'
  if LeftIdx < RightIdx ∧ LeftIdx ≥ 0 then
    let ModelName := FString.Left SlotNameStr (LeftIdx + 1)
    let Part := FString.RightChop SlotNameStr RightIdx
    let NewSlotName := ModelName ++ NewSkinName ++ Part
    ⟨NewSlotName, FNameMap.Add PrevName NewSlotName SucceededMap, FailedMap⟩
  else
    ⟨MatSlotName, SucceededMap, FNameMap.Add PrevName MatSlotName FailedMap⟩

/-- A `TMap<FString, int32>` as the list of its pairs. -/
abbrev FSkinNameCounter := List (FString × Int)

/-- The statements `int32& Cnt = SkinNameCounter.FindOrAdd(SkinName, 0);
Cnt++;`: the counter of the key equal to `SkinName` is incremented, a new key
starts at one; returns the map and the value of `Cnt`. -/
def FSkinNameCounter.FindOrAddIncrement (SkinName : FString) :
    FSkinNameCounter → FSkinNameCounter × Int
  | [] => ([(SkinName, 1)], 1)
  | p :: ps =>
    if FString.EqualsIgnoreCase p.1 SkinName then ((p.1, p.2 + 1) :: ps, p.2 + 1)
    else
      let r := FSkinNameCounter.FindOrAddIncrement SkinName ps
      (p :: r.1, r.2)

/-- The locals of the counting loop of `GetMaterialSlotNames`. -/
structure FSkinCountState where
  OutSkinName : FString
  MaxCnt : Int
  SkinNameCounter : FSkinNameCounter
deriving DecidableEq, Repr

/-- The slot `wraith_base_eyecornea`. -/
def eyecornea : FString := "wraith_base_eyecornea".toList

/-- The slot `wraith_base_eyeshadow`. -/
def eyeshadow : FString := "wraith_base_eyeshadow".toList

/-- Lines 54-60 of `GetMaterialSlotNames`: the counter of a found skin name
is incremented, and the skin name becomes `OutSkinName` when its counter
exceeds `MaxCnt`. -/
def CountSkinName (st : FSkinCountState) (SkinName : FString) : FSkinCountState :=
  let r := FSkinNameCounter.FindOrAddIncrement SkinName st.SkinNameCounter
  let Cnt := r.2
  if Cnt > st.MaxCnt then ⟨SkinName, Cnt, r.1⟩
  else ⟨st.OutSkinName, st.MaxCnt, r.1⟩

/-- One iteration of the counting loop of `GetMaterialSlotNames` (lines
44-62). -/
def CountSlotName (st : FSkinCountState) (SlotName : FString) : FSkinCountState :=
  if FString.EqualsIgnoreCase SlotName eyecornea || FString.EqualsIgnoreCase SlotName eyeshadow
  then st
  else
    let Found := FindSkinNameFromMaterialSlotName SlotName
    if Found.bFound then CountSkinName st Found.OutSkinName
    else st

/-- The object handed to `GetMaterialSlotNames`, with the slot names of its
materials in order when it is a mesh. -/
inductive FMeshObject where
  | SkeletalMesh (MaterialSlotNames : List FString)
  | StaticMesh (MaterialSlotNames : List FString)
  | Other
deriving DecidableEq, Repr

/-- The return value and out parameters of
`UEUW_EditorWidget::GetMaterialSlotNames`. -/
structure FGetMaterialSlotNamesResult where
  bResult : Bool
  OutNames : List FString
  OutSkinName : FString
deriving DecidableEq, Repr

/-- Lines 39-65 of `GetMaterialSlotNames`: the counting loop over the slot
names collected in `OutNames`. -/
def CountSkinNames (OutNames : List FString) : FSkinCountState :=
  OutNames.foldl CountSlotName ⟨[], 0, []⟩

/-- The method `UEUW_EditorWidget::GetMaterialSlotNames`; `OutSkinName` is the
value the out parameter has before the call, left alone when the object is
no mesh. -/
def GetMaterialSlotNames (Object : FMeshObject) (OutSkinName : FString) :
    FGetMaterialSlotNamesResult :=
  match Object with
  | FMeshObject.SkeletalMesh Names => ⟨true, Names, (CountSkinNames Names).OutSkinName⟩
  | FMeshObject.StaticMesh Names => ⟨true, Names, (CountSkinNames Names).OutSkinName⟩
  | FMeshObject.Other => ⟨false, [], OutSkinName⟩

/-- The method `TMap::FindRef(Key)`: the value of the key equal to `Key`, zero
when there is none. -/
def FSkinNameCounter.FindRef (Key : FString) : FSkinNameCounter → Int
  | [] => 0
  | p :: ps => if FString.EqualsIgnoreCase p.1 Key then p.2 else FSkinNameCounter.FindRef Key ps

/-- The number of entries of a list of skin names that equal `SkinName` up to
the case of ASCII letters, the equality by which the counter map tells its
keys apart. -/
def SkinNameOccurrences (SkinName : FString) (SkinNames : List FString) : Nat :=
  SkinNames.countP (fun n => FString.EqualsIgnoreCase n SkinName)

/-- The skin names that the counting loop counts, in slot order: the skin
name of every slot other than the two excluded ones that yields one. -/
def CountedSkinNames (OutNames : List FString) : List FString :=
  OutNames.filterMap (fun SlotName =>
    if FString.EqualsIgnoreCase SlotName eyecornea ||
        FString.EqualsIgnoreCase SlotName eyeshadow then none
    else if (FindSkinNameFromMaterialSlotName SlotName).bFound then
      some (FindSkinNameFromMaterialSlotName SlotName).OutSkinName
    else none)

/-! ## The scale step: magnitude, direction, identity, zero displacement

Closed statements are stated with the real-number math library, the record
`⟨Real.sqrt, Real.sin, Real.cos, atan2, Real.pi, _⟩ : FMath ℝ` where
`atan2 y x` is the argument of the complex number `x + y i`; the last field,
the matrix path of `FTransform::Multiply`, is never reached at the inputs
used (no negative scale occurs there). -/

section ScaleStep

variable {K : Type} [LinearOrderedField K]

theorem FMath.sqrt_unique {M : FMath K} (hM : M.SqrtLaw) {x y : K} (hy : 0 ≤ y)
    (hxy : y * y = x) : M.Sqrt x = y := by
  have hx : 0 ≤ x := by rw [← hxy]; exact mul_self_nonneg y
  obtain ⟨h0, h1⟩ := hM x hx
  exact (mul_self_inj h0 hy).1 (by rw [h1, hxy])

theorem FVector.sizeSquared_nonneg (a : FVector K) :
    0 ≤ a.X * a.X + a.Y * a.Y + a.Z * a.Z := by
  nlinarith [mul_self_nonneg a.X, mul_self_nonneg a.Y, mul_self_nonneg a.Z]

theorem UE_SMALL_NUMBER_pos : (0 : K) < UE_SMALL_NUMBER := by
  unfold UE_SMALL_NUMBER; norm_num

/-- The real square root satisfies the contract of `FMath::Sqrt`. -/
theorem real_sqrtLaw :
    (⟨Real.sqrt, Real.sin, Real.cos, fun y x => Complex.arg ⟨x, y⟩, Real.pi, fun A _ => A⟩ :
      FMath ℝ).SqrtLaw := by
  intro x hx
  exact ⟨Real.sqrt_nonneg x, Real.mul_self_sqrt hx⟩

/-- Outside the guard band of `GetSafeNormal` the scaled displacement is the
original displacement times the scale. -/
theorem ScaledBoneLocation_sub {M : FMath K} (hM : M.SqrtLaw) (ref anim : FVector K) (s : K)
    (hd : (anim.sub ref).SizeSquared = 0 ∨ UE_SMALL_NUMBER ≤ (anim.sub ref).SizeSquared) :
    (ScaledBoneLocation M ref anim s).sub ref = (anim.sub ref).scale s := by
  set d := anim.sub ref with hd_def
  have hnn := FVector.sizeSquared_nonneg d
  have hsmall : (0 : K) < UE_SMALL_NUMBER := UE_SMALL_NUMBER_pos
  obtain ⟨hs0, hs1⟩ := hM _ hnn
  unfold ScaledBoneLocation
  simp only [← hd_def, FVector.GetSafeNormal, FVector.Length]
  unfold FVector.SizeSquared at hd
  by_cases h1 : d.X * d.X + d.Y * d.Y + d.Z * d.Z = 1
  · have hone : M.Sqrt 1 = 1 := FMath.sqrt_unique hM zero_le_one (one_mul 1)
    simp only [h1, if_true, hone, one_mul]
    simp [FVector.sub, FVector.add, FVector.scale]
  · simp only [h1, if_false]
    rcases hd with h0 | hge
    · have hlt : d.X * d.X + d.Y * d.Y + d.Z * d.Z < UE_SMALL_NUMBER := by rw [h0]; exact hsmall
      have hX : d.X = 0 := by
        nlinarith [mul_self_nonneg d.X, mul_self_nonneg d.Y, mul_self_nonneg d.Z]
      have hY : d.Y = 0 := by
        nlinarith [mul_self_nonneg d.X, mul_self_nonneg d.Y, mul_self_nonneg d.Z]
      have hZ : d.Z = 0 := by
        nlinarith [mul_self_nonneg d.X, mul_self_nonneg d.Y, mul_self_nonneg d.Z]
      simp [hlt, FVector.sub, FVector.add, FVector.scale, FVector.ZeroVector, hX, hY, hZ]
    · have hnlt : ¬ d.X * d.X + d.Y * d.Y + d.Z * d.Z < UE_SMALL_NUMBER := not_lt.2 hge
      have hpos : 0 < d.X * d.X + d.Y * d.Y + d.Z * d.Z := lt_of_lt_of_le hsmall hge
      have hne : M.Sqrt (d.X * d.X + d.Y * d.Y + d.Z * d.Z) ≠ 0 := by
        intro h; rw [h] at hs1; simp at hs1; exact absurd hs1.symm (ne_of_gt hpos)
      simp only [hnlt, if_false, FMath.InvSqrt, FVector.sub, FVector.add, FVector.scale]
      refine congr (congr (congrArg FVector.mk ?_) ?_) ?_ <;> field_simp <;> ring

/-- Outside the guard band the scaled location with scale one is the animated
location. -/
theorem ScaledBoneLocation_one {M : FMath K} (hM : M.SqrtLaw) (ref anim : FVector K)
    (hd : (anim.sub ref).SizeSquared = 0 ∨ UE_SMALL_NUMBER ≤ (anim.sub ref).SizeSquared) :
    ScaledBoneLocation M ref anim 1 = anim := by
  have h := ScaledBoneLocation_sub hM ref anim 1 hd
  simp only [FVector.sub, FVector.scale, mul_one, FVector.mk.injEq] at h
  obtain ⟨hx, hy, hz⟩ := h
  have e : ∀ a b c : K, a - b = c - b → a = c := fun a b c h => by linarith
  cases hS : ScaledBoneLocation M ref anim 1
  cases anim
  simp only [hS] at hx hy hz
  simp only [FVector.mk.injEq]
  exact ⟨e _ _ _ hx, e _ _ _ hy, e _ _ _ hz⟩

theorem FVector.length_scale {M : FMath K} (hM : M.SqrtLaw) (d : FVector K) (s : K)
    (hs : 0 ≤ s) : (d.scale s).Length M = s * d.Length M := by
  have hnn := FVector.sizeSquared_nonneg d
  obtain ⟨hs0, hs1⟩ := hM _ hnn
  unfold FVector.Length FVector.scale
  apply FMath.sqrt_unique hM (mul_nonneg hs hs0)
  simp only
  linear_combination (s * s) * hs1

/-- C1 (as amended): magnitude law of the bone scale step.  For every
reference location, animated location and scale `s > 0`, when the squared
length of the displacement `anim - ref` is zero or at least the tolerance
`UE_SMALL_NUMBER` of `GetSafeNormal`, the scaled location satisfies
`|scaled - ref| = s * |anim - ref|`. -/
theorem scaled_location_magnitude (M : FMath K) (hM : M.SqrtLaw) (ref anim : FVector K) (s : K)
    (hs : 0 < s)
    (hd : (anim.sub ref).SizeSquared = 0 ∨ UE_SMALL_NUMBER ≤ (anim.sub ref).SizeSquared) :
    ((ScaledBoneLocation M ref anim s).sub ref).Length M = s * (anim.sub ref).Length M := by
  rw [ScaledBoneLocation_sub hM ref anim s hd]
  exact FVector.length_scale hM _ s hs.le

/-- The magnitude law at reference (1,2,3), animated location (4,6,3) and
scale 2 (displacement of length 5). -/
theorem scaled_location_magnitude_witness :
    ((ScaledBoneLocation
        (⟨Real.sqrt, Real.sin, Real.cos, fun y x => Complex.arg ⟨x, y⟩, Real.pi, fun A _ => A⟩ :
      FMath ℝ) ⟨1, 2, 3⟩ ⟨4, 6, 3⟩ 2).sub ⟨1, 2, 3⟩).Length
        (⟨Real.sqrt, Real.sin, Real.cos, fun y x => Complex.arg ⟨x, y⟩, Real.pi, fun A _ => A⟩ :
      FMath ℝ)
      = 2 * ((⟨4, 6, 3⟩ : FVector ℝ).sub ⟨1, 2, 3⟩).Length
        (⟨Real.sqrt, Real.sin, Real.cos, fun y x => Complex.arg ⟨x, y⟩, Real.pi, fun A _ => A⟩ :
      FMath ℝ) :=
  scaled_location_magnitude _ real_sqrtLaw ⟨1, 2, 3⟩ ⟨4, 6, 3⟩ 2 (by norm_num)
    (Or.inr (by simp [FVector.sub, FVector.SizeSquared, UE_SMALL_NUMBER]; norm_num))

/-- C1 (as stated) fails inside the guard band: with reference at the origin,
animated location (1/100000, 0, 0) and scale 1000000000 the scaled location
stays at the reference, `|scaled - ref| = 0`, while
`s * |anim - ref| = 10000`. -/
theorem guard_band_breaks_magnitude :
    (0 : ℝ) < 1000000000 ∧
    ((ScaledBoneLocation
        (⟨Real.sqrt, Real.sin, Real.cos, fun y x => Complex.arg ⟨x, y⟩, Real.pi, fun A _ => A⟩ :
      FMath ℝ) ⟨0, 0, 0⟩ ⟨1 / 100000, 0, 0⟩ 1000000000).sub ⟨0, 0, 0⟩).Length
        (⟨Real.sqrt, Real.sin, Real.cos, fun y x => Complex.arg ⟨x, y⟩, Real.pi, fun A _ => A⟩ :
      FMath ℝ) = 0 ∧
    1000000000 * ((⟨1 / 100000, 0, 0⟩ : FVector ℝ).sub ⟨0, 0, 0⟩).Length
        (⟨Real.sqrt, Real.sin, Real.cos, fun y x => Complex.arg ⟨x, y⟩, Real.pi, fun A _ => A⟩ :
      FMath ℝ) = 10000 := by
  refine ⟨by norm_num, ?_, ?_⟩
  · simp only [ScaledBoneLocation, FVector.GetSafeNormal, FVector.sub, FVector.Length,
      UE_SMALL_NUMBER]
    norm_num [FVector.ZeroVector, FVector.scale, FVector.add]
  · simp only [FVector.sub, FVector.Length]
    have h : Real.sqrt ((1 / 100000 - 0) * (1 / 100000 - 0) + (0 - 0) * (0 - 0) + (0 - 0) * (0 - 0))
        = 1 / 100000 := by
      rw [Real.sqrt_eq_iff_mul_self_eq (by norm_num) (by norm_num)]
      norm_num
    rw [h]; norm_num

/-- C2 (as amended): direction preservation of the bone scale step.  For every
reference location, animated location and scale `s > 0`, when the squared
length of the displacement `anim - ref` is at least `UE_SMALL_NUMBER`, the
scaled displacement is a positive multiple of the original displacement
(the multiple is the scale). -/
theorem scaled_location_direction (M : FMath K) (hM : M.SqrtLaw) (ref anim : FVector K)
    (s : K) (hs : 0 < s) (hd : UE_SMALL_NUMBER ≤ (anim.sub ref).SizeSquared) :
    ∃ c : K, 0 < c ∧ (ScaledBoneLocation M ref anim s).sub ref = (anim.sub ref).scale c :=
  ⟨s, hs, ScaledBoneLocation_sub hM ref anim s (Or.inr hd)⟩

/-- Direction preservation at reference (1,2,3), animated location (4,6,3)
and scale 2. -/
theorem scaled_location_direction_witness :
    ∃ c : ℝ, 0 < c ∧
      (ScaledBoneLocation
        (⟨Real.sqrt, Real.sin, Real.cos, fun y x => Complex.arg ⟨x, y⟩, Real.pi, fun A _ => A⟩ :
      FMath ℝ) ⟨1, 2, 3⟩ ⟨4, 6, 3⟩ 2).sub ⟨1, 2, 3⟩ = ((⟨4, 6, 3⟩ : FVector ℝ).sub ⟨1, 2, 3⟩).scale c :=
  scaled_location_direction _ real_sqrtLaw ⟨1, 2, 3⟩ ⟨4, 6, 3⟩ 2 (by norm_num)
    (by simp [FVector.sub, FVector.SizeSquared, UE_SMALL_NUMBER]; norm_num)

/-- C2 (as stated) fails inside the guard band: with reference at the origin,
animated location (1/100000, 0, 0), different from the reference, and scale 1
the scaled displacement is the zero vector, which is no positive multiple of
the displacement. -/
theorem guard_band_breaks_direction :
    (⟨1 / 100000, 0, 0⟩ : FVector ℝ) ≠ ⟨0, 0, 0⟩ ∧ (0 : ℝ) < 1 ∧
    ¬ ∃ c : ℝ, 0 < c ∧
      (ScaledBoneLocation
        (⟨Real.sqrt, Real.sin, Real.cos, fun y x => Complex.arg ⟨x, y⟩, Real.pi, fun A _ => A⟩ :
      FMath ℝ) ⟨0, 0, 0⟩ ⟨1 / 100000, 0, 0⟩ 1).sub ⟨0, 0, 0⟩
        = ((⟨1 / 100000, 0, 0⟩ : FVector ℝ).sub ⟨0, 0, 0⟩).scale c := by
  refine ⟨by simp, by norm_num, ?_⟩
  rintro ⟨c, hc, h⟩
  simp only [ScaledBoneLocation, FVector.GetSafeNormal, FVector.sub, FVector.Length,
    UE_SMALL_NUMBER] at h
  norm_num [FVector.ZeroVector, FVector.scale, FVector.add] at h
  exact absurd h (ne_of_gt hc)

/-- On finite components the floating-point `GetSafeNormal` computes what the
exact one computes: behind its two guards the square sum is at least
`UE_SMALL_NUMBER`, so the square root that `InvSqrt` divides by is not
zero. -/
theorem GetSafeNormal_ofVector {M : FMath K} (hM : M.SqrtLaw) (a : FVector K) :
    IEEE.GetSafeNormal M (IEEE.ofVector a) = IEEE.ofVector (a.GetSafeNormal M) := by
  have hsmall : (0 : K) < UE_SMALL_NUMBER := UE_SMALL_NUMBER_pos
  simp only [IEEE.GetSafeNormal, FVector.GetSafeNormal, IEEE.ofVector, FloatValue.mul,
    FloatValue.add, FloatValue.eq, FloatValue.lt, decide_eq_true_eq]
  by_cases h1 : a.X * a.X + a.Y * a.Y + a.Z * a.Z = 1
  · simp [h1]
  · by_cases h2 : a.X * a.X + a.Y * a.Y + a.Z * a.Z < UE_SMALL_NUMBER
    · simp [h1, h2]
    · have hpos : 0 < a.X * a.X + a.Y * a.Y + a.Z * a.Z := lt_of_lt_of_le hsmall (not_lt.1 h2)
      have hs : M.Sqrt (a.X * a.X + a.Y * a.Y + a.Z * a.Z) ≠ 0 := by
        intro h0
        have := (hM _ hpos.le).2
        rw [h0, mul_zero] at this
        exact absurd this.symm (ne_of_gt hpos)
      simp [h1, h2, FloatValue.InvSqrt, FloatValue.Sqrt, FloatValue.div, FloatValue.mul,
        not_lt.2 hpos.le, hs, FMath.InvSqrt]

/-- On finite arguments the floating-point scale step computes what the exact
one computes; no infinity and no NaN arises. -/
theorem ScaledBoneLocation_ofVector {M : FMath K} (hM : M.SqrtLaw) (ref anim : FVector K)
    (s : K) :
    IEEE.ScaledBoneLocation M (IEEE.ofVector ref) (IEEE.ofVector anim) (FloatValue.Finite s)
      = IEEE.ofVector (ScaledBoneLocation M ref anim s) := by
  have hsub : IEEE.sub (IEEE.ofVector anim) (IEEE.ofVector ref) = IEEE.ofVector (anim.sub ref) := by
    simp [IEEE.sub, IEEE.ofVector, FVector.sub, FloatValue.sub, FloatValue.neg, FloatValue.add,
      sub_eq_add_neg]
  have hlen : IEEE.Length M (IEEE.ofVector (anim.sub ref))
      = FloatValue.Finite ((anim.sub ref).Length M) := by
    simp [IEEE.Length, IEEE.ofVector, FVector.Length, FloatValue.mul, FloatValue.add,
      FloatValue.Sqrt, not_lt.2 (FVector.sizeSquared_nonneg (anim.sub ref))]
  simp only [IEEE.ScaledBoneLocation, ScaledBoneLocation, hsub, hlen,
    GetSafeNormal_ofVector hM]
  simp [IEEE.ofVector, IEEE.add, IEEE.scale, FloatValue.mul, FloatValue.add, FVector.add,
    FVector.scale]

/-- What the guards of `GetSafeNormal` keep away from the zero displacement:
`InvSqrt` of the square sum zero is a division by zero, and the component
zero times its result is NaN. -/
theorem unguarded_rescale_of_zero {M : FMath K} (h0 : M.Sqrt 0 = 0) :
    FloatValue.InvSqrt M (FloatValue.Finite 0) = FloatValue.PosInf ∧
    (FloatValue.Finite (0 : K)).mul (FloatValue.InvSqrt M (FloatValue.Finite 0))
      = FloatValue.NaN := by
  simp [FloatValue.InvSqrt, FloatValue.Sqrt, FloatValue.div, FloatValue.mul, h0]

/-- C4: zero-displacement guard, for finite values.  For every finite scale
and every finite location `p`, with the animated location equal to the
reference location the displacement `p - p` has square sum zero, the second
guard of `GetSafeNormal` returns the zero vector before `InvSqrt` divides by
the square root of zero, and the scaled location is exactly `p`: in the
floating-point reading, where a division by zero would show as an infinity
and then as NaN, and in the exact reading of the pipeline. -/
theorem zero_displacement_finite_scale (M : FMath K) (p : FVector K) (s : K) :
    IEEE.GetSafeNormal M (IEEE.sub (IEEE.ofVector p) (IEEE.ofVector p))
      = IEEE.ofVector FVector.ZeroVector ∧
    IEEE.ScaledBoneLocation M (IEEE.ofVector p) (IEEE.ofVector p) (FloatValue.Finite s)
      = IEEE.ofVector p ∧
    (p.sub p).GetSafeNormal M = FVector.ZeroVector ∧
    ScaledBoneLocation M p p s = p := by
  have hsmall : (0 : K) < UE_SMALL_NUMBER := UE_SMALL_NUMBER_pos
  have hsub : IEEE.sub (IEEE.ofVector p) (IEEE.ofVector p) = IEEE.ofVector FVector.ZeroVector := by
    simp [IEEE.sub, IEEE.ofVector, FVector.ZeroVector, FloatValue.sub, FloatValue.neg,
      FloatValue.add]
  have hnormal : IEEE.GetSafeNormal M (IEEE.ofVector (FVector.ZeroVector : FVector K))
      = IEEE.ofVector FVector.ZeroVector := by
    simp [IEEE.GetSafeNormal, IEEE.ofVector, FVector.ZeroVector, FloatValue.mul, FloatValue.add,
      FloatValue.eq, FloatValue.lt, hsmall]
  refine ⟨?_, ?_, ?_, ?_⟩
  · rw [hsub, hnormal]
  · simp only [IEEE.ScaledBoneLocation, hsub, hnormal]
    cases hlen : (IEEE.Length M (IEEE.ofVector (FVector.ZeroVector : FVector K))).mul
        (FloatValue.Finite s) with
    | Finite x =>
      simp [IEEE.ofVector, IEEE.add, IEEE.scale, FVector.ZeroVector, FloatValue.mul,
        FloatValue.add]
    | PosInf =>
      simp [IEEE.Length, IEEE.ofVector, FVector.ZeroVector, FloatValue.mul, FloatValue.add,
        FloatValue.Sqrt] at hlen
    | NegInf =>
      simp [IEEE.Length, IEEE.ofVector, FVector.ZeroVector, FloatValue.mul, FloatValue.add,
        FloatValue.Sqrt] at hlen
    | NaN =>
      simp [IEEE.Length, IEEE.ofVector, FVector.ZeroVector, FloatValue.mul, FloatValue.add,
        FloatValue.Sqrt] at hlen
  · simp [FVector.GetSafeNormal, FVector.sub, hsmall]
  · simp [ScaledBoneLocation, FVector.GetSafeNormal, FVector.sub, hsmall, FVector.ZeroVector,
      FVector.scale, FVector.add]

/-- C4 (as stated) fails for the scale `+inf`: it is not below
`UE_KINDA_SMALL_NUMBER`, so `ModifyAnimation` keeps it; at the zero
displacement the length zero times `+inf` is NaN, and the location written
for `p = (1, 2, 3)` is NaN in every component, not `p`. -/
theorem infinite_scale_writes_nan :
    IEEE.CheckedScale (FloatValue.PosInf : FloatValue ℝ) = FloatValue.PosInf ∧
    IEEE.ScaledBoneLocation (⟨Real.sqrt, Real.sin, Real.cos, fun y x => Complex.arg ⟨x, y⟩, Real.pi, fun A _ => A⟩ :
      FMath ℝ) (IEEE.ofVector ⟨1, 2, 3⟩) (IEEE.ofVector ⟨1, 2, 3⟩)
      FloatValue.PosInf = IEEE.NaNVector ∧
    IEEE.ScaledBoneLocation (⟨Real.sqrt, Real.sin, Real.cos, fun y x => Complex.arg ⟨x, y⟩, Real.pi, fun A _ => A⟩ :
      FMath ℝ) (IEEE.ofVector ⟨1, 2, 3⟩) (IEEE.ofVector ⟨1, 2, 3⟩)
      FloatValue.PosInf ≠ IEEE.ofVector (⟨1, 2, 3⟩ : FVector ℝ) := by
  have h : IEEE.ScaledBoneLocation (⟨Real.sqrt, Real.sin, Real.cos, fun y x => Complex.arg ⟨x, y⟩, Real.pi, fun A _ => A⟩ :
      FMath ℝ) (IEEE.ofVector ⟨1, 2, 3⟩) (IEEE.ofVector ⟨1, 2, 3⟩)
      FloatValue.PosInf = IEEE.NaNVector := by
    simp [IEEE.ScaledBoneLocation, IEEE.GetSafeNormal, IEEE.Length, IEEE.sub, IEEE.add,
      IEEE.scale, IEEE.ofVector, IEEE.NaNVector, FVector.ZeroVector, FloatValue.sub,
      FloatValue.neg, FloatValue.add, FloatValue.mul, FloatValue.eq, FloatValue.lt,
      FloatValue.Sqrt, UE_SMALL_NUMBER]
  refine ⟨by simp [IEEE.CheckedScale, FloatValue.lt], h, ?_⟩
  rw [h]
  simp [IEEE.NaNVector, IEEE.ofVector]

end ScaleStep

/-! ## The store and the loops -/

section StoreLemmas
variable {K : Type}

theorem FindBoneTrackKeys_set_ne (n n' : FName) (ks : List (FTransform K))
    (tracks : List (FBoneAnimationTrack K)) (h : n' ≠ n) :
    FindBoneTrackKeys n' (tracks.map (fun t => if t.Name = n then { t with Keys := ks } else t))
      = FindBoneTrackKeys n' tracks := by
  induction tracks with
  | nil => rfl
  | cons t ts ih =>
    simp only [List.map_cons, FindBoneTrackKeys]
    by_cases ht : t.Name = n
    · have : t.Name ≠ n' := fun e => h (e.symm.trans ht)
      simp [ht, this, ih, h.symm]
    · simp only [ht, if_false, ih]

theorem FindBoneTrackKeys_set_eq (n : FName) (ks : List (FTransform K))
    (tracks : List (FBoneAnimationTrack K)) :
    FindBoneTrackKeys n (tracks.map (fun t => if t.Name = n then { t with Keys := ks } else t))
        = ks ∨
    (FindBoneTrackKeys n (tracks.map (fun t => if t.Name = n then { t with Keys := ks } else t))
        = [] ∧ FindBoneTrackKeys n tracks = []) := by
  induction tracks with
  | nil => right; exact ⟨rfl, rfl⟩
  | cons t ts ih =>
    simp only [List.map_cons, FindBoneTrackKeys]
    by_cases ht : t.Name = n
    · left; simp [ht]
    · simpa only [ht, if_false] using ih

theorem GetBoneTrackTransforms_set_ne (seq : UAnimSequence K) (n n' : FName)
    (P : List (FVector K)) (R : List (FQuat K)) (S : List (FVector K)) (h : n' ≠ n) :
    (seq.SetBoneTrackKeys n P R S).GetBoneTrackTransforms n' = seq.GetBoneTrackTransforms n' :=
  FindBoneTrackKeys_set_ne n n' _ _ h

theorem GetBoneTrackTransforms_set_eq (seq : UAnimSequence K) (n : FName)
    (P : List (FVector K)) (R : List (FQuat K)) (S : List (FVector K)) :
    (seq.SetBoneTrackKeys n P R S).GetBoneTrackTransforms n = MakeTransformKeys P R S ∨
    ((seq.SetBoneTrackKeys n P R S).GetBoneTrackTransforms n = [] ∧
      seq.GetBoneTrackTransforms n = []) :=
  FindBoneTrackKeys_set_eq n _ _

theorem MakeTransformKeys_map {α : Type} (p : α → FVector K) (r : α → FQuat K)
    (s : α → FVector K) (l : List α) :
    MakeTransformKeys (l.map p) (l.map r) (l.map s) = l.map (fun t => ⟨r t, p t, s t⟩) := by
  induction l with
  | nil => rfl
  | cons a l ih => simp [MakeTransformKeys, ih]

theorem take_succ_drop {α : Type} (l : List α) (k n : Nat) (a : α) (h : l[k]? = some a) :
    (l.drop k).take (n + 1) = a :: (l.drop (k + 1)).take n := by
  obtain ⟨hk, rfl⟩ := List.getElem?_eq_some.1 h
  rw [List.drop_eq_getElem_cons hk, List.take_succ_cons]

theorem getElem?_take_map_of_lt {α β : Type} (g : α → β) (l : List α) (n k : Nat) (hk : k < n) :
    ((l.take n).map g)[k]? = (l[k]?).map g := by
  rw [List.getElem?_map, List.getElem?_take_of_lt hk]

end StoreLemmas

section RootLemmas
variable {K : Type} [LinearOrderedField K]

theorem RootKeyLoop_spec (M : FMath K) (RootTrack acc : List (FTransform K)) :
    ∀ (n k : Nat) (keys keys' : List (FVector K) × List (FQuat K) × List (FVector K)),
      RootKeyLoop M RootTrack acc n k keys = some keys' →
      (n ≠ 0 → k + n ≤ (RootTrack.zip acc).length) ∧
      keys'.1 = keys.1 ++ (((RootTrack.zip acc).drop k).take n).map
        (fun x => (RootRelativeTransform M x.1 x.2).Translation) ∧
      keys'.2.1 = keys.2.1 ++ (((RootTrack.zip acc).drop k).take n).map
        (fun x => (RootRelativeTransform M x.1 x.2).Rotation) ∧
      keys'.2.2 = keys.2.2 ++ (((RootTrack.zip acc).drop k).take n).map
        (fun x => (RootRelativeTransform M x.1 x.2).Scale3D) := by
  intro n
  induction n with
  | zero =>
    intro k keys keys' h
    simp only [RootKeyLoop, Option.some.injEq] at h
    subst h
    simp
  | succ n ih =>
    intro k keys keys' h
    obtain ⟨P, R, S⟩ := keys
    unfold RootKeyLoop at h
    cases ht : RootTrack[k]? with
    | none => simp [ht] at h
    | some t =>
      cases ha : acc[k]? with
      | none => simp [ht, ha] at h
      | some a =>
        simp only [ht, ha] at h
        have hz : (RootTrack.zip acc)[k]? = some (t, a) := by
          rw [List.getElem?_zip_eq_some]; exact ⟨ht, ha⟩
        have hk : k < (RootTrack.zip acc).length := (List.getElem?_eq_some.1 hz).1
        rw [take_succ_drop _ k n (t, a) hz]
        obtain ⟨h1, h2, h3, h4⟩ := ih _ _ _ h
        refine ⟨fun _ => ?_, ?_, ?_, ?_⟩
        · by_cases hn : n = 0
          · subst hn; omega
          · have := h1 hn; omega
        · rw [h2]; simp [RootRelativeTransform]
        · rw [h3]; simp [RootRelativeTransform]
        · rw [h4]; simp [RootRelativeTransform]

theorem RootKeyLoop_exists (M : FMath K) (RootTrack acc : List (FTransform K)) :
    ∀ (n k : Nat) (keys : List (FVector K) × List (FQuat K) × List (FVector K)),
      k + n ≤ RootTrack.length → k + n ≤ acc.length →
      ∃ keys', RootKeyLoop M RootTrack acc n k keys = some keys' := by
  intro n
  induction n with
  | zero => intro k keys _ _; exact ⟨keys, rfl⟩
  | succ n ih =>
    intro k keys h1 h2
    obtain ⟨P, R, S⟩ := keys
    have hk1 : k < RootTrack.length := by omega
    have hk2 : k < acc.length := by omega
    unfold RootKeyLoop
    rw [List.getElem?_eq_getElem hk1, List.getElem?_eq_getElem hk2]
    simp only
    exact ih _ _ (by omega) (by omega)

/-- What a successful key loop of the root-relative pass returns. -/
theorem RootKeyLoop_result (M : FMath K) (RootTrack acc : List (FTransform K)) (KeyNum : Nat)
    (keys : List (FVector K) × List (FQuat K) × List (FVector K))
    (h : RootKeyLoop M RootTrack acc KeyNum 0 ([], [], []) = some keys) :
    KeyNum ≤ RootTrack.length ∧ KeyNum ≤ acc.length ∧
    MakeTransformKeys keys.1 keys.2.1 keys.2.2
      = ((RootTrack.zip acc).take KeyNum).map (fun x => RootRelativeTransform M x.1 x.2) ∧
    keys.1.length = KeyNum ∧ keys.2.1.length = KeyNum ∧ keys.2.2.length = KeyNum := by
  obtain ⟨h1, h2, h3, h4⟩ := RootKeyLoop_spec M RootTrack acc KeyNum 0 _ _ h
  have hlen : KeyNum ≤ (RootTrack.zip acc).length := by
    by_cases hn : KeyNum = 0
    · omega
    · have := h1 hn; omega
  have hlen' := hlen
  rw [List.length_zip] at hlen'
  simp only [List.drop_zero, List.nil_append] at h2 h3 h4
  refine ⟨by omega, by omega, ?_, ?_, ?_, ?_⟩
  · rw [h2, h3, h4, MakeTransformKeys_map]
  · rw [h2]; simp only [List.length_map, List.length_take]; omega
  · rw [h3]; simp only [List.length_map, List.length_take]; omega
  · rw [h4]; simp only [List.length_map, List.length_take]; omega

/-- What a successful root-relative pass does: it needs `KeyNum` keys in the
root track it reads and in the accumulator, changes no track but the one
under the root's name, stores there the root-relative keys computed from the
track it read and the accumulator, and adds one controller call. -/
theorem RootRelativePass_result (M : FMath K) (KeyNum : Nat) (seq1 seq' : UAnimSequence K)
    (acc : List (FTransform K)) (h : RootRelativePass M KeyNum seq1 acc = some seq') :
    ∃ info, seq1.RefBoneInfo[0]? = some info ∧
      KeyNum ≤ (seq1.GetBoneTrackTransforms info.Name).length ∧ KeyNum ≤ acc.length ∧
      (∀ n, n ≠ info.Name → seq'.GetBoneTrackTransforms n = seq1.GetBoneTrackTransforms n) ∧
      (∀ k, k < KeyNum → ∃ t a, (seq1.GetBoneTrackTransforms info.Name)[k]? = some t ∧
        acc[k]? = some a ∧
        (seq'.GetBoneTrackTransforms info.Name)[k]? = some (RootRelativeTransform M t a)) ∧
      (∃ P R S, seq'.ControllerCalls = seq1.ControllerCalls ++ [⟨info.Name, P, R, S⟩] ∧
        P.length = KeyNum ∧ R.length = KeyNum ∧ S.length = KeyNum) ∧
      seq'.RefBoneInfo = seq1.RefBoneInfo ∧ seq'.RefBonePose = seq1.RefBonePose ∧
      seq'.NumberOfKeys = seq1.NumberOfKeys := by
  unfold RootRelativePass at h
  cases hi : seq1.RefBoneInfo[0]? with
  | none => simp [hi] at h
  | some info =>
    simp only [hi] at h
    cases hl : RootKeyLoop M (seq1.GetBoneTrackTransforms info.Name) acc KeyNum 0 ([], [], []) with
    | none => simp [hl] at h
    | some keys =>
      simp only [hl, Option.some.injEq] at h
      subst h
      obtain ⟨h1, h2, h3, h4, h5, h6⟩ := RootKeyLoop_result M _ acc KeyNum keys hl
      refine ⟨info, rfl, h1, h2, ?_, ?_, ⟨keys.1, keys.2.1, keys.2.2, rfl, h4, h5, h6⟩,
        rfl, rfl, rfl⟩
      · intro n hn
        exact GetBoneTrackTransforms_set_ne _ _ _ _ _ _ hn
      · intro k hk
        have hk1 : k < (seq1.GetBoneTrackTransforms info.Name).length := by omega
        have hk2 : k < acc.length := by omega
        refine ⟨_, _, List.getElem?_eq_getElem hk1, List.getElem?_eq_getElem hk2, ?_⟩
        rcases GetBoneTrackTransforms_set_eq seq1 info.Name keys.1 keys.2.1 keys.2.2 with
          he | ⟨_, he'⟩
        · rw [he, h3, getElem?_take_map_of_lt _ _ _ _ hk]
          have hz : ((seq1.GetBoneTrackTransforms info.Name).zip acc)[k]?
              = some ((seq1.GetBoneTrackTransforms info.Name)[k], acc[k]) := by
            rw [List.getElem?_zip_eq_some]
            exact ⟨List.getElem?_eq_getElem hk1, List.getElem?_eq_getElem hk2⟩
          rw [hz]; rfl
        · rw [he'] at hk1; simp at hk1

end RootLemmas

section PipelineLemmas
variable {K : Type} [LinearOrderedField K] [FloorRing K]

theorem ScaleKeyLoop_spec (M : FMath K) (Scale : K) (bU bS : Bool) (i : Nat)
    (refT : FTransform K) (track : List (FTransform K)) :
    ∀ (n k : Nat) (st st' : FKeyLoopState K),
      ScaleKeyLoop M Scale bU bS i refT track n k st = some st' →
      (n ≠ 0 → k + n ≤ track.length) ∧
      st'.PositionalKeys = st.PositionalKeys ++
        ((track.drop k).take n).map (fun t => (ScaledKey M Scale bU i refT t).Translation) ∧
      st'.RotationalKeys = st.RotationalKeys ++
        ((track.drop k).take n).map (fun t => (ScaledKey M Scale bU i refT t).Rotation) ∧
      st'.ScalingKeys = st.ScalingKeys ++
        ((track.drop k).take n).map (fun t => (ScaledKey M Scale bU i refT t).Scale3D) ∧
      st'.RootRelativeStart.length = st.RootRelativeStart.length := by
  intro n
  induction n with
  | zero =>
    intro k st st' h
    simp only [ScaleKeyLoop, Option.some.injEq] at h
    subst h
    simp
  | succ n ih =>
    intro k st st' h
    unfold ScaleKeyLoop at h
    cases ht : track[k]? with
    | none => simp [ht] at h
    | some t =>
      have hk : k < track.length := (List.getElem?_eq_some.1 ht).1
      have hlen : n ≠ 0 → k + 1 + n ≤ track.length → k + (n + 1) ≤ track.length := by
        intro _ h; omega
      simp only [ht] at h
      rw [take_succ_drop track k n t ht]
      split at h
      · cases ha : st.RootRelativeStart[k]? with
        | none => simp [ha] at h
        | some a =>
          simp only [ha] at h
          obtain ⟨h1, h2, h3, h4, h5⟩ := ih _ _ _ h
          refine ⟨fun _ => ?_, ?_, ?_, ?_, ?_⟩
          · by_cases hn : n = 0
            · subst hn; omega
            · have := h1 hn; omega
          · rw [h2]; simp [ScaledKey]
          · rw [h3]; simp [ScaledKey]
          · rw [h4]; simp [ScaledKey]
          · rw [h5]; simp
      · obtain ⟨h1, h2, h3, h4, h5⟩ := ih _ _ _ h
        refine ⟨fun _ => ?_, ?_, ?_, ?_, ?_⟩
        · by_cases hn : n = 0
          · subst hn; omega
          · have := h1 hn; omega
        · rw [h2]; simp [ScaledKey]
        · rw [h3]; simp [ScaledKey]
        · rw [h4]; simp [ScaledKey]
        · rw [h5]

theorem ScaleKeyLoop_exists (M : FMath K) (Scale : K) (bU bS : Bool) (i : Nat)
    (refT : FTransform K) (track : List (FTransform K)) :
    ∀ (n k : Nat) (st : FKeyLoopState K), k + n ≤ track.length →
      ((bS && decide (i < 3)) = true → k + n ≤ st.RootRelativeStart.length) →
      ∃ st', ScaleKeyLoop M Scale bU bS i refT track n k st = some st' := by
  intro n
  induction n with
  | zero => intro k st _ _; exact ⟨st, rfl⟩
  | succ n ih =>
    intro k st hk hacc
    have hk' : k < track.length := by omega
    unfold ScaleKeyLoop
    rw [List.getElem?_eq_getElem hk']
    simp only
    split
    · rename_i hc
      have hka : k < st.RootRelativeStart.length := by have := hacc hc; omega
      rw [List.getElem?_eq_getElem hka]
      simp only
      apply ih
      · omega
      · intro _; simp only [List.length_set]; have := hacc hc; omega
    · rename_i hc
      apply ih
      · omega
      · intro h; exact absurd h hc

/-- What a successful key loop of one bone returns: the track has at least
`KeyNum` keys and the three key arrays are the parts of the scaled keys of
its first `KeyNum` keys. -/
theorem ScaleKeyLoop_result (M : FMath K) (Scale : K) (bU bS : Bool) (i : Nat)
    (refT : FTransform K) (track acc : List (FTransform K)) (KeyNum : Nat)
    (st : FKeyLoopState K)
    (h : ScaleKeyLoop M Scale bU bS i refT track KeyNum 0 ⟨[], [], [], acc⟩ = some st) :
    KeyNum ≤ track.length ∧
    MakeTransformKeys st.PositionalKeys st.RotationalKeys st.ScalingKeys
      = (track.take KeyNum).map (ScaledKey M Scale bU i refT) ∧
    st.PositionalKeys.length = KeyNum ∧ st.RotationalKeys.length = KeyNum ∧
    st.ScalingKeys.length = KeyNum ∧
    st.RootRelativeStart.length = acc.length := by
  obtain ⟨h1, h2, h3, h4, h5⟩ := ScaleKeyLoop_spec M Scale bU bS i refT track KeyNum 0 _ _ h
  have hlen : KeyNum ≤ track.length := by
    by_cases hn : KeyNum = 0
    · omega
    · have := h1 hn; omega
  simp only [List.drop_zero, List.nil_append] at h2 h3 h4
  refine ⟨hlen, ?_, ?_, ?_, ?_, h5⟩
  · rw [h2, h3, h4, MakeTransformKeys_map]
  · rw [h2]; simp [hlen]
  · rw [h3]; simp [hlen]
  · rw [h4]; simp [hlen]

theorem BoneLoop_succ (M : FMath K) (Scale : K) (bU bS : Bool) (KeyNum r b : Nat)
    (seq : UAnimSequence K) (acc : List (FTransform K))
    (res : UAnimSequence K × List (FTransform K))
    (h : BoneLoop M Scale bU bS KeyNum (r + 1) b seq acc = some res) :
    ∃ info refT st, seq.RefBoneInfo[b]? = some info ∧ seq.RefBonePose[b]? = some refT ∧
      ScaleKeyLoop M Scale bU bS b refT (seq.GetBoneTrackTransforms info.Name) KeyNum 0
        ⟨[], [], [], acc⟩ = some st ∧
      BoneLoop M Scale bU bS KeyNum r (b + 1)
        (seq.SetBoneTrackKeys info.Name st.PositionalKeys st.RotationalKeys st.ScalingKeys)
        st.RootRelativeStart = some res := by
  unfold BoneLoop at h
  cases hi : seq.RefBoneInfo[b]? with
  | none => simp [hi] at h
  | some info =>
    cases hp : seq.RefBonePose[b]? with
    | none => simp [hi, hp] at h
    | some refT =>
      simp only [hi, hp] at h
      cases hs : ScaleKeyLoop M Scale bU bS b refT (seq.GetBoneTrackTransforms info.Name) KeyNum 0
        ⟨[], [], [], acc⟩ with
      | none => simp [hs] at h
      | some st =>
        simp only [hs] at h
        exact ⟨info, refT, st, rfl, rfl, hs, h⟩

/-- Induction over the bone loop: a property of the next bone index, the
sequence and the accumulator that the read-scale-write step of every bone
carries to the next index holds for what the loop returns. -/
theorem BoneLoop_invariant (M : FMath K) (Scale : K) (bU bS : Bool) (KeyNum : Nat)
    (Inv : Nat → UAnimSequence K → List (FTransform K) → Prop)
    (hstep : ∀ (seq : UAnimSequence K) (b : Nat) (info : FMeshBoneInfo) (refT : FTransform K)
      (acc : List (FTransform K)) (st : FKeyLoopState K), Inv b seq acc →
      seq.RefBoneInfo[b]? = some info → seq.RefBonePose[b]? = some refT →
      ScaleKeyLoop M Scale bU bS b refT (seq.GetBoneTrackTransforms info.Name) KeyNum 0
        ⟨[], [], [], acc⟩ = some st →
      Inv (b + 1)
        (seq.SetBoneTrackKeys info.Name st.PositionalKeys st.RotationalKeys st.ScalingKeys)
        st.RootRelativeStart) :
    ∀ (r b : Nat) (seq : UAnimSequence K) (acc : List (FTransform K))
      (res : UAnimSequence K × List (FTransform K)), Inv b seq acc →
      BoneLoop M Scale bU bS KeyNum r b seq acc = some res → Inv (b + r) res.1 res.2 := by
  intro r
  induction r with
  | zero =>
    intro b seq acc res hinv h
    simp only [BoneLoop, Option.some.injEq] at h
    subst h; exact hinv
  | succ r ih =>
    intro b seq acc res hinv h
    obtain ⟨info, refT, st, hi, hp, hs, hrest⟩ := BoneLoop_succ M Scale bU bS KeyNum r b seq acc res h
    have := ih _ _ _ _ (hstep seq b info refT acc st hinv hi hp hs) hrest
    have e : b + 1 + r = b + (r + 1) := by omega
    rwa [e] at this

/-- The bone loop leaves the skeleton data and the number of keys alone. -/
theorem BoneLoop_frame (M : FMath K) (Scale : K) (bU bS : Bool) (KeyNum r b : Nat)
    (seq : UAnimSequence K) (acc : List (FTransform K))
    (res : UAnimSequence K × List (FTransform K))
    (h : BoneLoop M Scale bU bS KeyNum r b seq acc = some res) :
    res.1.RefBoneInfo = seq.RefBoneInfo ∧ res.1.RefBonePose = seq.RefBonePose ∧
    res.1.NumberOfKeys = seq.NumberOfKeys ∧ res.2.length = acc.length := by
  refine BoneLoop_invariant M Scale bU bS KeyNum
    (fun _ s a => s.RefBoneInfo = seq.RefBoneInfo ∧ s.RefBonePose = seq.RefBonePose ∧
      s.NumberOfKeys = seq.NumberOfKeys ∧ a.length = acc.length)
    ?_ r b seq acc res ⟨rfl, rfl, rfl, rfl⟩ h
  intro s b' info refT a st hinv _ _ hs
  obtain ⟨h1, h2, h3, h4⟩ := hinv
  have hr := ScaleKeyLoop_result M Scale bU bS b' refT _ a KeyNum st hs
  exact ⟨h1, h2, h3, hr.2.2.2.2.2.trans h4⟩

/-- A part `f` of the keys that the scaled key keeps is kept, key by key, in
the track of a name by the whole bone loop. -/
theorem BoneLoop_project {α : Type} (M : FMath K) (Scale : K) (bU bS : Bool) (KeyNum : Nat)
    (f : FTransform K → α) (seq0 : UAnimSequence K) (n : FName) (k : Nat) (hk : k < KeyNum)
    (hf : ∀ (b : Nat) (info : FMeshBoneInfo) (refT t t0 : FTransform K),
      seq0.RefBoneInfo[b]? = some info → info.Name = n → seq0.RefBonePose[b]? = some refT →
      (seq0.GetBoneTrackTransforms n)[k]? = some t0 → f t = f t0 →
      f (ScaledKey M Scale bU b refT t) = f t)
    (r b : Nat) (acc : List (FTransform K)) (res : UAnimSequence K × List (FTransform K))
    (h : BoneLoop M Scale bU bS KeyNum r b seq0 acc = some res) :
    ((res.1.GetBoneTrackTransforms n)[k]?).map f
      = ((seq0.GetBoneTrackTransforms n)[k]?).map f := by
  have key := BoneLoop_invariant M Scale bU bS KeyNum
    (fun _ s _ => s.RefBoneInfo = seq0.RefBoneInfo ∧ s.RefBonePose = seq0.RefBonePose ∧
      ((s.GetBoneTrackTransforms n)[k]?).map f = ((seq0.GetBoneTrackTransforms n)[k]?).map f)
    ?_ r b seq0 acc res ⟨rfl, rfl, rfl⟩ h
  · exact key.2.2
  intro s b' info refT a st hinv hi hp hs
  obtain ⟨h1, h2, h3⟩ := hinv
  refine ⟨h1, h2, ?_⟩
  have hr := ScaleKeyLoop_result M Scale bU bS b' refT _ a KeyNum st hs
  by_cases hn : info.Name = n
  · subst hn
    rcases GetBoneTrackTransforms_set_eq s info.Name st.PositionalKeys st.RotationalKeys
      st.ScalingKeys with he | ⟨he, he'⟩
    · rw [he, hr.2.1, getElem?_take_map_of_lt _ _ _ _ hk, ← h3]
      cases ht : (s.GetBoneTrackTransforms info.Name)[k]? with
      | none => rfl
      | some t =>
        rw [ht] at h3
        simp only [Option.map_some'] at h3 ⊢
        cases ht0 : (seq0.GetBoneTrackTransforms info.Name)[k]? with
        | none => rw [ht0] at h3; simp at h3
        | some t0 =>
          rw [ht0] at h3
          simp only [Option.map_some', Option.some.injEq] at h3
          rw [h1] at hi; rw [h2] at hp
          exact congrArg some (hf b' info refT t t0 hi rfl hp ht0 h3)
    · rw [he, ← h3, he']
  · rw [GetBoneTrackTransforms_set_ne _ _ _ _ _ _ (Ne.symm hn)]
    exact h3

/-- A successful bone loop found at least `KeyNum` keys in the track of every
bone that it processed. -/
theorem BoneLoop_requires (M : FMath K) (Scale : K) (bU bS : Bool) (KeyNum : Nat) :
    ∀ (r b : Nat) (seq : UAnimSequence K) (acc : List (FTransform K))
      (res : UAnimSequence K × List (FTransform K)),
      BoneLoop M Scale bU bS KeyNum r b seq acc = some res →
      ∀ (i : Nat) (info : FMeshBoneInfo), b ≤ i → i < b + r →
        seq.RefBoneInfo[i]? = some info →
        KeyNum ≤ (seq.GetBoneTrackTransforms info.Name).length := by
  intro r
  induction r with
  | zero => intro b seq acc res _ i info h1 h2; omega
  | succ r ih =>
    intro b seq acc res h i info hbi hir hinfo
    obtain ⟨info0, refT, st, hi, hp, hs, hrest⟩ :=
      BoneLoop_succ M Scale bU bS KeyNum r b seq acc res h
    have hr := ScaleKeyLoop_result M Scale bU bS b refT _ acc KeyNum st hs
    by_cases hn : info.Name = info0.Name
    · rw [hn]; exact hr.1
    · have hib : b + 1 ≤ i := by
        rcases Nat.eq_or_lt_of_le hbi with e | e
        · subst e; rw [hi] at hinfo; cases hinfo; exact absurd rfl hn
        · exact e
      have := ih (b + 1) _ _ res hrest i info hib (by omega) hinfo
      rwa [GetBoneTrackTransforms_set_ne _ _ _ _ _ _ hn] at this

/-- The bone loop runs to its end when bone infos and reference pose cover
the bones it visits, every bone's track has at least `KeyNum` keys and the
accumulator, when used, has at least `KeyNum` entries. -/
theorem BoneLoop_exists (M : FMath K) (Scale : K) (bU bS : Bool) (KeyNum : Nat) :
    ∀ (r b : Nat) (seq : UAnimSequence K) (acc : List (FTransform K)),
      b + r ≤ seq.RefBoneInfo.length → b + r ≤ seq.RefBonePose.length →
      (∀ info ∈ seq.RefBoneInfo, KeyNum ≤ (seq.GetBoneTrackTransforms info.Name).length) →
      (bS = true → KeyNum ≤ acc.length) →
      ∃ res, BoneLoop M Scale bU bS KeyNum r b seq acc = some res ∧
        (∀ info ∈ seq.RefBoneInfo, KeyNum ≤ (res.1.GetBoneTrackTransforms info.Name).length) := by
  intro r
  induction r with
  | zero => intro b seq acc _ _ hl _; exact ⟨(seq, acc), rfl, hl⟩
  | succ r ih =>
    intro b seq acc hi hp hl ha
    have hbi : b < seq.RefBoneInfo.length := by omega
    have hbp : b < seq.RefBonePose.length := by omega
    have hmem : seq.RefBoneInfo[b] ∈ seq.RefBoneInfo := List.getElem_mem hbi
    obtain ⟨st, hs⟩ := ScaleKeyLoop_exists M Scale bU bS b seq.RefBonePose[b]
      (seq.GetBoneTrackTransforms seq.RefBoneInfo[b].Name) KeyNum 0 ⟨[], [], [], acc⟩
      (by simpa using hl _ hmem)
      (by intro hc; simp only [Bool.and_eq_true] at hc; simpa using ha hc.1)
    have hr := ScaleKeyLoop_result M Scale bU bS b _ _ acc KeyNum st hs
    have hl' : ∀ info ∈ seq.RefBoneInfo, KeyNum ≤
        ((seq.SetBoneTrackKeys seq.RefBoneInfo[b].Name st.PositionalKeys st.RotationalKeys
          st.ScalingKeys).GetBoneTrackTransforms info.Name).length := by
      intro info hinfo
      by_cases hn : info.Name = seq.RefBoneInfo[b].Name
      · rw [hn]
        rcases GetBoneTrackTransforms_set_eq seq seq.RefBoneInfo[b].Name st.PositionalKeys
          st.RotationalKeys st.ScalingKeys with he | ⟨_, he'⟩
        · rw [he, hr.2.1]; simp [hr.1]
        · have := hl _ hmem; rw [he'] at this; simp at this; omega
      · rw [GetBoneTrackTransforms_set_ne _ _ _ _ _ _ hn]; exact hl info hinfo
    obtain ⟨res, hres, hlres⟩ := ih (b + 1)
      (seq.SetBoneTrackKeys seq.RefBoneInfo[b].Name st.PositionalKeys st.RotationalKeys
        st.ScalingKeys) st.RootRelativeStart (by simpa [UAnimSequence.SetBoneTrackKeys] using by omega)
      (by simpa [UAnimSequence.SetBoneTrackKeys] using by omega) hl'
      (by intro hb; rw [hr.2.2.2.2.2]; exact ha hb)
    refine ⟨res, ?_, hlres⟩
    unfold BoneLoop
    rw [List.getElem?_eq_getElem hbi, List.getElem?_eq_getElem hbp]
    simp only [hs]
    exact hres

/-- The calls that the bone loop adds: one per visited bone, in bone order,
each under the bone's name and with three key arrays of `KeyNum` keys. -/
theorem BoneLoop_calls (M : FMath K) (Scale : K) (bU bS : Bool) (KeyNum : Nat) :
    ∀ (r b : Nat) (seq : UAnimSequence K) (acc : List (FTransform K))
      (res : UAnimSequence K × List (FTransform K)),
      BoneLoop M Scale bU bS KeyNum r b seq acc = some res →
      ∃ calls : List (FSetBoneTrackKeysCall K),
        res.1.ControllerCalls = seq.ControllerCalls ++ calls ∧ calls.length = r ∧
        ∀ (j : Nat) (c : FSetBoneTrackKeysCall K), calls[j]? = some c →
          (∃ info, seq.RefBoneInfo[b + j]? = some info ∧ c.BoneName = info.Name) ∧
          c.PositionalKeys.length = KeyNum ∧ c.RotationalKeys.length = KeyNum ∧
          c.ScalingKeys.length = KeyNum := by
  intro r
  induction r with
  | zero =>
    intro b seq acc res h
    simp only [BoneLoop, Option.some.injEq] at h
    subst h
    exact ⟨[], by simp, rfl, by simp⟩
  | succ r ih =>
    intro b seq acc res h
    obtain ⟨info, refT, st, hi, hp, hs, hrest⟩ :=
      BoneLoop_succ M Scale bU bS KeyNum r b seq acc res h
    have hr := ScaleKeyLoop_result M Scale bU bS b refT _ acc KeyNum st hs
    obtain ⟨calls, hc1, hc2, hc3⟩ := ih _ _ _ _ hrest
    refine ⟨⟨info.Name, st.PositionalKeys, st.RotationalKeys, st.ScalingKeys⟩ :: calls, ?_, ?_, ?_⟩
    · rw [hc1]; simp [UAnimSequence.SetBoneTrackKeys]
    · simp [hc2]
    · intro j c hj
      cases j with
      | zero =>
        simp only [List.getElem?_cons_zero, Option.some.injEq] at hj
        subst hj
        exact ⟨⟨info, by simpa using hi, rfl⟩, hr.2.2.1, hr.2.2.2.1, hr.2.2.2.2.1⟩
      | succ j =>
        simp only [List.getElem?_cons_succ] at hj
        have := hc3 j c hj
        have e : b + 1 + j = b + (j + 1) := by omega
        rw [e] at this
        exact this

theorem boneName_index_unique (l : List FMeshBoneInfo)
    (hnames : (l.map FMeshBoneInfo.Name).Nodup) (i j : Nat) (a b : FMeshBoneInfo)
    (hi : l[i]? = some a) (hj : l[j]? = some b) (hab : a.Name = b.Name) : i = j := by
  obtain ⟨hi', rfl⟩ := List.getElem?_eq_some.1 hi
  obtain ⟨hj', rfl⟩ := List.getElem?_eq_some.1 hj
  have hi2 : i < (l.map FMeshBoneInfo.Name).length := by simpa using hi'
  have hj2 : j < (l.map FMeshBoneInfo.Name).length := by simpa using hj'
  exact (@List.Nodup.getElem_inj_iff _ _ hnames i hi2 j hj2).1 (by simpa using hab)

/-- With pairwise distinct bone names, the track that the bone loop leaves
for a bone it visits holds, key by key, the scaled keys of the bone's
original track. -/
theorem BoneLoop_track (M : FMath K) (Scale : K) (bU bS : Bool) (KeyNum : Nat)
    (seq0 : UAnimSequence K) (hnames : (seq0.RefBoneInfo.map FMeshBoneInfo.Name).Nodup)
    (b : Nat) (info : FMeshBoneInfo) (refT : FTransform K)
    (hi : seq0.RefBoneInfo[b]? = some info) (hp : seq0.RefBonePose[b]? = some refT)
    (r : Nat) (hbr : b < r) (acc : List (FTransform K))
    (res : UAnimSequence K × List (FTransform K))
    (h : BoneLoop M Scale bU bS KeyNum r 0 seq0 acc = some res) (k : Nat) (hk : k < KeyNum) :
    (res.1.GetBoneTrackTransforms info.Name)[k]?
      = ((seq0.GetBoneTrackTransforms info.Name)[k]?).map (ScaledKey M Scale bU b refT) := by
  have key := BoneLoop_invariant M Scale bU bS KeyNum
    (fun j s _ => s.RefBoneInfo = seq0.RefBoneInfo ∧ s.RefBonePose = seq0.RefBonePose ∧
      (s.GetBoneTrackTransforms info.Name)[k]? =
        if j ≤ b then (seq0.GetBoneTrackTransforms info.Name)[k]?
        else ((seq0.GetBoneTrackTransforms info.Name)[k]?).map (ScaledKey M Scale bU b refT))
    ?_ r 0 seq0 acc res ⟨rfl, rfl, by simp⟩ h
  · have h3 := key.2.2
    rw [if_neg (by omega)] at h3
    exact h3
  intro s j info' refT' a st hinv hi' hp' hs
  obtain ⟨h1, h2, h3⟩ := hinv
  refine ⟨h1, h2, ?_⟩
  have hr := ScaleKeyLoop_result M Scale bU bS j refT' _ a KeyNum st hs
  rw [h1] at hi'; rw [h2] at hp'
  by_cases hn : info'.Name = info.Name
  · have hjb : j = b := boneName_index_unique _ hnames j b info' info hi' hi hn
    subst hjb
    rw [hi] at hi'; cases hi'
    rw [hp] at hp'; cases hp'
    rw [if_pos (le_refl j)] at h3
    rw [if_neg (by omega)]
    rcases GetBoneTrackTransforms_set_eq s info.Name st.PositionalKeys st.RotationalKeys
      st.ScalingKeys with he | ⟨he, he'⟩
    · rw [he, hr.2.1, getElem?_take_map_of_lt _ _ _ _ hk, h3]
    · rw [he, ← h3, he']; rfl
  · have hjb : j ≠ b := by
      rintro rfl
      rw [hi] at hi'; cases hi'; exact hn rfl
    rw [GetBoneTrackTransforms_set_ne _ _ _ _ _ _ (Ne.symm hn), h3]
    by_cases hle : j ≤ b
    · rw [if_pos hle, if_pos (by omega)]
    · rw [if_neg hle, if_neg (by omega)]

/-- The scale pass runs to its end on a well-formed sequence, and leaves at
least `NumberOfKeys` keys in every bone's track. -/
theorem ScalePass_exists (M : FMath K) (seq : UAnimSequence K) (Scale : K) (bU bS : Bool)
    (hwf : seq.WellFormed) :
    ∃ res, ScalePass M seq Scale bU bS = some res ∧
      (∀ info ∈ seq.RefBoneInfo,
        seq.NumberOfKeys ≤ (res.1.GetBoneTrackTransforms info.Name).length) := by
  unfold ScalePass
  apply BoneLoop_exists
  · rw [hwf.1]; omega
  · omega
  · intro info hinfo; rw [hwf.2 info hinfo]
  · intro hb; simp [InitialRootRelativeStart, hb]

/-- The parts of a successful run of `ModifyAnimation_Internal`. -/
theorem ModifyAnimation_Internal_cases (M : FMath K) (seq seq' : UAnimSequence K) (Scale : K)
    (bU bS : Bool) (h : ModifyAnimation_Internal M seq Scale bU bS = some seq') :
    (seq.RefBonePose.length < 1 ∧ seq' = seq) ∨
    (1 ≤ seq.RefBonePose.length ∧ ∃ res, ScalePass M seq Scale bU bS = some res ∧
      ((bS = false ∧ seq' = res.1) ∨
       (bS = true ∧ RootRelativePass M seq.NumberOfKeys res.1 res.2 = some seq'))) := by
  unfold ModifyAnimation_Internal at h
  by_cases hb : seq.RefBonePose.length < 1
  · simp only [hb, if_true, Option.some.injEq] at h
    exact Or.inl ⟨hb, h.symm⟩
  · simp only [hb, if_false] at h
    right
    refine ⟨by omega, ?_⟩
    cases hs : ScalePass M seq Scale bU bS with
    | none => simp [hs] at h
    | some res =>
      obtain ⟨s1, a1⟩ := res
      simp only [hs] at h
      refine ⟨(s1, a1), rfl, ?_⟩
      cases bS with
      | false => left; simp at h; exact ⟨rfl, h.symm⟩
      | true => right; simp at h; exact ⟨rfl, h⟩

/-- The method `ModifyAnimation_Internal` returns on every well-formed
sequence. -/
theorem ModifyAnimation_Internal_exists (M : FMath K) (seq : UAnimSequence K) (Scale : K)
    (bU bS : Bool) (hwf : seq.WellFormed) :
    ∃ seq', ModifyAnimation_Internal M seq Scale bU bS = some seq' := by
  unfold ModifyAnimation_Internal
  by_cases hb : seq.RefBonePose.length < 1
  · exact ⟨seq, by simp [hb]⟩
  · simp only [hb, if_false]
    obtain ⟨res, hres, hlen⟩ := ScalePass_exists M seq Scale bU bS hwf
    obtain ⟨s1, a1⟩ := res
    simp only [hres]
    cases bS with
    | false => exact ⟨s1, by simp⟩
    | true =>
      simp only [if_true]
      have hf := BoneLoop_frame M Scale bU true seq.NumberOfKeys _ 0 seq _ _ hres
      have h0 : 0 < seq.RefBoneInfo.length := by rw [hwf.1]; omega
      unfold RootRelativePass
      rw [hf.1, List.getElem?_eq_getElem h0]
      simp only
      obtain ⟨keys, hk⟩ := RootKeyLoop_exists M (s1.GetBoneTrackTransforms seq.RefBoneInfo[0].Name)
        a1 seq.NumberOfKeys 0 ([], [], [])
        (by simpa using hlen _ (List.getElem_mem h0))
        (by have := hf.2.2.2; simp [InitialRootRelativeStart] at this; simp [this])
      rw [hk]
      exact ⟨_, rfl⟩

end PipelineLemmas

/-! ## Evaluation of the fixed rotation and of the real math library -/

section Ex
variable {K : Type} [LinearOrderedField K] [FloorRing K]

theorem Fmod_zero_360 : Fmod (0 : K) 360 = 0 := by
  have h : ¬ |(360 : K)| ≤ UE_SMALL_NUMBER := by
    rw [abs_of_pos (by norm_num : (0 : K) < 360)]
    unfold UE_SMALL_NUMBER; norm_num
  rw [Fmod, if_neg h, truncToInt]
  simp

theorem Fmod_neg90_360 : Fmod (-90 : K) 360 = -90 := by
  have h : ¬ |(360 : K)| ≤ UE_SMALL_NUMBER := by
    rw [abs_of_pos (by norm_num : (0 : K) < 360)]
    unfold UE_SMALL_NUMBER; norm_num
  have hneg : ¬ (0 : K) ≤ -90 / 360 := by norm_num
  have hceil : Int.ceil ((-90 : K) / 360) = 0 := by
    rw [Int.ceil_eq_iff]; norm_num
  rw [Fmod, if_neg h, truncToInt, if_neg hneg, hceil]
  simp

/-- The quaternion of `FRotator(0.f, 0.f, -90.f)`: pitch and yaw are zero, the
roll of -90 degrees turns about the forward X axis, so only the X and W
components are set. -/
theorem unrotate_quaternion (M : FMath K) (hsin : M.Sin 0 = 0) (hcos : M.Cos 0 = 1) :
    (FRotator.mk (0 : K) 0 (-90)).Quaternion M
      = ⟨-M.Sin (-90 * (M.PI / 180 / 2)), 0, 0, M.Cos (-90 * (M.PI / 180 / 2))⟩ := by
  simp [FRotator.Quaternion, Fmod_zero_360, Fmod_neg90_360, hsin, hcos]
end Ex

theorem real_atan2_zero_one : Complex.arg ⟨1, 0⟩ = 0 := by
  have : (⟨1, 0⟩ : ℂ) = 1 := by apply Complex.ext <;> simp
  rw [this, Complex.arg_one]

theorem real_atan2_zero_neg_one : Complex.arg ⟨-1, 0⟩ = Real.pi := by
  have : (⟨-1, 0⟩ : ℂ) = -1 := by apply Complex.ext <;> simp
  rw [this, Complex.arg_neg_one]

theorem real_sin_neg_quarter : Real.sin (-90 * (Real.pi / 180 / 2)) = -(Real.sqrt 2 / 2) := by
  have : (-90 * (Real.pi / 180 / 2) : ℝ) = -(Real.pi / 4) := by ring
  rw [this, Real.sin_neg, Real.sin_pi_div_four]

theorem real_cos_neg_quarter : Real.cos (-90 * (Real.pi / 180 / 2)) = Real.sqrt 2 / 2 := by
  have : (-90 * (Real.pi / 180 / 2) : ℝ) = -(Real.pi / 4) := by ring
  rw [this, Real.cos_neg, Real.cos_pi_div_four]

theorem real_unrotate_quaternion :
    (FRotator.mk (0 : ℝ) 0 (-90)).Quaternion
      (⟨Real.sqrt, Real.sin, Real.cos, fun y x => Complex.arg ⟨x, y⟩, Real.pi, fun A _ => A⟩ :
        FMath ℝ)
      = ⟨Real.sqrt 2 / 2, 0, 0, Real.sqrt 2 / 2⟩ := by
  rw [unrotate_quaternion _ Real.sin_zero Real.cos_zero]
  simp only [real_sin_neg_quarter, real_cos_neg_quarter, neg_neg]

/-! ## The pipeline: positions, rotations, scales, lengths -/

section Claims
variable {K : Type} [LinearOrderedField K] [FloorRing K]

/-- In a well-formed sequence with pairwise distinct bone names, the track
that the scale pass leaves for a bone holds the scaled key of each of the
bone's original keys. -/
theorem ScalePass_track (M : FMath K) (seq : UAnimSequence K) (Scale : K) (bU bS : Bool)
    (hwf : seq.WellFormed) (hnames : (seq.RefBoneInfo.map FMeshBoneInfo.Name).Nodup)
    (b k : Nat) (info : FMeshBoneInfo) (t : FTransform K)
    (hi : seq.RefBoneInfo[b]? = some info)
    (ht : (seq.GetBoneTrackTransforms info.Name)[k]? = some t) :
    ∃ res refT, ScalePass M seq Scale bU bS = some res ∧ seq.RefBonePose[b]? = some refT ∧
      k < seq.NumberOfKeys ∧ 1 ≤ seq.RefBonePose.length ∧
      (res.1.GetBoneTrackTransforms info.Name)[k]? = some (ScaledKey M Scale bU b refT t) := by
  obtain ⟨res, hres, _⟩ := ScalePass_exists M seq Scale bU bS hwf
  have hb : b < seq.RefBoneInfo.length := (List.getElem?_eq_some.1 hi).1
  have hb' : b < seq.RefBonePose.length := by rw [← hwf.1]; exact hb
  have hmem : info ∈ seq.RefBoneInfo := by
    obtain ⟨h1, h2⟩ := List.getElem?_eq_some.1 hi
    rw [← h2]; exact List.getElem_mem h1
  have hk : k < seq.NumberOfKeys := by
    rw [← hwf.2 info hmem]; exact (List.getElem?_eq_some.1 ht).1
  refine ⟨res, seq.RefBonePose[b], hres, List.getElem?_eq_getElem hb', hk, by omega, ?_⟩
  have := BoneLoop_track M Scale bU bS seq.NumberOfKeys seq hnames b info _ hi
    (List.getElem?_eq_getElem hb') _ hb' _ res hres k hk
  rw [this, ht]; rfl

/-- C3 (as amended): identity scale.  On a well-formed sequence with pairwise
distinct bone names the scale pass with scale 1 runs to its end, and for
every bone and every keyframe whose displacement from the reference location
has squared length zero or at least `UE_SMALL_NUMBER`, the position key that
the scale pass leaves in the bone's track equals the bone's original animated
position at that keyframe; without the root-relative pass this is the result
of `ModifyAnimation_Internal`. -/
theorem identity_scale_positions (M : FMath K) (hM : M.SqrtLaw) (seq : UAnimSequence K)
    (bU bS : Bool) (hwf : seq.WellFormed)
    (hnames : (seq.RefBoneInfo.map FMeshBoneInfo.Name).Nodup)
    (b k : Nat) (info : FMeshBoneInfo) (refT t : FTransform K)
    (hi : seq.RefBoneInfo[b]? = some info) (hp : seq.RefBonePose[b]? = some refT)
    (ht : (seq.GetBoneTrackTransforms info.Name)[k]? = some t)
    (hd : (t.GetLocation.sub refT.GetLocation).SizeSquared = 0 ∨
      UE_SMALL_NUMBER ≤ (t.GetLocation.sub refT.GetLocation).SizeSquared) :
    ∃ res, ScalePass M seq 1 bU bS = some res ∧
      ((res.1.GetBoneTrackTransforms info.Name)[k]?).map FTransform.GetLocation
        = some t.GetLocation ∧
      (bS = false → ModifyAnimation_Internal M seq 1 bU bS = some res.1) := by
  obtain ⟨res, refT', hres, hp', _, hlen, htrack⟩ :=
    ScalePass_track M seq 1 bU bS hwf hnames b k info t hi ht
  rw [hp] at hp'; cases hp'
  refine ⟨res, hres, ?_, ?_⟩
  · rw [htrack]
    simp only [Option.map_some', Option.some.injEq, FTransform.GetLocation, ScaledKey]
    exact ScaledBoneLocation_one hM _ _ hd
  · intro hbS
    subst hbS
    have : ¬ seq.RefBonePose.length < 1 := by omega
    simp [ModifyAnimation_Internal, this, hres]

/-- Identity scale on the two-bone sequence whose root key is at (3,4,0) and
whose child key is at the reference location: the position key of the root
is kept. -/
theorem identity_scale_positions_witness :
    ∃ res, ScalePass (⟨Real.sqrt, Real.sin, Real.cos, fun y x => Complex.arg ⟨x, y⟩, Real.pi, fun A _ => A⟩ :
      FMath ℝ)
        (TwoBoneSequence ⟨FQuat.Identity, ⟨3, 4, 0⟩, FVector.OneVector⟩ FTransform.Identity)
        1 false false = some res ∧
      ((res.1.GetBoneTrackTransforms ⟨0⟩)[0]?).map FTransform.GetLocation
        = some (FTransform.GetLocation ⟨FQuat.Identity, ⟨3, 4, 0⟩, FVector.OneVector⟩) ∧
      (false = false → ModifyAnimation_Internal (⟨Real.sqrt, Real.sin, Real.cos, fun y x => Complex.arg ⟨x, y⟩, Real.pi, fun A _ => A⟩ :
      FMath ℝ)
        (TwoBoneSequence ⟨FQuat.Identity, ⟨3, 4, 0⟩, FVector.OneVector⟩ FTransform.Identity)
        1 false false = some res.1) :=
  identity_scale_positions (⟨Real.sqrt, Real.sin, Real.cos, fun y x => Complex.arg ⟨x, y⟩, Real.pi, fun A _ => A⟩ :
      FMath ℝ) real_sqrtLaw
    (TwoBoneSequence ⟨FQuat.Identity, ⟨3, 4, 0⟩, FVector.OneVector⟩ FTransform.Identity)
    false false
    (by simp [UAnimSequence.WellFormed, TwoBoneSequence, UAnimSequence.GetBoneTrackTransforms,
      FindBoneTrackKeys])
    (by simp [TwoBoneSequence])
    0 0 ⟨⟨0⟩, -1⟩ FTransform.Identity ⟨FQuat.Identity, ⟨3, 4, 0⟩, FVector.OneVector⟩
    (by simp [TwoBoneSequence]) (by simp [TwoBoneSequence])
    (by simp [TwoBoneSequence, UAnimSequence.GetBoneTrackTransforms, FindBoneTrackKeys])
    (Or.inr (by
      simp [FTransform.GetLocation, FTransform.Identity, FVector.ZeroVector, FVector.sub,
        FVector.SizeSquared, UE_SMALL_NUMBER]
      norm_num))

/-- C3 (as stated) fails inside the guard band: on the one-bone sequence whose
root key is at (9/100000, 0, 0), reference at the origin, the run with scale 1
writes the position key (0, 0, 0), not the original position. -/
theorem guard_band_breaks_identity_scale :
    ModifyAnimation_Internal (⟨Real.sqrt, Real.sin, Real.cos, fun y x => Complex.arg ⟨x, y⟩, Real.pi, fun A _ => A⟩ :
      FMath ℝ)
      (OneBoneSequence 1 [⟨FQuat.Identity, ⟨9 / 100000, 0, 0⟩, FVector.OneVector⟩]) 1 false false
    = some ⟨[FTransform.Identity], [⟨⟨0⟩, -1⟩], 1,
        [⟨⟨0⟩, [⟨FQuat.Identity, ⟨0, 0, 0⟩, FVector.OneVector⟩]⟩],
        [⟨⟨0⟩, [⟨0, 0, 0⟩], [FQuat.Identity], [FVector.OneVector]⟩]⟩ ∧
    (⟨0, 0, 0⟩ : FVector ℝ) ≠ ⟨9 / 100000, 0, 0⟩ := by
  constructor
  · simp [ModifyAnimation_Internal, ScalePass, BoneLoop, ScaleKeyLoop, InitialRootRelativeStart,
      OneBoneSequence, UAnimSequence.GetBoneTrackTransforms,
      UAnimSequence.SetBoneTrackKeys, FindBoneTrackKeys, MakeTransformKeys, ScaledBoneLocation,
      BoneRotation, FTransform.Identity, FTransform.GetLocation, FTransform.GetRotation,
      FTransform.GetScale3D, FQuat.Identity, FVector.GetSafeNormal, FVector.Length, FVector.sub,
      FVector.add, FVector.scale, FVector.ZeroVector, FVector.OneVector, UE_SMALL_NUMBER]
    norm_num
  · simp only [ne_eq, FVector.mk.injEq, and_true]
    norm_num

/-- C5 (as amended): root unrotation.  With `bUnrotateRootBone` set, on a
well-formed sequence with pairwise distinct bone names, for every keyframe
the rotation key that the scale pass leaves for bone 0 is the original root
rotation left-multiplied by `FRotator(0, 0, -90).Quaternion()`.  The third
constructor argument is the roll, so this fixed rotation is the quarter turn
about the forward X axis, with components `(-sin(-45°), 0, 0, cos(-45°))`,
not a rotation about the vertical Z axis.  Without the root-relative pass
this is the result of `ModifyAnimation_Internal`. -/
theorem root_unrotation_rotation (M : FMath K) (hsin : M.Sin 0 = 0) (hcos : M.Cos 0 = 1)
    (seq : UAnimSequence K) (Scale : K) (bS : Bool) (hwf : seq.WellFormed)
    (hnames : (seq.RefBoneInfo.map FMeshBoneInfo.Name).Nodup)
    (k : Nat) (info : FMeshBoneInfo) (t : FTransform K)
    (hi : seq.RefBoneInfo[0]? = some info)
    (ht : (seq.GetBoneTrackTransforms info.Name)[k]? = some t) :
    ∃ res, ScalePass M seq Scale true bS = some res ∧
      ((res.1.GetBoneTrackTransforms info.Name)[k]?).map FTransform.GetRotation
        = some (FQuat.mul
            ⟨-M.Sin (-90 * (M.PI / 180 / 2)), 0, 0, M.Cos (-90 * (M.PI / 180 / 2))⟩
            t.GetRotation) ∧
      (bS = false → ModifyAnimation_Internal M seq Scale true bS = some res.1) := by
  obtain ⟨res, refT, hres, _, _, hlen, htrack⟩ :=
    ScalePass_track M seq Scale true bS hwf hnames 0 k info t hi ht
  refine ⟨res, hres, ?_, ?_⟩
  · rw [htrack]
    simp only [Option.map_some', Option.some.injEq, FTransform.GetRotation, ScaledKey,
      BoneRotation, Bool.true_and, beq_self_eq_true, if_true]
    rw [unrotate_quaternion M hsin hcos]
  · intro hbS
    subst hbS
    have : ¬ seq.RefBonePose.length < 1 := by omega
    simp [ModifyAnimation_Internal, this, hres]

/-- Root unrotation on the two-bone sequence with identity keys. -/
theorem root_unrotation_rotation_witness :
    ∃ res, ScalePass (⟨Real.sqrt, Real.sin, Real.cos, fun y x => Complex.arg ⟨x, y⟩, Real.pi, fun A _ => A⟩ :
      FMath ℝ) (TwoBoneSequence FTransform.Identity FTransform.Identity) 1 true false
        = some res ∧
      ((res.1.GetBoneTrackTransforms ⟨0⟩)[0]?).map FTransform.GetRotation
        = some (FQuat.mul
            ⟨-Real.sin (-90 * (Real.pi / 180 / 2)), 0, 0, Real.cos (-90 * (Real.pi / 180 / 2))⟩
            (FTransform.GetRotation (FTransform.Identity : FTransform ℝ))) ∧
      (false = false → ModifyAnimation_Internal (⟨Real.sqrt, Real.sin, Real.cos, fun y x => Complex.arg ⟨x, y⟩, Real.pi, fun A _ => A⟩ :
      FMath ℝ)
        (TwoBoneSequence FTransform.Identity FTransform.Identity) 1 true false = some res.1) :=
  root_unrotation_rotation (⟨Real.sqrt, Real.sin, Real.cos, fun y x => Complex.arg ⟨x, y⟩, Real.pi, fun A _ => A⟩ :
      FMath ℝ) Real.sin_zero Real.cos_zero
    (TwoBoneSequence FTransform.Identity FTransform.Identity) 1 false
    (by simp [UAnimSequence.WellFormed, TwoBoneSequence, UAnimSequence.GetBoneTrackTransforms,
      FindBoneTrackKeys])
    (by simp [TwoBoneSequence])
    0 ⟨⟨0⟩, -1⟩ FTransform.Identity
    (by simp [TwoBoneSequence])
    (by simp [TwoBoneSequence, UAnimSequence.GetBoneTrackTransforms, FindBoneTrackKeys])

/-- C5 (as stated) fails: on the one-bone sequence whose root key is the
identity, the run with `bUnrotateRootBone` set writes the root rotation
`(√2/2, 0, 0, √2/2)`, a turn about the X axis, while `Rz(-90°)` composed with
the original rotation is `(0, 0, -√2/2, √2/2)`. -/
theorem unrotation_is_not_about_z :
    ModifyAnimation_Internal (⟨Real.sqrt, Real.sin, Real.cos, fun y x => Complex.arg ⟨x, y⟩, Real.pi, fun A _ => A⟩ :
      FMath ℝ) (OneBoneSequence 1 [FTransform.Identity]) 1 true false
    = some ⟨[FTransform.Identity], [⟨⟨0⟩, -1⟩], 1,
        [⟨⟨0⟩, [⟨⟨Real.sqrt 2 / 2, 0, 0, Real.sqrt 2 / 2⟩, ⟨0, 0, 0⟩, FVector.OneVector⟩]⟩],
        [⟨⟨0⟩, [⟨0, 0, 0⟩], [⟨Real.sqrt 2 / 2, 0, 0, Real.sqrt 2 / 2⟩], [FVector.OneVector]⟩]⟩ ∧
    (Rz (⟨Real.sqrt, Real.sin, Real.cos, fun y x => Complex.arg ⟨x, y⟩, Real.pi, fun A _ => A⟩ :
      FMath ℝ) (-90)).mul (FTransform.GetRotation (FTransform.Identity : FTransform ℝ))
      = ⟨0, 0, -(Real.sqrt 2 / 2), Real.sqrt 2 / 2⟩ ∧
    (⟨Real.sqrt 2 / 2, 0, 0, Real.sqrt 2 / 2⟩ : FQuat ℝ)
      ≠ ⟨0, 0, -(Real.sqrt 2 / 2), Real.sqrt 2 / 2⟩ := by
  refine ⟨?_, ?_, ?_⟩
  · simp [ModifyAnimation_Internal, ScalePass, BoneLoop, ScaleKeyLoop, InitialRootRelativeStart,
      OneBoneSequence, UAnimSequence.GetBoneTrackTransforms,
      UAnimSequence.SetBoneTrackKeys, FindBoneTrackKeys, MakeTransformKeys, ScaledBoneLocation,
      BoneRotation, real_unrotate_quaternion, FTransform.Identity, FTransform.GetLocation,
      FTransform.GetRotation,
      FTransform.GetScale3D, FQuat.Identity, FQuat.mul, FVector.GetSafeNormal, FVector.Length,
      FVector.sub,
      FVector.add, FVector.scale, FVector.ZeroVector, FVector.OneVector, UE_SMALL_NUMBER]
  · have h : (-90 * (Real.pi / 180) / 2 : ℝ) = -90 * (Real.pi / 180 / 2) := by ring
    simp only [Rz, h, real_sin_neg_quarter, real_cos_neg_quarter]
    simp [FQuat.mul, FTransform.Identity, FTransform.GetRotation, FQuat.Identity]
  · intro h
    have hx := congrArg FQuat.X h
    simp at hx

/-- C6 (as amended): rotation pass-through.  With `bUnrotateRootBone` unset,
on a well-formed sequence with pairwise distinct bone names, the run returns
and for every scale, every bone and every keyframe the rotation key in the
bone's final track equals the bone's original rotation key, provided the
root-relative pass is off or the bone is not the root. -/
theorem rotation_pass_through (M : FMath K) (seq : UAnimSequence K) (Scale : K) (bS : Bool)
    (hwf : seq.WellFormed) (hnames : (seq.RefBoneInfo.map FMeshBoneInfo.Name).Nodup)
    (b k : Nat) (info : FMeshBoneInfo) (t : FTransform K)
    (hi : seq.RefBoneInfo[b]? = some info)
    (ht : (seq.GetBoneTrackTransforms info.Name)[k]? = some t)
    (hroot : bS = false ∨ b ≠ 0) :
    ∃ seq', ModifyAnimation_Internal M seq Scale false bS = some seq' ∧
      ((seq'.GetBoneTrackTransforms info.Name)[k]?).map FTransform.GetRotation
        = some t.GetRotation := by
  obtain ⟨res, refT, hres, _, _, hlen, htrack⟩ :=
    ScalePass_track M seq Scale false bS hwf hnames b k info t hi ht
  obtain ⟨seq', hrun⟩ := ModifyAnimation_Internal_exists M seq Scale false bS hwf
  refine ⟨seq', hrun, ?_⟩
  have hscaled : ((res.1.GetBoneTrackTransforms info.Name)[k]?).map FTransform.GetRotation
      = some t.GetRotation := by
    rw [htrack]; simp [ScaledKey, BoneRotation, FTransform.GetRotation]
  rcases ModifyAnimation_Internal_cases M seq seq' Scale false bS hrun with
    ⟨h0, _⟩ | ⟨_, res', hres', hcase⟩
  · omega
  · rw [hres] at hres'; cases hres'
    rcases hcase with ⟨_, rfl⟩ | ⟨hbS, hroot'⟩
    · exact hscaled
    · have hb0 : b ≠ 0 := by
        rcases hroot with h | h
        · rw [h] at hbS; cases hbS
        · exact h
      obtain ⟨info0, hi0, _, _, hother, _⟩ :=
        RootRelativePass_result M seq.NumberOfKeys res.1 seq' res.2 hroot'
      have hf := BoneLoop_frame M Scale false bS seq.NumberOfKeys _ 0 seq _ _ hres
      rw [hf.1] at hi0
      have hne : info.Name ≠ info0.Name := by
        intro e
        exact hb0 (boneName_index_unique _ hnames b 0 info info0 hi hi0 e)
      rw [hother _ hne]
      exact hscaled

/-- Rotation pass-through for the child of the two-bone sequence with the
root-relative pass on. -/
theorem rotation_pass_through_witness :
    ∃ seq', ModifyAnimation_Internal (⟨Real.sqrt, Real.sin, Real.cos, fun y x => Complex.arg ⟨x, y⟩, Real.pi, fun A _ => A⟩ :
      FMath ℝ)
        (TwoBoneSequence FTransform.Identity ⟨⟨0, 0, 1, 0⟩, ⟨0, 0, 0⟩, FVector.OneVector⟩)
        2 false true = some seq' ∧
      ((seq'.GetBoneTrackTransforms ⟨1⟩)[0]?).map FTransform.GetRotation
        = some (FTransform.GetRotation ⟨⟨0, 0, 1, 0⟩, ⟨0, 0, 0⟩, FVector.OneVector⟩) :=
  rotation_pass_through (⟨Real.sqrt, Real.sin, Real.cos, fun y x => Complex.arg ⟨x, y⟩, Real.pi, fun A _ => A⟩ :
      FMath ℝ)
    (TwoBoneSequence FTransform.Identity ⟨⟨0, 0, 1, 0⟩, ⟨0, 0, 0⟩, FVector.OneVector⟩) 2 true
    (by simp [UAnimSequence.WellFormed, TwoBoneSequence, UAnimSequence.GetBoneTrackTransforms,
      FindBoneTrackKeys])
    (by simp [TwoBoneSequence])
    1 0 ⟨⟨1⟩, 0⟩ ⟨⟨0, 0, 1, 0⟩, ⟨0, 0, 0⟩, FVector.OneVector⟩
    (by simp [TwoBoneSequence])
    (by simp [TwoBoneSequence, UAnimSequence.GetBoneTrackTransforms, FindBoneTrackKeys])
    (Or.inr (by decide))

/-- C6 (as stated) fails for the root when the root-relative pass is on: on
the one-bone sequence whose root key has the rotation `(0, 0, 1, 0)` (half a
turn about Z), the run with `bUnrotateRootBone` unset and `bStart` set leaves
the rotation key `(0, 0, 0, 1)` in the root's track. -/
theorem root_rotation_rewritten_when_root_relative :
    ModifyAnimation_Internal (⟨Real.sqrt, Real.sin, Real.cos, fun y x => Complex.arg ⟨x, y⟩, Real.pi, fun A _ => A⟩ :
      FMath ℝ)
      (OneBoneSequence 1 [⟨⟨0, 0, 1, 0⟩, ⟨0, 0, 0⟩, FVector.OneVector⟩]) 1 false true
    = some ⟨[FTransform.Identity], [⟨⟨0⟩, -1⟩], 1,
        [⟨⟨0⟩, [⟨⟨0, 0, 0, 1⟩, ⟨0, 0, 0⟩, FVector.OneVector⟩]⟩],
        [⟨⟨0⟩, [⟨0, 0, 0⟩], [⟨0, 0, 1, 0⟩], [FVector.OneVector]⟩,
         ⟨⟨0⟩, [⟨0, 0, 0⟩], [⟨0, 0, 0, 1⟩], [FVector.OneVector]⟩]⟩ ∧
    (⟨0, 0, 0, 1⟩ : FQuat ℝ) ≠ ⟨0, 0, 1, 0⟩ := by
  constructor
  · have hpi : Real.pi * (1 / 2) = Real.pi / 2 := by ring
    simp [ModifyAnimation_Internal, ScalePass, BoneLoop, ScaleKeyLoop, InitialRootRelativeStart,
      RootRelativePass, RootKeyLoop, RootRelativeKey, OneBoneSequence,
      UAnimSequence.GetBoneTrackTransforms,
      UAnimSequence.SetBoneTrackKeys, FindBoneTrackKeys, MakeTransformKeys, ScaledBoneLocation,
      BoneRotation, ComposeTransforms, FTransform.Multiply, FTransform.AnyHasNegativeScale,
      FTransform.Identity, FTransform.GetLocation, FTransform.GetRotation, FTransform.GetScale3D,
      FQuat.Identity, FQuat.mul, FQuat.RotateVector, FQuat.GetAxisX, FQuat.Inverse,
      FVector.ToOrientationQuat, FVector.GetSafeNormal, FVector.Length, FVector.sub, FVector.add,
      FVector.scale, FVector.mul, FVector.cross, FVector.ZeroVector, FVector.OneVector,
      real_atan2_zero_one, real_atan2_zero_neg_one, UE_SMALL_NUMBER]
    norm_num [real_atan2_zero_one, real_atan2_zero_neg_one]
    rw [hpi]
    exact ⟨Real.cos_pi_div_two, Real.sin_pi_div_two⟩
  · simp

/-- A part `f` of the keys that both the scaled key and the root-relative
key keep is kept, key by key, in every track by a whole run. -/
theorem ModifyAnimation_Internal_project {α : Type} (M : FMath K) (seq seq' : UAnimSequence K)
    (Scale : K) (bU bS : Bool) (f : FTransform K → α)
    (hscaled : ∀ (b : Nat) (refT t : FTransform K), f (ScaledKey M Scale bU b refT t) = f t)
    (hrel : ∀ t a : FTransform K, f (RootRelativeTransform M t a) = f t)
    (h : ModifyAnimation_Internal M seq Scale bU bS = some seq') (n : FName) (k : Nat)
    (hk : k < seq.NumberOfKeys) :
    ((seq'.GetBoneTrackTransforms n)[k]?).map f = ((seq.GetBoneTrackTransforms n)[k]?).map f := by
  rcases ModifyAnimation_Internal_cases M seq seq' Scale bU bS h with
    ⟨_, rfl⟩ | ⟨_, res, hres, hcase⟩
  · rfl
  · have h1 := BoneLoop_project M Scale bU bS seq.NumberOfKeys f seq n k hk
      (fun b _ refT t _ _ _ _ _ _ => hscaled b refT t) _ 0 _ res hres
    rcases hcase with ⟨_, rfl⟩ | ⟨_, hroot⟩
    · exact h1
    · obtain ⟨info0, _, _, _, hother, hkeys, _⟩ :=
        RootRelativePass_result M seq.NumberOfKeys res.1 seq' res.2 hroot
      by_cases hn : n = info0.Name
      · subst hn
        obtain ⟨t, a, e1, _, e2⟩ := hkeys k hk
        rw [e2, ← h1, e1]
        simp only [Option.map_some', hrel]
      · rw [hother n hn]; exact h1

/-- C7: scale-component pass-through.  On a well-formed sequence the run
returns, for every scale factor and every setting of `bUnrotateRootBone` and
`bStart`, and for every bone and every keyframe the scale key in the bone's
final track equals the bone's original scale key; the root after the
root-relative pass is included. -/
theorem scale_keys_pass_through (M : FMath K) (seq : UAnimSequence K) (Scale : K)
    (bU bS : Bool) (hwf : seq.WellFormed) :
    ∃ seq', ModifyAnimation_Internal M seq Scale bU bS = some seq' ∧
      ∀ info ∈ seq.RefBoneInfo, ∀ k, k < seq.NumberOfKeys →
        ∃ t t', (seq.GetBoneTrackTransforms info.Name)[k]? = some t ∧
          (seq'.GetBoneTrackTransforms info.Name)[k]? = some t' ∧
          t'.GetScale3D = t.GetScale3D := by
  obtain ⟨seq', hrun⟩ := ModifyAnimation_Internal_exists M seq Scale bU bS hwf
  refine ⟨seq', hrun, ?_⟩
  intro info hinfo k hk
  have hmap := ModifyAnimation_Internal_project M seq seq' Scale bU bS FTransform.GetScale3D
    (fun _ _ _ => rfl) (fun _ _ => rfl) hrun info.Name k hk
  have hk' : k < (seq.GetBoneTrackTransforms info.Name).length := by
    rw [hwf.2 info hinfo]; exact hk
  rw [List.getElem?_eq_getElem hk'] at hmap
  cases ht' : (seq'.GetBoneTrackTransforms info.Name)[k]? with
  | none => rw [ht'] at hmap; simp at hmap
  | some t' =>
    rw [ht'] at hmap
    simp only [Option.map_some', Option.some.injEq] at hmap
    exact ⟨_, t', List.getElem?_eq_getElem hk', rfl, hmap⟩

/-- Scale pass-through on the two-bone sequence with a root key of scale
(2, 3, 4), root unrotation and root-relative pass on. -/
theorem scale_keys_pass_through_witness :
    ∃ seq', ModifyAnimation_Internal (⟨Real.sqrt, Real.sin, Real.cos, fun y x => Complex.arg ⟨x, y⟩, Real.pi, fun A _ => A⟩ :
      FMath ℝ)
        (TwoBoneSequence ⟨FQuat.Identity, ⟨1, 0, 0⟩, ⟨2, 3, 4⟩⟩ FTransform.Identity)
        2 true true = some seq' ∧
      ∀ info ∈ (TwoBoneSequence (⟨FQuat.Identity, ⟨1, 0, 0⟩, ⟨2, 3, 4⟩⟩ : FTransform ℝ)
          FTransform.Identity).RefBoneInfo,
        ∀ k, k < (TwoBoneSequence (⟨FQuat.Identity, ⟨1, 0, 0⟩, ⟨2, 3, 4⟩⟩ : FTransform ℝ)
          FTransform.Identity).NumberOfKeys →
        ∃ t t', ((TwoBoneSequence (⟨FQuat.Identity, ⟨1, 0, 0⟩, ⟨2, 3, 4⟩⟩ : FTransform ℝ)
            FTransform.Identity).GetBoneTrackTransforms info.Name)[k]? = some t ∧
          (seq'.GetBoneTrackTransforms info.Name)[k]? = some t' ∧
          t'.GetScale3D = t.GetScale3D :=
  scale_keys_pass_through (⟨Real.sqrt, Real.sin, Real.cos, fun y x => Complex.arg ⟨x, y⟩, Real.pi, fun A _ => A⟩ :
      FMath ℝ)
    (TwoBoneSequence ⟨FQuat.Identity, ⟨1, 0, 0⟩, ⟨2, 3, 4⟩⟩ FTransform.Identity) 2 true true
    (by simp [UAnimSequence.WellFormed, TwoBoneSequence, UAnimSequence.GetBoneTrackTransforms,
      FindBoneTrackKeys])

/-- C8: length preservation.  On a well-formed sequence the run returns and
adds one `SetBoneTrackKeys` call per bone, plus one for the root when `bStart`
is set (none when the skeleton has no bone); in every added call the
position, rotation and scale key arrays each have exactly `NumberOfKeys`
keys, which is the length of the input track of the bone written. -/
theorem written_tracks_length (M : FMath K) (seq : UAnimSequence K) (Scale : K)
    (bU bS : Bool) (hwf : seq.WellFormed) :
    ∃ seq' calls, ModifyAnimation_Internal M seq Scale bU bS = some seq' ∧
      seq'.ControllerCalls = seq.ControllerCalls ++ calls ∧
      calls.length = (if seq.RefBonePose.length < 1 then 0
        else seq.RefBonePose.length + (if bS then 1 else 0)) ∧
      ∀ c ∈ calls,
        c.PositionalKeys.length = seq.NumberOfKeys ∧
        c.RotationalKeys.length = seq.NumberOfKeys ∧
        c.ScalingKeys.length = seq.NumberOfKeys ∧
        (seq.GetBoneTrackTransforms c.BoneName).length = seq.NumberOfKeys := by
  obtain ⟨seq', hrun⟩ := ModifyAnimation_Internal_exists M seq Scale bU bS hwf
  rcases ModifyAnimation_Internal_cases M seq seq' Scale bU bS hrun with
    ⟨h0, rfl⟩ | ⟨h1, res, hres, hcase⟩
  · exact ⟨seq', [], hrun, by simp, by simp [h0], by simp⟩
  · have hnot : ¬ seq.RefBonePose.length < 1 := by omega
    obtain ⟨calls, hc1, hc2, hc3⟩ :=
      BoneLoop_calls M Scale bU bS seq.NumberOfKeys _ 0 seq _ res hres
    have hf := BoneLoop_frame M Scale bU bS seq.NumberOfKeys _ 0 seq _ _ hres
    have hmemOf : ∀ (j : Nat) (info : FMeshBoneInfo), seq.RefBoneInfo[j]? = some info →
        info ∈ seq.RefBoneInfo := by
      intro j info hj
      obtain ⟨h1, h2⟩ := List.getElem?_eq_some.1 hj
      rw [← h2]; exact List.getElem_mem h1
    have hcalls : ∀ c ∈ calls,
        c.PositionalKeys.length = seq.NumberOfKeys ∧
        c.RotationalKeys.length = seq.NumberOfKeys ∧
        c.ScalingKeys.length = seq.NumberOfKeys ∧
        (seq.GetBoneTrackTransforms c.BoneName).length = seq.NumberOfKeys := by
      intro c hc
      obtain ⟨j, hj, hcj⟩ := List.getElem_of_mem hc
      have hj' : calls[j]? = some c := by rw [List.getElem?_eq_getElem hj, hcj]
      obtain ⟨⟨info, hinfo, hname⟩, hP, hR, hS⟩ := hc3 j c hj'
      rw [Nat.zero_add] at hinfo
      exact ⟨hP, hR, hS, by rw [hname]; exact hwf.2 info (hmemOf j info hinfo)⟩
    rcases hcase with ⟨hbS, rfl⟩ | ⟨hbS, hroot⟩
    · exact ⟨res.1, calls, hrun, hc1, by simp [hnot, hbS, hc2], hcalls⟩
    · obtain ⟨info0, hi0, _, _, _, _, ⟨P, R, S, hcall, hP, hR, hS⟩, _⟩ :=
        RootRelativePass_result M seq.NumberOfKeys res.1 seq' res.2 hroot
      rw [hf.1] at hi0
      refine ⟨seq', calls ++ [⟨info0.Name, P, R, S⟩], hrun, ?_, ?_, ?_⟩
      · rw [hcall, hc1, List.append_assoc]
      · simp [hnot, hbS, hc2]
      · intro c hc
        rcases List.mem_append.1 hc with h | h
        · exact hcalls c h
        · simp only [List.mem_singleton] at h
          subst h
          exact ⟨hP, hR, hS, hwf.2 info0 (hmemOf 0 info0 hi0)⟩

/-- Length preservation on the two-bone sequence with the root-relative pass
on: three calls, each with one key per array. -/
theorem written_tracks_length_witness :
    ∃ seq' calls, ModifyAnimation_Internal (⟨Real.sqrt, Real.sin, Real.cos, fun y x => Complex.arg ⟨x, y⟩, Real.pi, fun A _ => A⟩ :
      FMath ℝ)
        (TwoBoneSequence FTransform.Identity FTransform.Identity) 2 false true = some seq' ∧
      seq'.ControllerCalls
        = (TwoBoneSequence (FTransform.Identity : FTransform ℝ)
            FTransform.Identity).ControllerCalls ++ calls ∧
      calls.length
        = (if (TwoBoneSequence (FTransform.Identity : FTransform ℝ)
              FTransform.Identity).RefBonePose.length < 1 then 0
          else (TwoBoneSequence (FTransform.Identity : FTransform ℝ)
              FTransform.Identity).RefBonePose.length + (if true then 1 else 0)) ∧
      ∀ c ∈ calls,
        c.PositionalKeys.length = (TwoBoneSequence (FTransform.Identity : FTransform ℝ)
          FTransform.Identity).NumberOfKeys ∧
        c.RotationalKeys.length = (TwoBoneSequence (FTransform.Identity : FTransform ℝ)
          FTransform.Identity).NumberOfKeys ∧
        c.ScalingKeys.length = (TwoBoneSequence (FTransform.Identity : FTransform ℝ)
          FTransform.Identity).NumberOfKeys ∧
        ((TwoBoneSequence (FTransform.Identity : FTransform ℝ)
          FTransform.Identity).GetBoneTrackTransforms c.BoneName).length
          = (TwoBoneSequence (FTransform.Identity : FTransform ℝ)
            FTransform.Identity).NumberOfKeys :=
  written_tracks_length (⟨Real.sqrt, Real.sin, Real.cos, fun y x => Complex.arg ⟨x, y⟩, Real.pi, fun A _ => A⟩ :
      FMath ℝ) (TwoBoneSequence FTransform.Identity FTransform.Identity) 2 false true
    (by simp [UAnimSequence.WellFormed, TwoBoneSequence, UAnimSequence.GetBoneTrackTransforms,
      FindBoneTrackKeys])

/-- C9 (as amended): a track that is too short is fatal.  For every bone of
the skeleton whose source track has fewer than `NumberOfKeys` keys the run
stops at an out-of-range read and returns nothing, for every scale and every
setting of the two flags. -/
theorem short_track_is_fatal (M : FMath K) (seq : UAnimSequence K) (Scale : K) (bU bS : Bool)
    (b : Nat) (info : FMeshBoneInfo) (hi : seq.RefBoneInfo[b]? = some info)
    (hb : b < seq.RefBonePose.length)
    (hshort : (seq.GetBoneTrackTransforms info.Name).length < seq.NumberOfKeys) :
    ModifyAnimation_Internal M seq Scale bU bS = none := by
  cases hrun : ModifyAnimation_Internal M seq Scale bU bS with
  | none => rfl
  | some seq' =>
    rcases ModifyAnimation_Internal_cases M seq seq' Scale bU bS hrun with
      ⟨h0, _⟩ | ⟨_, res, hres, _⟩
    · omega
    · have := BoneLoop_requires M Scale bU bS seq.NumberOfKeys _ 0 seq _ res hres b info
        (Nat.zero_le b) (by omega) hi
      omega

/-- A one-bone sequence with two keys whose root track has one key: the run
returns nothing. -/
theorem short_track_is_fatal_witness :
    ModifyAnimation_Internal (⟨Real.sqrt, Real.sin, Real.cos, fun y x => Complex.arg ⟨x, y⟩, Real.pi, fun A _ => A⟩ :
      FMath ℝ) (OneBoneSequence 2 [FTransform.Identity]) 2 false false = none :=
  short_track_is_fatal (⟨Real.sqrt, Real.sin, Real.cos, fun y x => Complex.arg ⟨x, y⟩, Real.pi, fun A _ => A⟩ :
      FMath ℝ) (OneBoneSequence 2 [FTransform.Identity]) 2 false false 0 ⟨⟨0⟩, -1⟩
    (by simp [OneBoneSequence]) (by simp [OneBoneSequence])
    (by simp [OneBoneSequence, UAnimSequence.GetBoneTrackTransforms, FindBoneTrackKeys])

/-- C9 (as stated) fails for a track that is too long: on the one-bone
sequence with one key whose root track has two keys, at (0,0,0) and at
(1,0,0), the run returns and leaves a root track cut down to the first
key. -/
theorem long_track_is_truncated :
    ((OneBoneSequence 1 [(FTransform.Identity : FTransform ℝ),
        ⟨FQuat.Identity, ⟨1, 0, 0⟩, FVector.OneVector⟩]).GetBoneTrackTransforms ⟨0⟩).length
      ≠ (OneBoneSequence 1 [(FTransform.Identity : FTransform ℝ),
        ⟨FQuat.Identity, ⟨1, 0, 0⟩, FVector.OneVector⟩]).NumberOfKeys ∧
    ModifyAnimation_Internal (⟨Real.sqrt, Real.sin, Real.cos, fun y x => Complex.arg ⟨x, y⟩, Real.pi, fun A _ => A⟩ :
      FMath ℝ)
      (OneBoneSequence 1 [FTransform.Identity, ⟨FQuat.Identity, ⟨1, 0, 0⟩, FVector.OneVector⟩])
      2 false false
    = some ⟨[FTransform.Identity], [⟨⟨0⟩, -1⟩], 1,
        [⟨⟨0⟩, [⟨FQuat.Identity, ⟨0, 0, 0⟩, FVector.OneVector⟩]⟩],
        [⟨⟨0⟩, [⟨0, 0, 0⟩], [FQuat.Identity], [FVector.OneVector]⟩]⟩ := by
  constructor
  · simp [OneBoneSequence, UAnimSequence.GetBoneTrackTransforms, FindBoneTrackKeys]
  · simp [ModifyAnimation_Internal, ScalePass, BoneLoop, ScaleKeyLoop, InitialRootRelativeStart,
      OneBoneSequence, UAnimSequence.GetBoneTrackTransforms,
      UAnimSequence.SetBoneTrackKeys, FindBoneTrackKeys, MakeTransformKeys, ScaledBoneLocation,
      BoneRotation, FTransform.Identity, FTransform.GetLocation, FTransform.GetRotation,
      FTransform.GetScale3D, FQuat.Identity, FVector.GetSafeNormal, FVector.Length, FVector.sub,
      FVector.add, FVector.scale, FVector.ZeroVector, FVector.OneVector, UE_SMALL_NUMBER]

/-- C10 (as amended): the root-relative pass reads the root track that the
scale pass has written.  With `bStart` set, on a well-formed sequence with
pairwise distinct bone names, the scale pass and the whole run return, and
for every keyframe `k` the root track read by the second pass holds the
scaled key of the original root key (scaled position, rotation after the
unrotation rule), and the final root key is the root-relative key computed
from that scaled key and the accumulator entry at `k`: position
`facingFrame.rotate(scaledRoot[k].position - accumulator[k].position)` and
rotation `facingFrame * scaledRoot[k].rotation`. -/
theorem root_relative_reads_written_root (M : FMath K) (seq : UAnimSequence K) (Scale : K)
    (bU : Bool) (hwf : seq.WellFormed)
    (hnames : (seq.RefBoneInfo.map FMeshBoneInfo.Name).Nodup)
    (k : Nat) (info : FMeshBoneInfo) (refT t : FTransform K)
    (hi : seq.RefBoneInfo[0]? = some info) (hp : seq.RefBonePose[0]? = some refT)
    (ht : (seq.GetBoneTrackTransforms info.Name)[k]? = some t) :
    ∃ res seq' a, ScalePass M seq Scale bU true = some res ∧
      ModifyAnimation_Internal M seq Scale bU true = some seq' ∧
      res.2[k]? = some a ∧
      (res.1.GetBoneTrackTransforms info.Name)[k]? = some (ScaledKey M Scale bU 0 refT t) ∧
      (seq'.GetBoneTrackTransforms info.Name)[k]?
        = some (RootRelativeTransform M (ScaledKey M Scale bU 0 refT t) a) := by
  obtain ⟨res, refT', hres, hp', hk, hlen, htrack⟩ :=
    ScalePass_track M seq Scale bU true hwf hnames 0 k info t hi ht
  rw [hp] at hp'; cases hp'
  obtain ⟨seq', hrun⟩ := ModifyAnimation_Internal_exists M seq Scale bU true hwf
  rcases ModifyAnimation_Internal_cases M seq seq' Scale bU true hrun with
    ⟨h0, _⟩ | ⟨_, res', hres', hcase⟩
  · omega
  · rw [hres] at hres'; cases hres'
    rcases hcase with ⟨hbS, _⟩ | ⟨_, hroot⟩
    · cases hbS
    · obtain ⟨info0, hi0, _, _, _, hkeys, _⟩ :=
        RootRelativePass_result M seq.NumberOfKeys res.1 seq' res.2 hroot
      have hf := BoneLoop_frame M Scale bU true seq.NumberOfKeys _ 0 seq _ _ hres
      rw [hf.1, hi] at hi0; cases hi0
      obtain ⟨t1, a, e1, e2, e3⟩ := hkeys k hk
      rw [htrack] at e1; cases e1
      exact ⟨res, seq', a, hres, hrun, e2, htrack, e3⟩

/-- The root-relative pass on the two-bone sequence whose root key is at
(1,0,0), with scale 2. -/
theorem root_relative_reads_written_root_witness :
    ∃ res seq' a, ScalePass (⟨Real.sqrt, Real.sin, Real.cos, fun y x => Complex.arg ⟨x, y⟩, Real.pi, fun A _ => A⟩ :
      FMath ℝ)
        (TwoBoneSequence ⟨FQuat.Identity, ⟨1, 0, 0⟩, FVector.OneVector⟩ FTransform.Identity)
        2 false true = some res ∧
      ModifyAnimation_Internal (⟨Real.sqrt, Real.sin, Real.cos, fun y x => Complex.arg ⟨x, y⟩, Real.pi, fun A _ => A⟩ :
      FMath ℝ)
        (TwoBoneSequence ⟨FQuat.Identity, ⟨1, 0, 0⟩, FVector.OneVector⟩ FTransform.Identity)
        2 false true = some seq' ∧
      res.2[0]? = some a ∧
      (res.1.GetBoneTrackTransforms ⟨0⟩)[0]?
        = some (ScaledKey (⟨Real.sqrt, Real.sin, Real.cos, fun y x => Complex.arg ⟨x, y⟩, Real.pi, fun A _ => A⟩ :
      FMath ℝ) 2 false 0 FTransform.Identity
            ⟨FQuat.Identity, ⟨1, 0, 0⟩, FVector.OneVector⟩) ∧
      (seq'.GetBoneTrackTransforms ⟨0⟩)[0]?
        = some (RootRelativeTransform (⟨Real.sqrt, Real.sin, Real.cos, fun y x => Complex.arg ⟨x, y⟩, Real.pi, fun A _ => A⟩ :
      FMath ℝ)
            (ScaledKey (⟨Real.sqrt, Real.sin, Real.cos, fun y x => Complex.arg ⟨x, y⟩, Real.pi, fun A _ => A⟩ :
      FMath ℝ) 2 false 0 FTransform.Identity
              ⟨FQuat.Identity, ⟨1, 0, 0⟩, FVector.OneVector⟩) a) :=
  root_relative_reads_written_root (⟨Real.sqrt, Real.sin, Real.cos, fun y x => Complex.arg ⟨x, y⟩, Real.pi, fun A _ => A⟩ :
      FMath ℝ)
    (TwoBoneSequence ⟨FQuat.Identity, ⟨1, 0, 0⟩, FVector.OneVector⟩ FTransform.Identity) 2 false
    (by simp [UAnimSequence.WellFormed, TwoBoneSequence, UAnimSequence.GetBoneTrackTransforms,
      FindBoneTrackKeys])
    (by simp [TwoBoneSequence])
    0 ⟨⟨0⟩, -1⟩ FTransform.Identity ⟨FQuat.Identity, ⟨1, 0, 0⟩, FVector.OneVector⟩
    (by simp [TwoBoneSequence]) (by simp [TwoBoneSequence])
    (by simp [TwoBoneSequence, UAnimSequence.GetBoneTrackTransforms, FindBoneTrackKeys])

/-- C10 (as stated) fails: on the one-bone sequence whose root key is at
(1,0,0), with scale 2 and `bStart` set, the scale pass writes the root
position (2,0,0) and leaves the accumulator at position (2,0,0); the final
root position is (0,0,0), computed from the written position (2,0,0), while
the root-relative position of the original root key (1,0,0) against the same
accumulator is (-1,0,0). -/
theorem second_pass_sees_scaled_root :
    ScalePass (⟨Real.sqrt, Real.sin, Real.cos, fun y x => Complex.arg ⟨x, y⟩, Real.pi, fun A _ => A⟩ :
      FMath ℝ) (OneBoneSequence 1 [⟨FQuat.Identity, ⟨1, 0, 0⟩, FVector.OneVector⟩]) 2 false true
    = some (⟨[FTransform.Identity], [⟨⟨0⟩, -1⟩], 1,
        [⟨⟨0⟩, [⟨FQuat.Identity, ⟨2, 0, 0⟩, FVector.OneVector⟩]⟩],
        [⟨⟨0⟩, [⟨2, 0, 0⟩], [FQuat.Identity], [FVector.OneVector]⟩]⟩,
        [⟨FQuat.Identity, ⟨2, 0, 0⟩, FVector.OneVector⟩]) ∧
    ModifyAnimation_Internal (⟨Real.sqrt, Real.sin, Real.cos, fun y x => Complex.arg ⟨x, y⟩, Real.pi, fun A _ => A⟩ :
      FMath ℝ)
      (OneBoneSequence 1 [⟨FQuat.Identity, ⟨1, 0, 0⟩, FVector.OneVector⟩]) 2 false true
    = some ⟨[FTransform.Identity], [⟨⟨0⟩, -1⟩], 1,
        [⟨⟨0⟩, [⟨FQuat.Identity, ⟨0, 0, 0⟩, FVector.OneVector⟩]⟩],
        [⟨⟨0⟩, [⟨2, 0, 0⟩], [FQuat.Identity], [FVector.OneVector]⟩,
         ⟨⟨0⟩, [⟨0, 0, 0⟩], [FQuat.Identity], [FVector.OneVector]⟩]⟩ ∧
    (RootRelativeKey (⟨Real.sqrt, Real.sin, Real.cos, fun y x => Complex.arg ⟨x, y⟩, Real.pi, fun A _ => A⟩ :
      FMath ℝ) ⟨FQuat.Identity, ⟨1, 0, 0⟩, FVector.OneVector⟩
        ⟨FQuat.Identity, ⟨2, 0, 0⟩, FVector.OneVector⟩).1 = ⟨-1, 0, 0⟩ ∧
    (⟨0, 0, 0⟩ : FVector ℝ) ≠ ⟨-1, 0, 0⟩ := by
  refine ⟨?_, ?_, ?_, ?_⟩
  · simp [ScalePass, BoneLoop, ScaleKeyLoop, InitialRootRelativeStart,
      OneBoneSequence, UAnimSequence.GetBoneTrackTransforms,
      UAnimSequence.SetBoneTrackKeys, FindBoneTrackKeys, MakeTransformKeys, ScaledBoneLocation,
      BoneRotation, ComposeTransforms, FTransform.Multiply, FTransform.AnyHasNegativeScale,
      FTransform.Identity, FTransform.GetLocation, FTransform.GetRotation, FTransform.GetScale3D,
      FQuat.Identity, FQuat.mul, FQuat.RotateVector,
      FVector.GetSafeNormal, FVector.Length, FVector.sub, FVector.add,
      FVector.scale, FVector.mul, FVector.cross, FVector.ZeroVector, FVector.OneVector]
  · simp [ModifyAnimation_Internal, ScalePass, BoneLoop, ScaleKeyLoop, InitialRootRelativeStart,
      RootRelativePass, RootKeyLoop, RootRelativeKey, OneBoneSequence,
      UAnimSequence.GetBoneTrackTransforms,
      UAnimSequence.SetBoneTrackKeys, FindBoneTrackKeys, MakeTransformKeys, ScaledBoneLocation,
      BoneRotation, ComposeTransforms, FTransform.Multiply, FTransform.AnyHasNegativeScale,
      FTransform.Identity, FTransform.GetLocation, FTransform.GetRotation, FTransform.GetScale3D,
      FQuat.Identity, FQuat.mul, FQuat.RotateVector, FQuat.GetAxisX, FQuat.Inverse,
      FVector.ToOrientationQuat, FVector.GetSafeNormal, FVector.Length, FVector.sub, FVector.add,
      FVector.scale, FVector.mul, FVector.cross, FVector.ZeroVector, FVector.OneVector,
      real_atan2_zero_one]
  · simp [RootRelativeKey, FTransform.GetLocation, FTransform.GetRotation,
      FQuat.Identity, FQuat.RotateVector, FQuat.GetAxisX, FQuat.Inverse,
      FVector.ToOrientationQuat, FVector.sub, FVector.add,
      FVector.scale, FVector.cross, real_atan2_zero_one]
    norm_num
  · simp

/-- C11: default substitution.  For every scale below `UE_KINDA_SMALL_NUMBER`
(zero and negative values included), every selection of assets and every
setting of the two flags, `ModifyAnimation` returns exactly what it returns
for the scale 0.0254 on the same selection, which is the loop over the
selected assets run with 0.0254: the same saved sequences with the same
tracks and controller calls. -/
theorem default_scale_substitution (M : FMath K) (SelectedAssetDatas : List (FAssetData K))
    (Scale : K) (bU bS : Bool) (h : Scale < UE_KINDA_SMALL_NUMBER) :
    ModifyAnimation M SelectedAssetDatas Scale bU bS
      = ModifyAnimation M SelectedAssetDatas DefaultScale bU bS ∧
    ModifyAnimation M SelectedAssetDatas Scale bU bS
      = ModifySelectedAssets M DefaultScale bU bS SelectedAssetDatas := by
  have hd : ¬ (DefaultScale : K) < UE_KINDA_SMALL_NUMBER := by
    unfold DefaultScale UE_KINDA_SMALL_NUMBER; norm_num
  simp only [ModifyAnimation, h, hd, if_true, if_false, and_self]

/-- Default substitution at the scale -3 on a selection that holds the
two-bone sequence, an object that is no sequence and an asset that does not
load. -/
theorem default_scale_substitution_witness :
    ModifyAnimation (⟨Real.sqrt, Real.sin, Real.cos, fun y x => Complex.arg ⟨x, y⟩, Real.pi, fun A _ => A⟩ :
      FMath ℝ)
        [⟨some (UObject.AnimSequence
            (TwoBoneSequence ⟨FQuat.Identity, ⟨1, 0, 0⟩, FVector.OneVector⟩ FTransform.Identity)),
          true⟩, ⟨some UObject.Other, true⟩, ⟨none, true⟩] (-3) true true
      = ModifyAnimation (⟨Real.sqrt, Real.sin, Real.cos, fun y x => Complex.arg ⟨x, y⟩, Real.pi, fun A _ => A⟩ :
      FMath ℝ)
        [⟨some (UObject.AnimSequence
            (TwoBoneSequence ⟨FQuat.Identity, ⟨1, 0, 0⟩, FVector.OneVector⟩ FTransform.Identity)),
          true⟩, ⟨some UObject.Other, true⟩, ⟨none, true⟩] DefaultScale true true ∧
    ModifyAnimation (⟨Real.sqrt, Real.sin, Real.cos, fun y x => Complex.arg ⟨x, y⟩, Real.pi, fun A _ => A⟩ :
      FMath ℝ)
        [⟨some (UObject.AnimSequence
            (TwoBoneSequence ⟨FQuat.Identity, ⟨1, 0, 0⟩, FVector.OneVector⟩ FTransform.Identity)),
          true⟩, ⟨some UObject.Other, true⟩, ⟨none, true⟩] (-3) true true
      = ModifySelectedAssets (⟨Real.sqrt, Real.sin, Real.cos, fun y x => Complex.arg ⟨x, y⟩, Real.pi, fun A _ => A⟩ :
      FMath ℝ) DefaultScale true true
        [⟨some (UObject.AnimSequence
            (TwoBoneSequence ⟨FQuat.Identity, ⟨1, 0, 0⟩, FVector.OneVector⟩ FTransform.Identity)),
          true⟩, ⟨some UObject.Other, true⟩, ⟨none, true⟩] :=
  default_scale_substitution (⟨Real.sqrt, Real.sin, Real.cos, fun y x => Complex.arg ⟨x, y⟩, Real.pi, fun A _ => A⟩ :
      FMath ℝ) _ (-3) true true (by unfold UE_KINDA_SMALL_NUMBER; norm_num)

/-- C12: no-op on an empty skeleton.  When the reference pose has no bone
(`BoneNum < 1`), `ModifyAnimation_Internal` returns the sequence as it was,
with no bone track changed and no `SetBoneTrackKeys` call added, for every
scale and every setting of `bUnrotateRootBone` and `bStart`. -/
theorem empty_skeleton_is_noop (M : FMath K) (seq : UAnimSequence K) (Scale : K)
    (bU bS : Bool) (h : seq.RefBonePose.length < 1) :
    ModifyAnimation_Internal M seq Scale bU bS = some seq := by
  simp [ModifyAnimation_Internal, h]

/-- The no-op on a sequence without bones that still has a track and two
keys, with both flags set. -/
theorem empty_skeleton_is_noop_witness :
    ModifyAnimation_Internal (⟨Real.sqrt, Real.sin, Real.cos, fun y x => Complex.arg ⟨x, y⟩, Real.pi, fun A _ => A⟩ :
      FMath ℝ)
      ⟨[], [], 2, [⟨⟨0⟩, [FTransform.Identity, FTransform.Identity]⟩], []⟩ 2 true true
    = some ⟨[], [], 2, [⟨⟨0⟩, [FTransform.Identity, FTransform.Identity]⟩], []⟩ :=
  empty_skeleton_is_noop (⟨Real.sqrt, Real.sin, Real.cos, fun y x => Complex.arg ⟨x, y⟩, Real.pi, fun A _ => A⟩ :
      FMath ℝ) _ 2 true true (by simp)

/-- C17: index safety.  When the skeleton has at least one bone, bone infos
and reference pose have the same length and the source track of every bone
has exactly `NumberOfKeys` keys, the scale pass and the whole run return for
every scale and every combination of `bUnrotateRootBone` and `bStart`,
`NumberOfKeys = 0` included: none of the reads `RefBoneInfo[BoneIdx]`,
`RefBonePose[BoneIdx]`, `OriginalBoneTrack[KeyIdx]`,
`RootRelativeStart[KeyIdx]`, `RefBoneInfo[0]`, `RootTrack[KeyIdx]`, whose
failure is the only way the run stops, is out of range. -/
theorem array_accesses_in_bounds (M : FMath K) (seq : UAnimSequence K) (Scale : K)
    (bU bS : Bool) (hbones : 1 ≤ seq.RefBonePose.length) (hwf : seq.WellFormed) :
    (∃ res, ScalePass M seq Scale bU bS = some res) ∧
    ∃ seq', ModifyAnimation_Internal M seq Scale bU bS = some seq' ∧
      seq'.RefBonePose.length = seq.RefBonePose.length := by
  obtain ⟨res, hres, _⟩ := ScalePass_exists M seq Scale bU bS hwf
  obtain ⟨seq', hrun⟩ := ModifyAnimation_Internal_exists M seq Scale bU bS hwf
  refine ⟨⟨res, hres⟩, seq', hrun, ?_⟩
  rcases ModifyAnimation_Internal_cases M seq seq' Scale bU bS hrun with
    ⟨_, rfl⟩ | ⟨_, res', hres', hcase⟩
  · rfl
  · have hf := BoneLoop_frame M Scale bU bS seq.NumberOfKeys _ 0 seq _ _ hres'
    rcases hcase with ⟨_, rfl⟩ | ⟨_, hroot⟩
    · rw [hf.2.1]
    · obtain ⟨_, _, _, _, _, _, _, _, hpose, _⟩ :=
        RootRelativePass_result M seq.NumberOfKeys res'.1 seq' res'.2 hroot
      rw [hpose, hf.2.1]

/-- Index safety on the sequence of four bones with two keys each, with both
flags set: the bone loop reads `RefBoneInfo[BoneIdx]` and
`RefBonePose[BoneIdx]` for four bones, each key loop reads
`OriginalBoneTrack[KeyIdx]` and `RootRelativeStart[KeyIdx]` for two keys, and
the second pass reads `RefBoneInfo[0]` and `RootTrack[KeyIdx]` for two
keys. -/
theorem array_accesses_in_bounds_witness :
    (∃ res, ScalePass (⟨Real.sqrt, Real.sin, Real.cos, fun y x => Complex.arg ⟨x, y⟩, Real.pi, fun A _ => A⟩ :
      FMath ℝ)
      (FourBoneSequence [⟨FQuat.Identity, ⟨1, 0, 0⟩, FVector.OneVector⟩,
        ⟨FQuat.Identity, ⟨2, 0, 0⟩, FVector.OneVector⟩]) 2 true true = some res) ∧
    ∃ seq', ModifyAnimation_Internal (⟨Real.sqrt, Real.sin, Real.cos, fun y x => Complex.arg ⟨x, y⟩, Real.pi, fun A _ => A⟩ :
      FMath ℝ)
      (FourBoneSequence [⟨FQuat.Identity, ⟨1, 0, 0⟩, FVector.OneVector⟩,
        ⟨FQuat.Identity, ⟨2, 0, 0⟩, FVector.OneVector⟩]) 2 true true = some seq' ∧
      seq'.RefBonePose.length = (FourBoneSequence [(⟨FQuat.Identity, ⟨1, 0, 0⟩, FVector.OneVector⟩ :
        FTransform ℝ), ⟨FQuat.Identity, ⟨2, 0, 0⟩, FVector.OneVector⟩]).RefBonePose.length :=
  array_accesses_in_bounds (⟨Real.sqrt, Real.sin, Real.cos, fun y x => Complex.arg ⟨x, y⟩, Real.pi, fun A _ => A⟩ :
      FMath ℝ)
      (FourBoneSequence [⟨FQuat.Identity, ⟨1, 0, 0⟩, FVector.OneVector⟩,
        ⟨FQuat.Identity, ⟨2, 0, 0⟩, FVector.OneVector⟩]) 2 true true
    (by simp [FourBoneSequence])
    (by simp [UAnimSequence.WellFormed, FourBoneSequence, UAnimSequence.GetBoneTrackTransforms,
      FindBoneTrackKeys])

/-- The sequence that the bone loop returns does not depend on `bStart` nor
on the accumulator it starts from. -/
theorem BoneLoop_seq_indep (M : FMath K) (Scale : K) (bU : Bool) (KeyNum : Nat) :
    ∀ (r b : Nat) (seq : UAnimSequence K) (accT accF : List (FTransform K))
      (resT resF : UAnimSequence K × List (FTransform K)),
      BoneLoop M Scale bU true KeyNum r b seq accT = some resT →
      BoneLoop M Scale bU false KeyNum r b seq accF = some resF → resT.1 = resF.1 := by
  intro r
  induction r with
  | zero =>
    intro b seq accT accF resT resF hT hF
    simp only [BoneLoop, Option.some.injEq] at hT hF
    subst hT; subst hF; rfl
  | succ r ih =>
    intro b seq accT accF resT resF hT hF
    obtain ⟨info, refT, stT, hi, hp, hsT, hrestT⟩ :=
      BoneLoop_succ M Scale bU true KeyNum r b seq accT resT hT
    obtain ⟨info', refT', stF, hi', hp', hsF, hrestF⟩ :=
      BoneLoop_succ M Scale bU false KeyNum r b seq accF resF hF
    rw [hi] at hi'; cases hi'
    rw [hp] at hp'; cases hp'
    obtain ⟨_, p1, r1, s1, _⟩ := ScaleKeyLoop_spec M Scale bU true b refT _ KeyNum 0 _ _ hsT
    obtain ⟨_, p2, r2, s2, _⟩ := ScaleKeyLoop_spec M Scale bU false b refT _ KeyNum 0 _ _ hsF
    rw [p1, r1, s1] at hrestT
    rw [p2, r2, s2] at hrestF
    exact ih _ _ _ _ _ _ hrestT hrestF

end Claims

section RootPassParts

variable {K : Type} [LinearOrderedField K]

/-- The parts of a successful root-relative pass. -/
theorem RootRelativePass_unfold (M : FMath K) (KeyNum : Nat) (seq1 seq' : UAnimSequence K)
    (acc : List (FTransform K)) (h : RootRelativePass M KeyNum seq1 acc = some seq') :
    ∃ info keys, seq1.RefBoneInfo[0]? = some info ∧
      RootKeyLoop M (seq1.GetBoneTrackTransforms info.Name) acc KeyNum 0 ([], [], [])
        = some keys ∧
      seq' = seq1.SetBoneTrackKeys info.Name keys.1 keys.2.1 keys.2.2 := by
  unfold RootRelativePass at h
  cases hi : seq1.RefBoneInfo[0]? with
  | none => simp [hi] at h
  | some info =>
    simp only [hi] at h
    cases hl : RootKeyLoop M (seq1.GetBoneTrackTransforms info.Name) acc KeyNum 0 ([], [], []) with
    | none => simp [hl] at h
    | some keys =>
      simp only [hl, Option.some.injEq] at h
      exact ⟨info, keys, rfl, hl, h.symm⟩

end RootPassParts

section Claims

variable {K : Type} [LinearOrderedField K] [FloorRing K]

/-- C13: the root-relative pass rewrites only the root.  On a well-formed
sequence with pairwise distinct bone names, for every scale and
`bUnrotateRootBone`, the runs with `bStart` unset and set both return; the
final track of every bone other than bone 0 is the same in both; and with
`bStart` set the run makes the same controller calls followed by one more
call under the root's name, whose keys replace the root track written in
the bone loop. -/
theorem root_relative_pass_rewrites_only_root (M : FMath K) (seq : UAnimSequence K)
    (Scale : K) (bU : Bool) (hwf : seq.WellFormed)
    (hnames : (seq.RefBoneInfo.map FMeshBoneInfo.Name).Nodup)
    (hbones : 1 ≤ seq.RefBonePose.length) :
    ∃ sF sT, ModifyAnimation_Internal M seq Scale bU false = some sF ∧
      ModifyAnimation_Internal M seq Scale bU true = some sT ∧
      (∀ (b : Nat) (info : FMeshBoneInfo), b ≠ 0 → seq.RefBoneInfo[b]? = some info →
        sT.GetBoneTrackTransforms info.Name = sF.GetBoneTrackTransforms info.Name) ∧
      ∃ info0 P R S, seq.RefBoneInfo[0]? = some info0 ∧
        sT.ControllerCalls = sF.ControllerCalls ++ [⟨info0.Name, P, R, S⟩] ∧
        sT.GetBoneTrackTransforms info0.Name = MakeTransformKeys P R S := by
  obtain ⟨sF, hF⟩ := ModifyAnimation_Internal_exists M seq Scale bU false hwf
  obtain ⟨sT, hT⟩ := ModifyAnimation_Internal_exists M seq Scale bU true hwf
  refine ⟨sF, sT, hF, hT, ?_⟩
  rcases ModifyAnimation_Internal_cases M seq sF Scale bU false hF with
    ⟨h0, _⟩ | ⟨_, resF, hresF, hcaseF⟩
  · omega
  rcases ModifyAnimation_Internal_cases M seq sT Scale bU true hT with
    ⟨h0, _⟩ | ⟨_, resT, hresT, hcaseT⟩
  · omega
  have hsF : sF = resF.1 := by
    rcases hcaseF with ⟨_, h⟩ | ⟨h, _⟩
    · exact h
    · cases h
  have hrootT : RootRelativePass M seq.NumberOfKeys resT.1 resT.2 = some sT := by
    rcases hcaseT with ⟨h, _⟩ | ⟨_, h⟩
    · cases h
    · exact h
  have hsame : resT.1 = resF.1 := BoneLoop_seq_indep M Scale bU seq.NumberOfKeys _ 0 seq _ _
    resT resF hresT hresF
  have hf := BoneLoop_frame M Scale bU true seq.NumberOfKeys _ 0 seq _ _ hresT
  obtain ⟨info0, keys, hi0, hloop, hset⟩ :=
    RootRelativePass_unfold M seq.NumberOfKeys resT.1 sT resT.2 hrootT
  rw [hf.1] at hi0
  subst hsF
  rw [← hsame]
  constructor
  · intro b info hb hi
    have hne : info.Name ≠ info0.Name := by
      intro e
      exact hb (boneName_index_unique _ hnames b 0 info info0 hi hi0 e)
    rw [hset, GetBoneTrackTransforms_set_ne _ _ _ _ _ _ hne]
  · refine ⟨info0, keys.1, keys.2.1, keys.2.2, hi0, ?_, ?_⟩
    · rw [hset]; rfl
    · obtain ⟨h1, _, _, h4, h5, h6⟩ := RootKeyLoop_result M _ resT.2 seq.NumberOfKeys keys hloop
      rw [hset]
      rcases GetBoneTrackTransforms_set_eq resT.1 info0.Name keys.1 keys.2.1 keys.2.2 with
        he | ⟨he, he'⟩
      · exact he
      · rw [he]
        rw [he'] at h1
        have hP : keys.1 = [] := List.length_eq_zero.1 (by simp at h1; omega)
        rw [hP]; rfl

/-- The two runs on the two-bone sequence whose root key is at (1,0,0) and
whose child key is at (0,3,0), with scale 2. -/
theorem root_relative_pass_rewrites_only_root_witness :
    ∃ sF sT, ModifyAnimation_Internal (⟨Real.sqrt, Real.sin, Real.cos, fun y x => Complex.arg ⟨x, y⟩, Real.pi, fun A _ => A⟩ :
      FMath ℝ)
        (TwoBoneSequence ⟨FQuat.Identity, ⟨1, 0, 0⟩, FVector.OneVector⟩
          ⟨FQuat.Identity, ⟨0, 3, 0⟩, FVector.OneVector⟩) 2 false false = some sF ∧
      ModifyAnimation_Internal (⟨Real.sqrt, Real.sin, Real.cos, fun y x => Complex.arg ⟨x, y⟩, Real.pi, fun A _ => A⟩ :
      FMath ℝ)
        (TwoBoneSequence ⟨FQuat.Identity, ⟨1, 0, 0⟩, FVector.OneVector⟩
          ⟨FQuat.Identity, ⟨0, 3, 0⟩, FVector.OneVector⟩) 2 false true = some sT ∧
      (∀ (b : Nat) (info : FMeshBoneInfo), b ≠ 0 →
        (TwoBoneSequence (⟨FQuat.Identity, ⟨1, 0, 0⟩, FVector.OneVector⟩ : FTransform ℝ)
          ⟨FQuat.Identity, ⟨0, 3, 0⟩, FVector.OneVector⟩).RefBoneInfo[b]? = some info →
        sT.GetBoneTrackTransforms info.Name = sF.GetBoneTrackTransforms info.Name) ∧
      ∃ info0 P R S,
        (TwoBoneSequence (⟨FQuat.Identity, ⟨1, 0, 0⟩, FVector.OneVector⟩ : FTransform ℝ)
          ⟨FQuat.Identity, ⟨0, 3, 0⟩, FVector.OneVector⟩).RefBoneInfo[0]? = some info0 ∧
        sT.ControllerCalls = sF.ControllerCalls ++ [⟨info0.Name, P, R, S⟩] ∧
        sT.GetBoneTrackTransforms info0.Name = MakeTransformKeys P R S :=
  root_relative_pass_rewrites_only_root (⟨Real.sqrt, Real.sin, Real.cos, fun y x => Complex.arg ⟨x, y⟩, Real.pi, fun A _ => A⟩ :
      FMath ℝ)
    (TwoBoneSequence ⟨FQuat.Identity, ⟨1, 0, 0⟩, FVector.OneVector⟩
      ⟨FQuat.Identity, ⟨0, 3, 0⟩, FVector.OneVector⟩) 2 false
    (by simp [UAnimSequence.WellFormed, TwoBoneSequence, UAnimSequence.GetBoneTrackTransforms,
      FindBoneTrackKeys])
    (by simp [TwoBoneSequence]) (by simp [TwoBoneSequence])

/-- C14: the end-to-end scenario.  On the skeleton root, delta, start, child
with all reference positions at the origin and two keys, every bone at
(1,0,0) at key 0 and at (2,0,0) at key 1 with identity rotations and unit
scales, the run with scale 2, `bUnrotateRootBone` unset and `bStart` unset
returns; every bone's written position keys are (2,0,0) and (4,0,0) and its
written rotation and scale keys are the original ones, in the four
controller calls and in the four final tracks. -/
theorem end_to_end_scenario :
    ModifyAnimation_Internal (⟨Real.sqrt, Real.sin, Real.cos, fun y x => Complex.arg ⟨x, y⟩, Real.pi, fun A _ => A⟩ :
      FMath ℝ)
      (FourBoneSequence [⟨FQuat.Identity, ⟨1, 0, 0⟩, FVector.OneVector⟩,
        ⟨FQuat.Identity, ⟨2, 0, 0⟩, FVector.OneVector⟩]) 2 false false
    = some ⟨[FTransform.Identity, FTransform.Identity, FTransform.Identity, FTransform.Identity],
        [⟨⟨0⟩, -1⟩, ⟨⟨1⟩, 0⟩, ⟨⟨2⟩, 1⟩, ⟨⟨3⟩, 2⟩], 2,
        [⟨⟨0⟩, [⟨FQuat.Identity, ⟨2, 0, 0⟩, FVector.OneVector⟩,
            ⟨FQuat.Identity, ⟨4, 0, 0⟩, FVector.OneVector⟩]⟩,
         ⟨⟨1⟩, [⟨FQuat.Identity, ⟨2, 0, 0⟩, FVector.OneVector⟩,
            ⟨FQuat.Identity, ⟨4, 0, 0⟩, FVector.OneVector⟩]⟩,
         ⟨⟨2⟩, [⟨FQuat.Identity, ⟨2, 0, 0⟩, FVector.OneVector⟩,
            ⟨FQuat.Identity, ⟨4, 0, 0⟩, FVector.OneVector⟩]⟩,
         ⟨⟨3⟩, [⟨FQuat.Identity, ⟨2, 0, 0⟩, FVector.OneVector⟩,
            ⟨FQuat.Identity, ⟨4, 0, 0⟩, FVector.OneVector⟩]⟩],
        [⟨⟨0⟩, [⟨2, 0, 0⟩, ⟨4, 0, 0⟩], [FQuat.Identity, FQuat.Identity],
            [FVector.OneVector, FVector.OneVector]⟩,
         ⟨⟨1⟩, [⟨2, 0, 0⟩, ⟨4, 0, 0⟩], [FQuat.Identity, FQuat.Identity],
            [FVector.OneVector, FVector.OneVector]⟩,
         ⟨⟨2⟩, [⟨2, 0, 0⟩, ⟨4, 0, 0⟩], [FQuat.Identity, FQuat.Identity],
            [FVector.OneVector, FVector.OneVector]⟩,
         ⟨⟨3⟩, [⟨2, 0, 0⟩, ⟨4, 0, 0⟩], [FQuat.Identity, FQuat.Identity],
            [FVector.OneVector, FVector.OneVector]⟩]⟩ := by
  have h4 : Real.sqrt (2 * 2) = 2 := Real.sqrt_mul_self (by norm_num)
  have hsmall : ¬ ((2 : ℝ) * 2 < 1 / 100000000) := by norm_num
  have hne : ¬ ((2 : ℝ) * 2 = 1) := by norm_num
  simp [ModifyAnimation_Internal, ScalePass, BoneLoop, ScaleKeyLoop, InitialRootRelativeStart,
    FourBoneSequence, UAnimSequence.GetBoneTrackTransforms,
    UAnimSequence.SetBoneTrackKeys, FindBoneTrackKeys, MakeTransformKeys, ScaledBoneLocation,
    BoneRotation, FTransform.Identity, FTransform.GetLocation, FTransform.GetRotation,
    FTransform.GetScale3D, FQuat.Identity, FVector.GetSafeNormal, FVector.Length, FVector.sub,
    FVector.add, FVector.scale, FVector.ZeroVector, FVector.OneVector, UE_SMALL_NUMBER,
    FMath.InvSqrt, h4, hsmall, hne]
  norm_num

/-- What the key loop of one bone does to the accumulator: a chain bone
composes its scaled key onto every accumulator entry the loop visits, any
other bone leaves the accumulator as it was. -/
theorem ScaleKeyLoop_acc (M : FMath K) (Scale : K) (bU bS : Bool) (i : Nat)
    (refT : FTransform K) (track : List (FTransform K)) :
    ∀ (n k : Nat) (st st' : FKeyLoopState K),
      ScaleKeyLoop M Scale bU bS i refT track n k st = some st' →
      ∀ j : Nat, st'.RootRelativeStart[j]? =
        if (bS && decide (i < 3)) = true ∧ k ≤ j ∧ j < k + n then
          (match track[j]?, st.RootRelativeStart[j]? with
            | some t, some a => some (ComposeTransforms M (ScaledKey M Scale bU i refT t) a)
            | _, _ => none)
        else st.RootRelativeStart[j]? := by
  intro n
  induction n with
  | zero =>
    intro k st st' h j
    simp only [ScaleKeyLoop, Option.some.injEq] at h
    subst h
    rw [if_neg (by omega)]
  | succ n ih =>
    intro k st st' h j
    unfold ScaleKeyLoop at h
    cases ht : track[k]? with
    | none => simp [ht] at h
    | some t =>
      simp only [ht] at h
      by_cases hc : (bS && decide (i < 3)) = true
      · simp only [hc, if_true] at h
        cases ha : st.RootRelativeStart[k]? with
        | none => simp [ha] at h
        | some a =>
          simp only [ha] at h
          have hk : k < st.RootRelativeStart.length := (List.getElem?_eq_some.1 ha).1
          rw [ih _ _ _ h j]
          simp only [hc, true_and]
          by_cases hjk : j = k
          · subst hjk
            rw [if_neg (by omega), if_pos (by omega), ht, ha]
            simp [ScaledKey, FTransform.GetLocation, FTransform.GetScale3D, hk]
          · have hset : (st.RootRelativeStart.set k
                (ComposeTransforms M
                  ⟨BoneRotation M bU i t,
                    ScaledBoneLocation M refT.GetLocation t.GetLocation Scale,
                    t.GetScale3D⟩ a))[j]? = st.RootRelativeStart[j]? := by
              rw [List.getElem?_set_ne (Ne.symm hjk)]
            by_cases hin : k + 1 ≤ j ∧ j < k + 1 + n
            · rw [if_pos hin, if_pos (by omega), hset]
            · rw [if_neg hin, if_neg (by omega), hset]
      · simp only [hc, if_false] at h
        rw [ih _ _ _ h j]
        simp [hc]

/-- On a well-formed sequence every bone has a scaled key at every key. -/
theorem BoneScaledKey_isSome (M : FMath K) (seq : UAnimSequence K) (Scale : K) (bU : Bool)
    (hwf : seq.WellFormed) (i k : Nat) (hi : i < seq.RefBonePose.length)
    (hk : k < seq.NumberOfKeys) :
    ∃ S, BoneScaledKey M seq Scale bU i k = some S := by
  have hi' : i < seq.RefBoneInfo.length := by rw [hwf.1]; exact hi
  have hlen := hwf.2 _ (List.getElem_mem hi')
  have hk' : k < (seq.GetBoneTrackTransforms seq.RefBoneInfo[i].Name).length := by
    rw [hlen]; exact hk
  unfold BoneScaledKey
  rw [List.getElem?_eq_getElem hi', List.getElem?_eq_getElem hi]
  simp only
  rw [List.getElem?_eq_getElem hk']
  exact ⟨_, rfl⟩

/-- C15: accumulator composition order.  With `bStart` set, on a well-formed
sequence with pairwise distinct bone names, the scale pass returns and for
every keyframe `k` the accumulator entry is the chain of the first
`min(BoneNum, 3)` bones folded from the identity in ascending bone order:
bones with index 3 or more leave it alone, a skeleton with fewer than three
bones folds in the bones it has, and with three bones or more the entry is
`S2 * (S1 * (S0 * Identity))`, where `Si` is the already-scaled transform of
bone `i` at key `k` and `A * B` is `ComposeTransforms(A, B)`. -/
theorem accumulator_composition_order (M : FMath K) (seq : UAnimSequence K) (Scale : K)
    (bU : Bool) (hwf : seq.WellFormed)
    (hnames : (seq.RefBoneInfo.map FMeshBoneInfo.Name).Nodup)
    (k : Nat) (hk : k < seq.NumberOfKeys) :
    ∃ res, ScalePass M seq Scale bU true = some res ∧
      res.2[k]? = some (ChainAccumulator M seq Scale bU k (min seq.RefBonePose.length 3)) ∧
      (3 ≤ seq.RefBonePose.length → ∃ S0 S1 S2,
        BoneScaledKey M seq Scale bU 0 k = some S0 ∧
        BoneScaledKey M seq Scale bU 1 k = some S1 ∧
        BoneScaledKey M seq Scale bU 2 k = some S2 ∧
        res.2[k]? = some (ComposeTransforms M S2 (ComposeTransforms M S1
          (ComposeTransforms M S0 FTransform.Identity)))) := by
  obtain ⟨res, hres, _⟩ := ScalePass_exists M seq Scale bU true hwf
  have key := BoneLoop_invariant M Scale bU true seq.NumberOfKeys
    (fun j s a => s.RefBoneInfo = seq.RefBoneInfo ∧ s.RefBonePose = seq.RefBonePose ∧
      (∀ (i : Nat) (info : FMeshBoneInfo), j ≤ i → seq.RefBoneInfo[i]? = some info →
        s.GetBoneTrackTransforms info.Name = seq.GetBoneTrackTransforms info.Name) ∧
      a[k]? = some (ChainAccumulator M seq Scale bU k (min j 3)))
    ?_ seq.RefBonePose.length 0 seq _ res
    ⟨rfl, rfl, fun _ _ _ _ => rfl, by simp [InitialRootRelativeStart, hk, ChainAccumulator]⟩
    hres
  · have hacc := key.2.2.2
    rw [Nat.zero_add] at hacc
    refine ⟨res, hres, hacc, ?_⟩
    intro h3
    obtain ⟨S0, h0⟩ := BoneScaledKey_isSome M seq Scale bU hwf 0 k (by omega) hk
    obtain ⟨S1, h1⟩ := BoneScaledKey_isSome M seq Scale bU hwf 1 k (by omega) hk
    obtain ⟨S2, h2⟩ := BoneScaledKey_isSome M seq Scale bU hwf 2 k (by omega) hk
    refine ⟨S0, S1, S2, h0, h1, h2, ?_⟩
    rw [hacc, Nat.min_eq_right h3]
    simp only [ChainAccumulator, h0, h1, h2]
  intro s b info refT a st hinv hi hp hs
  obtain ⟨e1, e2, e3, e4⟩ := hinv
  rw [e1] at hi; rw [e2] at hp
  have htrack := e3 b info (le_refl b) hi
  rw [htrack] at hs
  have hr := ScaleKeyLoop_result M Scale bU true b refT _ a seq.NumberOfKeys st hs
  refine ⟨e1, e2, ?_, ?_⟩
  · intro i info' hbi hi'
    have hne : info'.Name ≠ info.Name := by
      intro e
      have := boneName_index_unique _ hnames i b info' info hi' hi e
      omega
    rw [GetBoneTrackTransforms_set_ne _ _ _ _ _ _ hne]
    exact e3 i info' (by omega) hi'
  · have hacc := ScaleKeyLoop_acc M Scale bU true b refT _ seq.NumberOfKeys 0 _ _ hs k
    simp only [Nat.zero_add, Nat.zero_le, true_and, Bool.true_and, decide_eq_true_eq, hk,
      and_true] at hacc
    have hk' : k < (seq.GetBoneTrackTransforms info.Name).length := by have := hr.1; omega
    rw [hacc]
    by_cases hb : b < 3
    · rw [if_pos hb, List.getElem?_eq_getElem hk', e4]
      have hmin : min b 3 = b := Nat.min_eq_left (by omega)
      have hmin' : min (b + 1) 3 = b + 1 := Nat.min_eq_left (by omega)
      rw [hmin, hmin']
      simp only [ChainAccumulator, BoneScaledKey, hi, hp, List.getElem?_eq_getElem hk']
    · rw [if_neg hb, e4]
      have hmin : min b 3 = 3 := Nat.min_eq_right (by omega)
      have hmin' : min (b + 1) 3 = 3 := Nat.min_eq_right (by omega)
      rw [hmin, hmin']

/-- The accumulator of the four-bone sequence at key 1, with scale 2. -/
theorem accumulator_composition_order_witness :
    ∃ res, ScalePass (⟨Real.sqrt, Real.sin, Real.cos, fun y x => Complex.arg ⟨x, y⟩, Real.pi, fun A _ => A⟩ :
      FMath ℝ)
        (FourBoneSequence [⟨FQuat.Identity, ⟨1, 0, 0⟩, FVector.OneVector⟩,
          ⟨FQuat.Identity, ⟨2, 0, 0⟩, FVector.OneVector⟩]) 2 false true = some res ∧
      res.2[1]? = some (ChainAccumulator (⟨Real.sqrt, Real.sin, Real.cos, fun y x => Complex.arg ⟨x, y⟩, Real.pi, fun A _ => A⟩ :
      FMath ℝ)
        (FourBoneSequence [⟨FQuat.Identity, ⟨1, 0, 0⟩, FVector.OneVector⟩,
          ⟨FQuat.Identity, ⟨2, 0, 0⟩, FVector.OneVector⟩]) 2 false 1
        (min (FourBoneSequence [(⟨FQuat.Identity, ⟨1, 0, 0⟩, FVector.OneVector⟩ : FTransform ℝ),
          ⟨FQuat.Identity, ⟨2, 0, 0⟩, FVector.OneVector⟩]).RefBonePose.length 3)) ∧
      (3 ≤ (FourBoneSequence [(⟨FQuat.Identity, ⟨1, 0, 0⟩, FVector.OneVector⟩ : FTransform ℝ),
          ⟨FQuat.Identity, ⟨2, 0, 0⟩, FVector.OneVector⟩]).RefBonePose.length → ∃ S0 S1 S2,
        BoneScaledKey (⟨Real.sqrt, Real.sin, Real.cos, fun y x => Complex.arg ⟨x, y⟩, Real.pi, fun A _ => A⟩ :
      FMath ℝ)
          (FourBoneSequence [⟨FQuat.Identity, ⟨1, 0, 0⟩, FVector.OneVector⟩,
            ⟨FQuat.Identity, ⟨2, 0, 0⟩, FVector.OneVector⟩]) 2 false 0 1 = some S0 ∧
        BoneScaledKey (⟨Real.sqrt, Real.sin, Real.cos, fun y x => Complex.arg ⟨x, y⟩, Real.pi, fun A _ => A⟩ :
      FMath ℝ)
          (FourBoneSequence [⟨FQuat.Identity, ⟨1, 0, 0⟩, FVector.OneVector⟩,
            ⟨FQuat.Identity, ⟨2, 0, 0⟩, FVector.OneVector⟩]) 2 false 1 1 = some S1 ∧
        BoneScaledKey (⟨Real.sqrt, Real.sin, Real.cos, fun y x => Complex.arg ⟨x, y⟩, Real.pi, fun A _ => A⟩ :
      FMath ℝ)
          (FourBoneSequence [⟨FQuat.Identity, ⟨1, 0, 0⟩, FVector.OneVector⟩,
            ⟨FQuat.Identity, ⟨2, 0, 0⟩, FVector.OneVector⟩]) 2 false 2 1 = some S2 ∧
        res.2[1]? = some (ComposeTransforms (⟨Real.sqrt, Real.sin, Real.cos, fun y x => Complex.arg ⟨x, y⟩, Real.pi, fun A _ => A⟩ :
      FMath ℝ) S2 (ComposeTransforms (⟨Real.sqrt, Real.sin, Real.cos, fun y x => Complex.arg ⟨x, y⟩, Real.pi, fun A _ => A⟩ :
      FMath ℝ) S1
          (ComposeTransforms (⟨Real.sqrt, Real.sin, Real.cos, fun y x => Complex.arg ⟨x, y⟩, Real.pi, fun A _ => A⟩ :
      FMath ℝ) S0 FTransform.Identity)))) :=
  accumulator_composition_order (⟨Real.sqrt, Real.sin, Real.cos, fun y x => Complex.arg ⟨x, y⟩, Real.pi, fun A _ => A⟩ :
      FMath ℝ)
    (FourBoneSequence [⟨FQuat.Identity, ⟨1, 0, 0⟩, FVector.OneVector⟩,
      ⟨FQuat.Identity, ⟨2, 0, 0⟩, FVector.OneVector⟩]) 2 false
    (by simp [UAnimSequence.WellFormed, FourBoneSequence, UAnimSequence.GetBoneTrackTransforms,
      FindBoneTrackKeys])
    (by simp [FourBoneSequence]) 1 (by simp [FourBoneSequence])

end Claims

/-! ## Composition of transforms -/

section Composition

variable {K : Type} [LinearOrderedField K]

/-- Unit quaternions rotate by a product as by the factors in turn. -/
theorem FQuat.RotateVector_mul (q b : FQuat K) (w : FVector K) (hq : q.SizeSquared = 1)
    (hb : b.SizeSquared = 1) :
    (q.mul b).RotateVector w = q.RotateVector (b.RotateVector w) := by
  unfold FQuat.SizeSquared at hq hb
  simp only [FQuat.RotateVector, FQuat.mul, FVector.cross, FVector.scale, FVector.add,
    FVector.mk.injEq]
  refine ⟨?_, ?_, ?_⟩
  · linear_combination
      ((b.W * b.W - b.X * b.X - b.Y * b.Y - b.Z * b.Z) * w.X
        + 2 * (b.X * w.X + b.Y * w.Y + b.Z * w.Z) * b.X + 2 * b.W * (b.Y * w.Z - b.Z * w.Y)
        - (2 * (b.X * b.X + b.Y * b.Y + b.Z * b.Z + b.W * b.W) - 1) * w.X) * hq
      + ((q.W * q.W - q.X * q.X - q.Y * q.Y - q.Z * q.Z - 1) * w.X
        + 2 * (q.X * w.X + q.Y * w.Y + q.Z * w.Z) * q.X + 2 * q.W * (q.Y * w.Z - q.Z * w.Y)) * hb
  · linear_combination
      ((b.W * b.W - b.X * b.X - b.Y * b.Y - b.Z * b.Z) * w.Y
        + 2 * (b.X * w.X + b.Y * w.Y + b.Z * w.Z) * b.Y + 2 * b.W * (b.Z * w.X - b.X * w.Z)
        - (2 * (b.X * b.X + b.Y * b.Y + b.Z * b.Z + b.W * b.W) - 1) * w.Y) * hq
      + ((q.W * q.W - q.X * q.X - q.Y * q.Y - q.Z * q.Z - 1) * w.Y
        + 2 * (q.X * w.X + q.Y * w.Y + q.Z * w.Z) * q.Y + 2 * q.W * (q.Z * w.X - q.X * w.Z)) * hb
  · linear_combination
      ((b.W * b.W - b.X * b.X - b.Y * b.Y - b.Z * b.Z) * w.Z
        + 2 * (b.X * w.X + b.Y * w.Y + b.Z * w.Z) * b.Z + 2 * b.W * (b.X * w.Y - b.Y * w.X)
        - (2 * (b.X * b.X + b.Y * b.Y + b.Z * b.Z + b.W * b.W) - 1) * w.Z) * hq
      + ((q.W * q.W - q.X * q.X - q.Y * q.Y - q.Z * q.Z - 1) * w.Z
        + 2 * (q.X * w.X + q.Y * w.Y + q.Z * w.Z) * q.Z + 2 * q.W * (q.X * w.Y - q.Y * w.X)) * hb

theorem FQuat.RotateVector_add (q : FQuat K) (v w : FVector K) :
    q.RotateVector (v.add w) = (q.RotateVector v).add (q.RotateVector w) := by
  simp only [FQuat.RotateVector, FVector.cross, FVector.scale, FVector.add, FVector.mk.injEq]
  refine ⟨?_, ?_, ?_⟩ <;> ring

theorem FQuat.RotateVector_scale (q : FQuat K) (v : FVector K) (c : K) :
    q.RotateVector (v.scale c) = (q.RotateVector v).scale c := by
  simp only [FQuat.RotateVector, FVector.cross, FVector.scale, FVector.add, FVector.mk.injEq]
  refine ⟨?_, ?_, ?_⟩ <;> ring

theorem FQuat.mul_assoc (a b c : FQuat K) : (a.mul b).mul c = a.mul (b.mul c) := by
  simp only [FQuat.mul, FQuat.mk.injEq]
  refine ⟨?_, ?_, ?_, ?_⟩ <;> ring

theorem FVector.mul_uniform (s v : FVector K) (hs : s.IsUniform) : s.mul v = v.scale s.X := by
  obtain ⟨h1, h2⟩ := hs
  simp only [FVector.mul, FVector.scale, FVector.mk.injEq]
  refine ⟨?_, ?_, ?_⟩
  · ring
  · rw [← h1]; ring
  · rw [← h2, ← h1]; ring

/-- Off the matrix path, `FTransform::Multiply` is the quaternion, vector and
scale formula. -/
theorem FTransform.Multiply_of_nonneg (M : FMath K) (A B : FTransform K)
    (hA : A.Scale3D.IsNonNegative) (hB : B.Scale3D.IsNonNegative) :
    FTransform.Multiply M A B =
      ⟨B.Rotation.mul A.Rotation,
       (B.Rotation.RotateVector (B.Scale3D.mul A.Translation)).add B.Translation,
       A.Scale3D.mul B.Scale3D⟩ := by
  obtain ⟨a1, a2, a3⟩ := hA
  obtain ⟨b1, b2, b3⟩ := hB
  simp [FTransform.Multiply, FTransform.AnyHasNegativeScale, not_lt.2 a1, not_lt.2 a2,
    not_lt.2 a3, not_lt.2 b1, not_lt.2 b2, not_lt.2 b3]

theorem FVector.mul_isNonNegative (a b : FVector K) (ha : a.IsNonNegative)
    (hb : b.IsNonNegative) : (a.mul b).IsNonNegative :=
  ⟨mul_nonneg ha.1 hb.1, mul_nonneg ha.2.1 hb.2.1, mul_nonneg ha.2.2 hb.2.2⟩

/-- C16 (as amended): composition of transforms.  For all transforms `A`,
`B`, `C` without a negative scale component such that the rotations of `B`
and `C` are unit quaternions and the scale of `C` is uniform,
`compose(compose(A, B), C) = compose(A, compose(B, C))`, where `compose` is
`ComposeTransforms`; and composition is not commutative: some `A` and `B`
have `compose(A, B)` different from `compose(B, A)`. -/
theorem compose_assoc_of_uniform_outer_scale (M : FMath K) (A B C : FTransform K)
    (hA : A.Scale3D.IsNonNegative) (hB : B.Scale3D.IsNonNegative)
    (hC : C.Scale3D.IsNonNegative) (hunitB : B.Rotation.SizeSquared = 1)
    (hunit : C.Rotation.SizeSquared = 1)
    (huniform : C.Scale3D.IsUniform) :
    ComposeTransforms M (ComposeTransforms M A B) C
      = ComposeTransforms M A (ComposeTransforms M B C) ∧
    ∃ A' B' : FTransform K, ComposeTransforms M A' B' ≠ ComposeTransforms M B' A' := by
  constructor
  · unfold ComposeTransforms
    rw [FTransform.Multiply_of_nonneg M A B hA hB, FTransform.Multiply_of_nonneg M B C hB hC,
      FTransform.Multiply_of_nonneg M _ C (FVector.mul_isNonNegative _ _ hA hB) hC,
      FTransform.Multiply_of_nonneg M A _ hA (FVector.mul_isNonNegative _ _ hB hC)]
    simp only [FTransform.mk.injEq]
    refine ⟨(FQuat.mul_assoc _ _ _).symm, ?_, ?_⟩
    · rw [FQuat.RotateVector_mul _ _ _ hunit hunitB]
      have hy : C.Scale3D.Y = C.Scale3D.X := huniform.1.symm
      have hz : C.Scale3D.Z = C.Scale3D.X := by rw [← huniform.2, hy]
      simp only [FQuat.RotateVector, FVector.cross, FVector.scale, FVector.add, FVector.mul,
        FVector.mk.injEq, hy, hz]
      refine ⟨?_, ?_, ?_⟩ <;> ring
    · simp only [FVector.mul, FVector.mk.injEq]
      refine ⟨?_, ?_, ?_⟩ <;> ring
  · refine ⟨⟨FQuat.Identity, ⟨1, 0, 0⟩, FVector.OneVector⟩,
      ⟨⟨0, 0, 1, 0⟩, ⟨0, 0, 0⟩, FVector.OneVector⟩, ?_⟩
    intro h
    have hx := congrArg (fun t => t.Translation.X) h
    simp [ComposeTransforms, FTransform.Multiply, FTransform.AnyHasNegativeScale,
      FQuat.Identity, FQuat.RotateVector, FVector.cross, FVector.scale, FVector.add,
      FVector.mul, FVector.OneVector] at hx
    norm_num at hx

/-- Associativity at three transforms with non-uniform scales in `A` and `B`,
unit rotations in `B` and `C` and the uniform scale 2 in `C`. -/
theorem compose_assoc_of_uniform_outer_scale_witness :
    ComposeTransforms (⟨Real.sqrt, Real.sin, Real.cos, fun y x => Complex.arg ⟨x, y⟩, Real.pi, fun A _ => A⟩ :
      FMath ℝ)
        (ComposeTransforms (⟨Real.sqrt, Real.sin, Real.cos, fun y x => Complex.arg ⟨x, y⟩, Real.pi, fun A _ => A⟩ :
      FMath ℝ) ⟨FQuat.Identity, ⟨1, 0, 0⟩, ⟨1, 2, 3⟩⟩
          ⟨⟨0, 0, 3 / 5, 4 / 5⟩, ⟨0, 1, 0⟩, ⟨2, 1, 1⟩⟩)
        ⟨⟨0, 0, 1, 0⟩, ⟨1, 1, 1⟩, ⟨2, 2, 2⟩⟩
      = ComposeTransforms (⟨Real.sqrt, Real.sin, Real.cos, fun y x => Complex.arg ⟨x, y⟩, Real.pi, fun A _ => A⟩ :
      FMath ℝ) ⟨FQuat.Identity, ⟨1, 0, 0⟩, ⟨1, 2, 3⟩⟩
        (ComposeTransforms (⟨Real.sqrt, Real.sin, Real.cos, fun y x => Complex.arg ⟨x, y⟩, Real.pi, fun A _ => A⟩ :
      FMath ℝ) ⟨⟨0, 0, 3 / 5, 4 / 5⟩, ⟨0, 1, 0⟩, ⟨2, 1, 1⟩⟩
          ⟨⟨0, 0, 1, 0⟩, ⟨1, 1, 1⟩, ⟨2, 2, 2⟩⟩) ∧
    ∃ A' B' : FTransform ℝ, ComposeTransforms (⟨Real.sqrt, Real.sin, Real.cos, fun y x => Complex.arg ⟨x, y⟩, Real.pi, fun A _ => A⟩ :
      FMath ℝ) A' B' ≠ ComposeTransforms (⟨Real.sqrt, Real.sin, Real.cos, fun y x => Complex.arg ⟨x, y⟩, Real.pi, fun A _ => A⟩ :
      FMath ℝ) B' A' :=
  compose_assoc_of_uniform_outer_scale (⟨Real.sqrt, Real.sin, Real.cos, fun y x => Complex.arg ⟨x, y⟩, Real.pi, fun A _ => A⟩ :
      FMath ℝ) ⟨FQuat.Identity, ⟨1, 0, 0⟩, ⟨1, 2, 3⟩⟩
    ⟨⟨0, 0, 3 / 5, 4 / 5⟩, ⟨0, 1, 0⟩, ⟨2, 1, 1⟩⟩ ⟨⟨0, 0, 1, 0⟩, ⟨1, 1, 1⟩, ⟨2, 2, 2⟩⟩
    (by simp [FVector.IsNonNegative]) (by simp [FVector.IsNonNegative])
    (by simp [FVector.IsNonNegative]) (by simp [FQuat.SizeSquared]; norm_num)
    (by simp [FQuat.SizeSquared]) (by simp [FVector.IsUniform])

/-- C16 (as stated) fails for a non-uniform scale: with `A` the translation to
(1,0,0), `B` the unit rotation `(0, 0, 3/5, 4/5)` about Z and `C` the scale
(2,1,1), `compose(compose(A, B), C)` has the position (14/25, 24/25, 0) and
`compose(A, compose(B, C))` has the position (14/25, 48/25, 0). -/
theorem compose_not_associative :
    (ComposeTransforms (⟨Real.sqrt, Real.sin, Real.cos, fun y x => Complex.arg ⟨x, y⟩, Real.pi, fun A _ => A⟩ :
      FMath ℝ)
        (ComposeTransforms (⟨Real.sqrt, Real.sin, Real.cos, fun y x => Complex.arg ⟨x, y⟩, Real.pi, fun A _ => A⟩ :
      FMath ℝ) ⟨FQuat.Identity, ⟨1, 0, 0⟩, FVector.OneVector⟩
          ⟨⟨0, 0, 3 / 5, 4 / 5⟩, ⟨0, 0, 0⟩, FVector.OneVector⟩)
        ⟨FQuat.Identity, ⟨0, 0, 0⟩, ⟨2, 1, 1⟩⟩).Translation = ⟨14 / 25, 24 / 25, 0⟩ ∧
    (ComposeTransforms (⟨Real.sqrt, Real.sin, Real.cos, fun y x => Complex.arg ⟨x, y⟩, Real.pi, fun A _ => A⟩ :
      FMath ℝ) ⟨FQuat.Identity, ⟨1, 0, 0⟩, FVector.OneVector⟩
        (ComposeTransforms (⟨Real.sqrt, Real.sin, Real.cos, fun y x => Complex.arg ⟨x, y⟩, Real.pi, fun A _ => A⟩ :
      FMath ℝ) ⟨⟨0, 0, 3 / 5, 4 / 5⟩, ⟨0, 0, 0⟩, FVector.OneVector⟩
          ⟨FQuat.Identity, ⟨0, 0, 0⟩, ⟨2, 1, 1⟩⟩)).Translation = ⟨14 / 25, 48 / 25, 0⟩ ∧
    ComposeTransforms (⟨Real.sqrt, Real.sin, Real.cos, fun y x => Complex.arg ⟨x, y⟩, Real.pi, fun A _ => A⟩ :
      FMath ℝ)
        (ComposeTransforms (⟨Real.sqrt, Real.sin, Real.cos, fun y x => Complex.arg ⟨x, y⟩, Real.pi, fun A _ => A⟩ :
      FMath ℝ) ⟨FQuat.Identity, ⟨1, 0, 0⟩, FVector.OneVector⟩
          ⟨⟨0, 0, 3 / 5, 4 / 5⟩, ⟨0, 0, 0⟩, FVector.OneVector⟩)
        ⟨FQuat.Identity, ⟨0, 0, 0⟩, ⟨2, 1, 1⟩⟩
      ≠ ComposeTransforms (⟨Real.sqrt, Real.sin, Real.cos, fun y x => Complex.arg ⟨x, y⟩, Real.pi, fun A _ => A⟩ :
      FMath ℝ) ⟨FQuat.Identity, ⟨1, 0, 0⟩, FVector.OneVector⟩
        (ComposeTransforms (⟨Real.sqrt, Real.sin, Real.cos, fun y x => Complex.arg ⟨x, y⟩, Real.pi, fun A _ => A⟩ :
      FMath ℝ) ⟨⟨0, 0, 3 / 5, 4 / 5⟩, ⟨0, 0, 0⟩, FVector.OneVector⟩
          ⟨FQuat.Identity, ⟨0, 0, 0⟩, ⟨2, 1, 1⟩⟩) := by
  have h1 : (ComposeTransforms (⟨Real.sqrt, Real.sin, Real.cos, fun y x => Complex.arg ⟨x, y⟩, Real.pi, fun A _ => A⟩ :
      FMath ℝ)
        (ComposeTransforms (⟨Real.sqrt, Real.sin, Real.cos, fun y x => Complex.arg ⟨x, y⟩, Real.pi, fun A _ => A⟩ :
      FMath ℝ) ⟨FQuat.Identity, ⟨1, 0, 0⟩, FVector.OneVector⟩
          ⟨⟨0, 0, 3 / 5, 4 / 5⟩, ⟨0, 0, 0⟩, FVector.OneVector⟩)
        ⟨FQuat.Identity, ⟨0, 0, 0⟩, ⟨2, 1, 1⟩⟩).Translation = ⟨14 / 25, 24 / 25, 0⟩ := by
    simp [ComposeTransforms, FTransform.Multiply, FTransform.AnyHasNegativeScale,
      FQuat.Identity, FQuat.mul, FQuat.RotateVector, FVector.cross, FVector.scale, FVector.add,
      FVector.mul, FVector.OneVector]
    norm_num
  have h2 : (ComposeTransforms (⟨Real.sqrt, Real.sin, Real.cos, fun y x => Complex.arg ⟨x, y⟩, Real.pi, fun A _ => A⟩ :
      FMath ℝ) ⟨FQuat.Identity, ⟨1, 0, 0⟩, FVector.OneVector⟩
        (ComposeTransforms (⟨Real.sqrt, Real.sin, Real.cos, fun y x => Complex.arg ⟨x, y⟩, Real.pi, fun A _ => A⟩ :
      FMath ℝ) ⟨⟨0, 0, 3 / 5, 4 / 5⟩, ⟨0, 0, 0⟩, FVector.OneVector⟩
          ⟨FQuat.Identity, ⟨0, 0, 0⟩, ⟨2, 1, 1⟩⟩)).Translation = ⟨14 / 25, 48 / 25, 0⟩ := by
    simp [ComposeTransforms, FTransform.Multiply, FTransform.AnyHasNegativeScale,
      FQuat.Identity, FQuat.mul, FQuat.RotateVector, FVector.cross, FVector.scale, FVector.add,
      FVector.mul, FVector.OneVector]
    norm_num
  refine ⟨h1, h2, ?_⟩
  intro h
  rw [h, h2] at h1
  simp only [FVector.mk.injEq] at h1
  norm_num at h1

end Composition

/-! ## The editor widget: finding and replacing the skin name -/

section Widget

namespace FString

theorem FirstIndexOf_eq_none (c : Char) : ∀ s : FString, FirstIndexOf c s = none ↔ c ∉ s
  | [] => by simp [FirstIndexOf]
  | x :: xs => by
    by_cases hx : x = c
    · simp [FirstIndexOf, hx]
    · have ih := FirstIndexOf_eq_none c xs
      have hne : ¬ c = x := fun e => hx e.symm
      simp [FirstIndexOf, hx, hne, ih]

theorem LastIndexOf_eq_none (c : Char) : ∀ s : FString, LastIndexOf c s = none ↔ c ∉ s
  | [] => by simp [LastIndexOf]
  | x :: xs => by
    have ih := LastIndexOf_eq_none c xs
    unfold LastIndexOf
    cases hl : LastIndexOf c xs with
    | some i =>
      have : c ∈ xs := by
        by_contra hc
        rw [ih.2 hc] at hl; cases hl
      simp [this]
    | none =>
      have hnot : c ∉ xs := ih.1 hl
      by_cases hx : x = c
      · simp [hx]
      · have hne : ¬ c = x := fun e => hx e.symm
        simp [hx, hne, hnot]

/-- The first occurrence splits the string: no occurrence before it. -/
theorem FirstIndexOf_eq_some (c : Char) :
    ∀ (s : FString) (i : Nat), FirstIndexOf c s = some i →
      ∃ pre rest, s = pre ++ c :: rest ∧ pre.length = i ∧ c ∉ pre
  | [], i, h => by simp [FirstIndexOf] at h
  | x :: xs, i, h => by
    by_cases hx : x = c
    · simp only [FirstIndexOf, hx, if_true, Option.some.injEq] at h
      exact ⟨[], xs, by simp [hx], by simpa using h, by simp⟩
    · simp only [FirstIndexOf, hx, if_false, Option.map_eq_some'] at h
      obtain ⟨j, hj, rfl⟩ := h
      obtain ⟨pre, rest, e, hl, hn⟩ := FirstIndexOf_eq_some c xs j hj
      refine ⟨x :: pre, rest, by simp [e], by simp [hl], ?_⟩
      simp only [List.mem_cons, not_or]
      exact ⟨fun e => hx e.symm, hn⟩

theorem FirstIndexOf_append_cons (c : Char) (rest : FString) :
    ∀ pre : FString, c ∉ pre → FirstIndexOf c (pre ++ c :: rest) = some pre.length
  | [], _ => by simp [FirstIndexOf]
  | x :: xs, h => by
    simp only [List.mem_cons, not_or] at h
    have hx : ¬ x = c := fun e => h.1 e.symm
    simp [FirstIndexOf, hx, FirstIndexOf_append_cons c rest xs h.2]

theorem LastIndexOf_cons (c x : Char) (xs : FString) :
    LastIndexOf c (x :: xs) =
      match LastIndexOf c xs with
      | some i => some (i + 1)
      | none => if x = c then some 0 else none := rfl

theorem LastIndexOf_append_cons (c : Char) (rest : FString) :
    ∀ pre : FString, LastIndexOf c (pre ++ c :: rest)
      = some (pre.length + (match LastIndexOf c rest with
          | some j => j + 1
          | none => 0))
  | [] => by
    simp only [List.nil_append, List.length_nil, Nat.zero_add]
    rw [LastIndexOf_cons]
    cases LastIndexOf c rest <;> simp
  | x :: xs => by
    simp only [List.cons_append, List.length_cons]
    rw [LastIndexOf_cons, LastIndexOf_append_cons c rest xs]
    simp only [Option.some.injEq]
    omega

/-- The last occurrence splits the string: no occurrence after it. -/
theorem LastIndexOf_eq_some (c : Char) :
    ∀ (s : FString) (i : Nat), LastIndexOf c s = some i →
      ∃ init suf, s = init ++ c :: suf ∧ init.length = i ∧ c ∉ suf
  | [], i, h => by simp [LastIndexOf] at h
  | x :: xs, i, h => by
    unfold LastIndexOf at h
    cases hl : LastIndexOf c xs with
    | some j =>
      simp only [hl, Option.some.injEq] at h
      obtain ⟨init, suf, e, hlen, hn⟩ := LastIndexOf_eq_some c xs j hl
      exact ⟨x :: init, suf, by simp [e], by simp [hlen, h], hn⟩
    | none =>
      simp only [hl] at h
      by_cases hx : x = c
      · simp only [hx, if_true, Option.some.injEq] at h
        exact ⟨[], xs, by simp [hx], by simpa using h, (LastIndexOf_eq_none c xs).1 hl⟩
      · simp [hx] at h

end FString

theorem FString.FindChar_of_split (Model rest : FString) (h : '_' ∉ Model) :
    FString.FindChar (Model ++ '_' :: rest) '_' = (Model.length : Int) := by
  simp [FString.FindChar, FString.FirstIndexOf_append_cons '_' rest Model h]

theorem FString.FindLastChar_of_split (init Part : FString) (h : '_' ∉ Part) :
    FString.FindLastChar (init ++ '_' :: Part) '_' = (init.length : Int) := by
  simp [FString.FindLastChar, FString.LastIndexOf_append_cons '_' Part init,
    (FString.LastIndexOf_eq_none '_' Part).2 h]

/-- The branch condition of `ChangeSlotName_Internal` holds exactly for the
names with a model, a skin and a part. -/
theorem change_condition_iff (s : FString) :
    (FString.FindChar s '_' < FString.FindLastChar s '_' ∧ FString.FindChar s '_' ≥ 0)
      ↔ s.HasSkinPart := by
  constructor
  · rintro ⟨hlt, hge⟩
    cases hf : FString.FirstIndexOf '_' s with
    | none => simp [FString.FindChar, hf] at hge
    | some L =>
      obtain ⟨pre, rest, rfl, hlen, hpre⟩ := FString.FirstIndexOf_eq_some '_' s L hf
      cases hl : FString.LastIndexOf '_' rest with
      | none =>
        simp [FString.FindChar, FString.FindLastChar, hf,
          FString.LastIndexOf_append_cons '_' rest pre, hl, hlen] at hlt
      | some j =>
        obtain ⟨mid, suf, rfl, _, hsuf⟩ := FString.LastIndexOf_eq_some '_' rest j hl
        exact ⟨pre, mid, suf, rfl, hpre, hsuf⟩
  · rintro ⟨pre, mid, suf, rfl, hpre, hsuf⟩
    have h1 := FString.FindChar_of_split pre (mid ++ '_' :: suf) hpre
    have h2 : FString.FindLastChar (pre ++ '_' :: (mid ++ '_' :: suf)) '_'
        = ((pre ++ '_' :: mid).length : Int) := by
      have := FString.FindLastChar_of_split (pre ++ '_' :: mid) suf hsuf
      simpa using this
    rw [h1, h2]
    simp only [List.length_append, List.length_cons]
    constructor <;> omega

/-- Two underscores or more is the same as having a model, a skin and a
part. -/
theorem count_underscore_iff (s : FString) : 2 ≤ s.count '_' ↔ s.HasSkinPart := by
  constructor
  · intro h
    have hmem : '_' ∈ s := List.count_pos_iff.1 (by omega)
    cases hf : FString.FirstIndexOf '_' s with
    | none => exact absurd hmem ((FString.FirstIndexOf_eq_none '_' s).1 hf)
    | some L =>
      obtain ⟨pre, rest, rfl, _, hpre⟩ := FString.FirstIndexOf_eq_some '_' s L hf
      have hc : 1 ≤ rest.count '_' := by
        simp only [List.count_append, List.count_cons_self, List.count_eq_zero_of_not_mem hpre]
          at h
        omega
      have hmem' : '_' ∈ rest := List.count_pos_iff.1 (by omega)
      cases hl : FString.LastIndexOf '_' rest with
      | none => exact absurd hmem' ((FString.LastIndexOf_eq_none '_' rest).1 hl)
      | some j =>
        obtain ⟨mid, suf, rfl, _, hsuf⟩ := FString.LastIndexOf_eq_some '_' rest j hl
        exact ⟨pre, mid, suf, rfl, hpre, hsuf⟩
  · rintro ⟨pre, mid, suf, rfl, _, _⟩
    simp only [List.count_append, List.count_cons_self]
    omega

/-- On a name with a model, a skin and a part the finder returns the skin. -/
theorem FindSkinName_of_split (Model Skin Part : FString) (hm : '_' ∉ Model)
    (hp : '_' ∉ Part) :
    FindSkinNameFromMaterialSlotName (Model ++ '_' :: (Skin ++ '_' :: Part)) = ⟨true, Skin⟩ := by
  have h1 := FString.FindChar_of_split Model (Skin ++ '_' :: Part) hm
  have h2 := FString.FindLastChar_of_split Skin Part hp
  have hchop : FString.RightChop (Model ++ '_' :: (Skin ++ '_' :: Part)) ((Model.length : Int) + 1)
      = Skin ++ '_' :: Part := by
    have e : ((Model.length : Int) + 1).toNat = Model.length + 1 := by omega
    simp [FString.RightChop, e]
  unfold FindSkinNameFromMaterialSlotName
  simp only [h1, hchop, h2, FString.Left]
  simp

/-- On a name without a model, a skin and a part the finder returns false and
the empty string. -/
theorem FindSkinName_of_not_split (s : FString) (h : ¬ s.HasSkinPart) :
    FindSkinNameFromMaterialSlotName s = ⟨false, []⟩ := by
  unfold FindSkinNameFromMaterialSlotName
  cases hf : FString.FirstIndexOf '_' s with
  | none => simp [FString.FindChar, hf]
  | some L =>
    obtain ⟨pre, rest, rfl, hlen, hpre⟩ := FString.FirstIndexOf_eq_some '_' s L hf
    have h1 := FString.FindChar_of_split pre rest hpre
    have hchop : FString.RightChop (pre ++ '_' :: rest) ((pre.length : Int) + 1) = rest := by
      have e : ((pre.length : Int) + 1).toNat = pre.length + 1 := by omega
      simp [FString.RightChop, e]
    cases hl : FString.LastIndexOf '_' rest with
    | none => simp [h1, hchop, FString.FindLastChar, hl]
    | some j =>
      obtain ⟨mid, suf, rfl, _, hsuf⟩ := FString.LastIndexOf_eq_some '_' rest j hl
      exact absurd ⟨pre, mid, suf, rfl, hpre, hsuf⟩ h

/-- On a name with a model, a skin and a part the renaming puts the new skin
name in the place of the skin. -/
theorem ChangeSlotName_of_split (Model Skin Part NewSkinName : FString)
    (SucceededMap FailedMap : FNameMap) (hm : '_' ∉ Model) (hp : '_' ∉ Part) :
    ChangeSlotName_Internal (Model ++ '_' :: (Skin ++ '_' :: Part)) NewSkinName SucceededMap
        FailedMap
      = ⟨Model ++ '_' :: (NewSkinName ++ '_' :: Part),
         FNameMap.Add (Model ++ '_' :: (Skin ++ '_' :: Part))
           (Model ++ '_' :: (NewSkinName ++ '_' :: Part)) SucceededMap,
         FailedMap⟩ := by
  have hcond := (change_condition_iff (Model ++ '_' :: (Skin ++ '_' :: Part))).2
    ⟨Model, Skin, Part, rfl, hm, hp⟩
  have h1 := FString.FindChar_of_split Model (Skin ++ '_' :: Part) hm
  have h2 : FString.FindLastChar (Model ++ '_' :: (Skin ++ '_' :: Part)) '_'
      = ((Model ++ '_' :: Skin).length : Int) := by
    have := FString.FindLastChar_of_split (Model ++ '_' :: Skin) Part hp
    simpa using this
  have hleft : FString.Left (Model ++ '_' :: (Skin ++ '_' :: Part)) ((Model.length : Int) + 1)
      = Model ++ ['_'] := by
    have e : ((Model.length : Int) + 1).toNat = Model.length + 1 := by omega
    simp [FString.Left, e, List.take_append_eq_append_take]
  have hchop : FString.RightChop (Model ++ '_' :: (Skin ++ '_' :: Part))
      ((Model ++ '_' :: Skin).length : Int) = '_' :: Part := by
    have e : (Model ++ '_' :: (Skin ++ '_' :: Part)) = (Model ++ '_' :: Skin) ++ '_' :: Part := by
      simp
    rw [FString.RightChop, Int.toNat_ofNat, e, List.drop_left]
  unfold ChangeSlotName_Internal
  simp only [hcond, and_self, if_true]
  rw [h2, h1, hleft, hchop]
  simp

theorem FNameMap.Find_Add (Key Value : FString) :
    ∀ m : FNameMap, FNameMap.Find Key (FNameMap.Add Key Value m) = some Value
  | [] => by simp [FNameMap.Add, FNameMap.Find, FString.EqualsIgnoreCase]
  | p :: ps => by
    by_cases h : FString.EqualsIgnoreCase p.1 Key = true
    · rw [FNameMap.Add, if_pos h]
      simp [FNameMap.Find, FString.EqualsIgnoreCase]
    · rw [FNameMap.Add, if_neg h, FNameMap.Find, if_neg h]
      exact FNameMap.Find_Add Key Value ps

/-- C18: rename then find is a round trip.  For every slot name on which
`ChangeSlotName_Internal` takes its renaming branch (first underscore
strictly before the last one) and every new skin name, empty or with
underscores included, `FindSkinNameFromMaterialSlotName` on the renamed slot
name returns true with the new skin name in `OutSkinName`. -/
theorem rename_then_find_round_trip (MatSlotName NewSkinName : FString)
    (SucceededMap FailedMap : FNameMap)
    (h : FString.FindChar MatSlotName '_' < FString.FindLastChar MatSlotName '_' ∧
      FString.FindChar MatSlotName '_' ≥ 0) :
    FindSkinNameFromMaterialSlotName
        (ChangeSlotName_Internal MatSlotName NewSkinName SucceededMap FailedMap).MatSlotName
      = ⟨true, NewSkinName⟩ := by
  obtain ⟨Model, Skin, Part, rfl, hm, hp⟩ := (change_condition_iff MatSlotName).1 h
  rw [ChangeSlotName_of_split Model Skin Part NewSkinName SucceededMap FailedMap hm hp]
  exact FindSkinName_of_split Model NewSkinName Part hm hp

/-- The round trip on `wraith_lgnd_v19_body` with the new skin name
`new_skin`. -/
theorem rename_then_find_round_trip_witness :
    FindSkinNameFromMaterialSlotName
        (ChangeSlotName_Internal "wraith_lgnd_v19_body".toList "new_skin".toList [] []).MatSlotName
      = ⟨true, "new_skin".toList⟩ :=
  rename_then_find_round_trip "wraith_lgnd_v19_body".toList "new_skin".toList [] [] (by decide)

/-- C19: find and rename accept the same slot names.  For every slot name,
`FindSkinNameFromMaterialSlotName` returns true if and only if the name has at
least two underscores, which is exactly when `ChangeSlotName_Internal` takes
its renaming branch; then the renamed name is recorded in `SucceededMap` and
`FailedMap` is left alone.  Otherwise the finder returns false with an empty
`OutSkinName`, and the renaming leaves the slot name and `SucceededMap`
unchanged and records the name in `FailedMap`. -/
theorem find_and_rename_accept_same_names (SlotName NewSkinName : FString)
    (SucceededMap FailedMap : FNameMap) :
    ((FindSkinNameFromMaterialSlotName SlotName).bFound = true ↔ 2 ≤ SlotName.count '_') ∧
    ((FString.FindChar SlotName '_' < FString.FindLastChar SlotName '_' ∧
        FString.FindChar SlotName '_' ≥ 0) ↔ 2 ≤ SlotName.count '_') ∧
    (2 ≤ SlotName.count '_' →
      FNameMap.Find SlotName
          (ChangeSlotName_Internal SlotName NewSkinName SucceededMap FailedMap).SucceededMap
        = some (ChangeSlotName_Internal SlotName NewSkinName SucceededMap FailedMap).MatSlotName ∧
      (ChangeSlotName_Internal SlotName NewSkinName SucceededMap FailedMap).FailedMap
        = FailedMap) ∧
    (¬ 2 ≤ SlotName.count '_' →
      FindSkinNameFromMaterialSlotName SlotName = ⟨false, []⟩ ∧
      (ChangeSlotName_Internal SlotName NewSkinName SucceededMap FailedMap).MatSlotName
        = SlotName ∧
      (ChangeSlotName_Internal SlotName NewSkinName SucceededMap FailedMap).SucceededMap
        = SucceededMap ∧
      FNameMap.Find SlotName
          (ChangeSlotName_Internal SlotName NewSkinName SucceededMap FailedMap).FailedMap
        = some SlotName) := by
  refine ⟨?_, ?_, ?_, ?_⟩
  · rw [count_underscore_iff]
    constructor
    · intro hfound
      by_contra hn
      rw [FindSkinName_of_not_split SlotName hn] at hfound
      cases hfound
    · rintro ⟨Model, Skin, Part, rfl, hm, hp⟩
      rw [FindSkinName_of_split Model Skin Part hm hp]
  · rw [count_underscore_iff, change_condition_iff]
  · intro h2
    obtain ⟨Model, Skin, Part, rfl, hm, hp⟩ := (count_underscore_iff SlotName).1 h2
    rw [ChangeSlotName_of_split Model Skin Part NewSkinName SucceededMap FailedMap hm hp]
    exact ⟨FNameMap.Find_Add _ _ _, rfl⟩
  · intro h2
    have hns : ¬ SlotName.HasSkinPart := fun h => h2 ((count_underscore_iff SlotName).2 h)
    have hcond := mt (change_condition_iff SlotName).1 hns
    refine ⟨FindSkinName_of_not_split SlotName hns, ?_, ?_, ?_⟩
    · simp [ChangeSlotName_Internal, hcond]
    · simp [ChangeSlotName_Internal, hcond]
    · simp only [ChangeSlotName_Internal, hcond, if_false]
      exact FNameMap.Find_Add _ _ _

end Widget

/-! ## The editor widget: the most frequent skin name -/

section SkinCount

theorem FString.EqualsIgnoreCase_iff (a b : FString) :
    FString.EqualsIgnoreCase a b = true ↔ a.map Char.toLower = b.map Char.toLower := by
  simp [FString.EqualsIgnoreCase]

theorem FString.EqualsIgnoreCase_comm (a b : FString) :
    FString.EqualsIgnoreCase a b = FString.EqualsIgnoreCase b a := by
  simp only [FString.EqualsIgnoreCase, eq_comm]

/-- The loop over the slot names is the loop over the counted skin names. -/
theorem foldl_CountSlotName (slots : List FString) :
    ∀ st : FSkinCountState,
      slots.foldl CountSlotName st = (CountedSkinNames slots).foldl CountSkinName st := by
  induction slots with
  | nil => intro st; rfl
  | cons s rest ih =>
    intro st
    simp only [List.foldl_cons, CountedSkinNames, List.filterMap_cons]
    rw [ih]
    unfold CountSlotName
    by_cases hex : (FString.EqualsIgnoreCase s eyecornea || FString.EqualsIgnoreCase s eyeshadow)
        = true
    · simp only [hex, if_true]; rfl
    · simp only [hex]
      by_cases hf : (FindSkinNameFromMaterialSlotName s).bFound = true
      · simp only [hf, if_true, Bool.false_eq_true, if_false, List.foldl_cons]; rfl
      · simp only [hf, Bool.false_eq_true, if_false]; rfl

/-- Incrementing the counter of a skin name returns its count plus one and
raises by one the value found for exactly the names equal to it. -/
theorem FindOrAddIncrement_spec (x : FString) :
    ∀ m : FSkinNameCounter,
      (FSkinNameCounter.FindOrAddIncrement x m).2 = FSkinNameCounter.FindRef x m + 1 ∧
      ∀ y : FString, FSkinNameCounter.FindRef y (FSkinNameCounter.FindOrAddIncrement x m).1
        = FSkinNameCounter.FindRef y m + (if FString.EqualsIgnoreCase y x then 1 else 0) := by
  intro m
  induction m with
  | nil =>
    refine ⟨by simp [FSkinNameCounter.FindOrAddIncrement, FSkinNameCounter.FindRef], ?_⟩
    intro y
    simp only [FSkinNameCounter.FindOrAddIncrement, FSkinNameCounter.FindRef,
      FString.EqualsIgnoreCase_comm x y]
    split <;> simp
  | cons p ps ih =>
    by_cases hp : FString.EqualsIgnoreCase p.1 x = true
    · simp only [FSkinNameCounter.FindOrAddIncrement, hp, if_true, FSkinNameCounter.FindRef,
        true_and]
      intro y
      by_cases hy : FString.EqualsIgnoreCase p.1 y = true
      · have hyx : FString.EqualsIgnoreCase y x = true := by
          rw [FString.EqualsIgnoreCase_iff] at hp hy ⊢
          rw [← hy, hp]
        simp [hy, hyx]
      · have hyx : ¬ FString.EqualsIgnoreCase y x = true := by
          intro h
          apply hy
          rw [FString.EqualsIgnoreCase_iff] at hp h ⊢
          rw [hp, h]
        simp [hy, hyx]
    · simp only [FSkinNameCounter.FindOrAddIncrement, hp, FSkinNameCounter.FindRef,
        Bool.false_eq_true, if_false]
      refine ⟨ih.1, ?_⟩
      intro y
      by_cases hy : FString.EqualsIgnoreCase p.1 y = true
      · have hyx : ¬ FString.EqualsIgnoreCase y x = true := by
          intro h
          apply hp
          rw [FString.EqualsIgnoreCase_iff] at hy h ⊢
          rw [hy, h]
        simp [hy, hyx]
      · simp only [hy, Bool.false_eq_true, if_false]
        exact ih.2 y

theorem SkinNameOccurrences_append (y x : FString) (l : List FString) :
    SkinNameOccurrences y (l ++ [x])
      = SkinNameOccurrences y l + (if FString.EqualsIgnoreCase x y then 1 else 0) := by
  simp only [SkinNameOccurrences, List.countP_append, List.countP_cons, List.countP_nil]
  simp

theorem SkinNameOccurrences_take_le (y : FString) (l : List FString) (n : Nat) :
    SkinNameOccurrences y (l.take n) ≤ SkinNameOccurrences y l :=
  List.Sublist.countP_le _ (List.take_sublist n l)

/-- The state of the counting loop after a list of skin names: the counter
holds the number of occurrences of every name, `MaxCnt` bounds them all, and
`OutSkinName` is the name at the first position where the running count of
the name at that position equals `MaxCnt`. -/
theorem CountSkinName_invariant (l : List FString) :
    (∀ y : FString, FSkinNameCounter.FindRef y
        (l.foldl CountSkinName ⟨[], 0, []⟩).SkinNameCounter = (SkinNameOccurrences y l : Int)) ∧
    (∀ y : FString, (SkinNameOccurrences y l : Int) ≤ (l.foldl CountSkinName ⟨[], 0, []⟩).MaxCnt) ∧
    (l = [] → (l.foldl CountSkinName ⟨[], 0, []⟩).MaxCnt = 0 ∧
      (l.foldl CountSkinName ⟨[], 0, []⟩).OutSkinName = []) ∧
    (l ≠ [] → ∃ (i : Nat) (x : FString), l[i]? = some x ∧
      (l.foldl CountSkinName ⟨[], 0, []⟩).OutSkinName = x ∧
      (SkinNameOccurrences x (l.take (i + 1)) : Int)
        = (l.foldl CountSkinName ⟨[], 0, []⟩).MaxCnt ∧
      ∀ (j : Nat) (y : FString), j < i → l[j]? = some y →
        (SkinNameOccurrences y (l.take (j + 1)) : Int)
          < (l.foldl CountSkinName ⟨[], 0, []⟩).MaxCnt) := by
  induction l using List.reverseRecOn with
  | nil =>
    refine ⟨?_, ?_, ?_, ?_⟩
    · intro y; simp [FSkinNameCounter.FindRef, SkinNameOccurrences]
    · intro y; simp [SkinNameOccurrences]
    · intro _; exact ⟨rfl, rfl⟩
    · intro h; exact absurd rfl h
  | append_singleton l x ih =>
    obtain ⟨ih1, ih2, ih3, ih4⟩ := ih
    rw [List.foldl_append, List.foldl_cons, List.foldl_nil]
    generalize hst : l.foldl CountSkinName ⟨[], 0, []⟩ = st at ih1 ih2 ih3 ih4
    obtain ⟨hcnt, hmap⟩ := FindOrAddIncrement_spec x st.SkinNameCounter
    rw [ih1 x] at hcnt
    have hself : FString.EqualsIgnoreCase x x = true := by simp [FString.EqualsIgnoreCase]
    have hocc : ∀ y : FString, (SkinNameOccurrences y (l ++ [x]) : Int)
        = (SkinNameOccurrences y l : Int) + (if FString.EqualsIgnoreCase y x then 1 else 0) := by
      intro y
      rw [SkinNameOccurrences_append, FString.EqualsIgnoreCase_comm x y]
      split <;> simp
    have hoccx : (SkinNameOccurrences x (l ++ [x]) : Int) = (SkinNameOccurrences x l : Int) + 1 := by
      rw [hocc x, hself]; simp
    have hcounter : ∀ y : FString, FSkinNameCounter.FindRef y
        (FSkinNameCounter.FindOrAddIncrement x st.SkinNameCounter).1
          = (SkinNameOccurrences y (l ++ [x]) : Int) := by
      intro y; rw [hmap y, ih1 y, hocc y]
    have hle : ∀ y : FString, (SkinNameOccurrences y (l ++ [x]) : Int)
        ≤ max st.MaxCnt ((SkinNameOccurrences x l : Int) + 1) := by
      intro y
      rw [hocc y]
      by_cases hy : FString.EqualsIgnoreCase y x = true
      · have e : (SkinNameOccurrences y l : Int) = (SkinNameOccurrences x l : Int) := by
          have : ∀ n : FString, FString.EqualsIgnoreCase n y = FString.EqualsIgnoreCase n x := by
            intro n
            rw [FString.EqualsIgnoreCase_iff] at hy
            simp only [FString.EqualsIgnoreCase, hy]
          simp only [SkinNameOccurrences, this]
        simp only [hy, if_true, e]
        exact le_max_right _ _
      · simp only [hy, Bool.false_eq_true, if_false, add_zero]
        exact le_trans (ih2 y) (le_max_left _ _)
    have htake : ∀ j : Nat, j < l.length → (l ++ [x]).take (j + 1) = l.take (j + 1) := by
      intro j hj
      rw [List.take_append_of_le_length (by omega)]
    unfold CountSkinName
    simp only [hcnt]
    by_cases hgt : (SkinNameOccurrences x l : Int) + 1 > st.MaxCnt
    · simp only [hgt, if_true]
      refine ⟨hcounter, ?_, ?_, ?_⟩
      · intro y
        have := hle y
        rwa [max_eq_right (le_of_lt hgt)] at this
      · intro h; simp at h
      · intro _
        refine ⟨l.length, x, by simp, rfl, ?_, ?_⟩
        · rw [List.take_of_length_le (by simp), hoccx]
        · intro j y hj hy
          have hy' : l[j]? = some y := by
            rw [List.getElem?_append_left hj] at hy; exact hy
          rw [htake j hj]
          have h1 : (SkinNameOccurrences y (l.take (j + 1)) : Int) ≤ (SkinNameOccurrences y l : Int) :=
            by exact_mod_cast SkinNameOccurrences_take_le y l (j + 1)
          have h2 := ih2 y
          omega
    · simp only [hgt, if_false]
      refine ⟨hcounter, ?_, ?_, ?_⟩
      · intro y
        have := hle y
        rwa [max_eq_left (not_lt.1 hgt)] at this
      · intro h; simp at h
      · intro _
        have hl : l ≠ [] := by
          intro hnil
          have h0 := (ih3 hnil).1
          have : (0 : Int) ≤ (SkinNameOccurrences x l : Int) := Int.natCast_nonneg _
          omega
        obtain ⟨i, z, hz, hout, hmax, hfirst⟩ := ih4 hl
        have hi : i < l.length := (List.getElem?_eq_some.1 hz).1
        refine ⟨i, z, ?_, hout, ?_, ?_⟩
        · rw [List.getElem?_append_left hi]; exact hz
        · rw [htake i hi]; exact hmax
        · intro j y hj hy
          have hjl : j < l.length := by omega
          rw [List.getElem?_append_left hjl] at hy
          rw [htake j hjl]
          exact hfirst j y hj hy

/-- C20 (as amended): `GetMaterialSlotNames` reports the most frequent skin
name, skin names being told apart up to the case of ASCII letters as the
counter map does.  For every list of material slot names of a mesh,
skeletal or static, in which at least one counted slot yields a skin name
(the slots equal to `wraith_base_eyecornea` or `wraith_base_eyeshadow` and
the slots without a skin name are not counted), `OutSkinName` is the skin
name of a counted slot; its number of occurrences among the counted skin
names is at least that of every name; and it is the name at the first
position, in slot order, at which the running count reaches that maximum. -/
theorem most_frequent_skin_name (MaterialSlotNames : List FString) (OutSkinName : FString)
    (h : CountedSkinNames MaterialSlotNames ≠ []) :
    (GetMaterialSlotNames (FMeshObject.StaticMesh MaterialSlotNames) OutSkinName).OutSkinName
      = (GetMaterialSlotNames (FMeshObject.SkeletalMesh MaterialSlotNames)
          OutSkinName).OutSkinName ∧
    ∃ i : Nat,
      (CountedSkinNames MaterialSlotNames)[i]?
        = some (GetMaterialSlotNames (FMeshObject.SkeletalMesh MaterialSlotNames)
            OutSkinName).OutSkinName ∧
      (∀ y : FString, SkinNameOccurrences y (CountedSkinNames MaterialSlotNames)
        ≤ SkinNameOccurrences
            (GetMaterialSlotNames (FMeshObject.SkeletalMesh MaterialSlotNames)
              OutSkinName).OutSkinName
            (CountedSkinNames MaterialSlotNames)) ∧
      SkinNameOccurrences
          (GetMaterialSlotNames (FMeshObject.SkeletalMesh MaterialSlotNames)
            OutSkinName).OutSkinName
          ((CountedSkinNames MaterialSlotNames).take (i + 1))
        = SkinNameOccurrences
            (GetMaterialSlotNames (FMeshObject.SkeletalMesh MaterialSlotNames)
              OutSkinName).OutSkinName
            (CountedSkinNames MaterialSlotNames) ∧
      ∀ (j : Nat) (y : FString), j < i → (CountedSkinNames MaterialSlotNames)[j]? = some y →
        SkinNameOccurrences y ((CountedSkinNames MaterialSlotNames).take (j + 1))
          < SkinNameOccurrences
              (GetMaterialSlotNames (FMeshObject.SkeletalMesh MaterialSlotNames)
                OutSkinName).OutSkinName
              (CountedSkinNames MaterialSlotNames) := by
  refine ⟨rfl, ?_⟩
  have hout : (GetMaterialSlotNames (FMeshObject.SkeletalMesh MaterialSlotNames)
      OutSkinName).OutSkinName
      = ((CountedSkinNames MaterialSlotNames).foldl CountSkinName ⟨[], 0, []⟩).OutSkinName := by
    simp only [GetMaterialSlotNames, CountSkinNames, foldl_CountSlotName]
  rw [hout]
  obtain ⟨_, hle, _, hne⟩ := CountSkinName_invariant (CountedSkinNames MaterialSlotNames)
  obtain ⟨i, x, hx, hox, hmax, hfirst⟩ := hne h
  generalize ((CountedSkinNames MaterialSlotNames).foldl CountSkinName ⟨[], 0, []⟩) = st
    at hle hox hmax hfirst ⊢
  subst hox
  have htot : (SkinNameOccurrences st.OutSkinName (CountedSkinNames MaterialSlotNames) : Int)
      = st.MaxCnt := by
    have h1 := hle st.OutSkinName
    have h2 : (SkinNameOccurrences st.OutSkinName
        ((CountedSkinNames MaterialSlotNames).take (i + 1)) : Int)
        ≤ (SkinNameOccurrences st.OutSkinName (CountedSkinNames MaterialSlotNames) : Int) := by
      exact_mod_cast SkinNameOccurrences_take_le _ _ (i + 1)
    omega
  refine ⟨i, hx, ?_, ?_, ?_⟩
  · intro y
    have := hle y
    omega
  · omega
  · intro j y hj hy
    have := hfirst j y hj hy
    omega

/-- The most frequent skin name of the slots `a_X_1`, `a_x_2`, `a_Y_3`,
`a_Y_4`. -/
theorem most_frequent_skin_name_witness :
    (GetMaterialSlotNames (FMeshObject.StaticMesh
        ["a_X_1".toList, "a_x_2".toList, "a_Y_3".toList, "a_Y_4".toList]) []).OutSkinName
      = (GetMaterialSlotNames (FMeshObject.SkeletalMesh
          ["a_X_1".toList, "a_x_2".toList, "a_Y_3".toList, "a_Y_4".toList]) []).OutSkinName ∧
    ∃ i : Nat,
      (CountedSkinNames ["a_X_1".toList, "a_x_2".toList, "a_Y_3".toList, "a_Y_4".toList])[i]?
        = some (GetMaterialSlotNames (FMeshObject.SkeletalMesh
            ["a_X_1".toList, "a_x_2".toList, "a_Y_3".toList, "a_Y_4".toList]) []).OutSkinName ∧
      (∀ y : FString, SkinNameOccurrences y
          (CountedSkinNames ["a_X_1".toList, "a_x_2".toList, "a_Y_3".toList, "a_Y_4".toList])
        ≤ SkinNameOccurrences
            (GetMaterialSlotNames (FMeshObject.SkeletalMesh
              ["a_X_1".toList, "a_x_2".toList, "a_Y_3".toList, "a_Y_4".toList]) []).OutSkinName
            (CountedSkinNames
              ["a_X_1".toList, "a_x_2".toList, "a_Y_3".toList, "a_Y_4".toList])) ∧
      SkinNameOccurrences
          (GetMaterialSlotNames (FMeshObject.SkeletalMesh
            ["a_X_1".toList, "a_x_2".toList, "a_Y_3".toList, "a_Y_4".toList]) []).OutSkinName
          ((CountedSkinNames
            ["a_X_1".toList, "a_x_2".toList, "a_Y_3".toList, "a_Y_4".toList]).take (i + 1))
        = SkinNameOccurrences
            (GetMaterialSlotNames (FMeshObject.SkeletalMesh
              ["a_X_1".toList, "a_x_2".toList, "a_Y_3".toList, "a_Y_4".toList]) []).OutSkinName
            (CountedSkinNames
              ["a_X_1".toList, "a_x_2".toList, "a_Y_3".toList, "a_Y_4".toList]) ∧
      ∀ (j : Nat) (y : FString), j < i →
        (CountedSkinNames
          ["a_X_1".toList, "a_x_2".toList, "a_Y_3".toList, "a_Y_4".toList])[j]? = some y →
        SkinNameOccurrences y ((CountedSkinNames
            ["a_X_1".toList, "a_x_2".toList, "a_Y_3".toList, "a_Y_4".toList]).take (j + 1))
          < SkinNameOccurrences
              (GetMaterialSlotNames (FMeshObject.SkeletalMesh
                ["a_X_1".toList, "a_x_2".toList, "a_Y_3".toList, "a_Y_4".toList]) []).OutSkinName
              (CountedSkinNames
                ["a_X_1".toList, "a_x_2".toList, "a_Y_3".toList, "a_Y_4".toList]) :=
  most_frequent_skin_name ["a_X_1".toList, "a_x_2".toList, "a_Y_3".toList, "a_Y_4".toList] []
    (by decide)

/-- C20 (as stated) fails when skin names differ in case only: for the slots
`a_X_1`, `a_x_2`, `a_Y_3`, `a_Y_4` the counted skin names are `X`, `x`, `Y`,
`Y`, the counter map takes `x` for the key `X`, and `OutSkinName` is `x`,
which occurs once among the skin names while `Y` occurs twice. -/
theorem skin_names_counted_ignoring_case :
    CountedSkinNames ["a_X_1".toList, "a_x_2".toList, "a_Y_3".toList, "a_Y_4".toList]
      = ["X".toList, "x".toList, "Y".toList, "Y".toList] ∧
    (GetMaterialSlotNames (FMeshObject.SkeletalMesh
        ["a_X_1".toList, "a_x_2".toList, "a_Y_3".toList, "a_Y_4".toList]) []).OutSkinName
      = "x".toList ∧
    (CountedSkinNames
        ["a_X_1".toList, "a_x_2".toList, "a_Y_3".toList, "a_Y_4".toList]).count "x".toList = 1 ∧
    (CountedSkinNames
        ["a_X_1".toList, "a_x_2".toList, "a_Y_3".toList, "a_Y_4".toList]).count "Y".toList = 2 := by
  decide

end SkinCount

end ApexLegendsMaterial
